import Mathlib

/-!
# A model of the PieceChain buffer (src/src/PieceChain.c)

Shallow embedding of the piece-chain data structure.  Memory is modelled
explicitly: blocks own their used bytes as a `List Nat` (one `Nat` per byte),
pieces reference a block by index plus an offset (the analogue of the
`unsigned char* data` pointer), and the circular doubly-linked active list
`file->pieces` is modelled by explicit `prev`/`next` pointer fields together
with the two sentinel fields `headNext`/`headPrev` (the `list_head` of the
chain root).  Piece identities are indices into the global `pieces` list
(the `all_pieces` allocation list); freed pieces are simply never referenced
again, which is observationally equivalent.  `size_t` values are `Nat`;
where the C code can actually wrap (the `piece_len` computation in
`piece_chain_visit`) the 64-bit wrap-around is modelled explicitly.
-/

set_option autoImplicit false

/-- A reference held by a `prev`/`next` pointer of the circular list: either the
sentinel `&file->pieces` or the piece with the given index in `all_pieces`. -/
inductive NodeRef where
  | head
  | node (i : Nat)
deriving DecidableEq, Repr

/-- A byte arena (`Block`).  `size` is the capacity (`block->size`), `data` is the
list of *used* bytes, so `block->len = data.length`.  The unused tail of the C
buffer is uninitialised and never legitimately read, so it is not modelled. -/
structure Block where
  size : Nat
  data : List Nat
deriving DecidableEq, Repr

instance : Inhabited Block := ⟨⟨0, []⟩⟩

/-- A piece: `blk`/`off` split the `unsigned char* data` pointer into a block
index and an offset into that block; `size` is the byte count.  `prev`/`next`
are the `list` links of the active chain (possibly stale for unlinked pieces,
exactly as in the C code). -/
structure Piece where
  blk : Nat
  off : Nat
  size : Nat
  prev : NodeRef
  next : NodeRef
deriving DecidableEq, Repr

instance : Inhabited Piece := ⟨⟨0, 0, 0, .head, .head⟩⟩

/-- A span of pieces (`Span`): inclusive endpoints plus the byte length.
`none` endpoints model NULL (the empty span).  `end` is a Lean keyword, so the
field is called `stop`. -/
structure Span where
  start : Option Nat
  stop : Option Nat
  len : Nat
deriving DecidableEq, Repr

/-- A change record: original span, replacement span and absolute position. -/
structure Change where
  original : Span
  replacement : Span
  pos : Nat
deriving DecidableEq, Repr

/-- The piece chain root (`struct PieceChain_t`).  `blocks` is `all_blocks`,
`pieces` is `all_pieces` (indices are piece identities), `headNext`/`headPrev`
are the two fields of the `file->pieces` sentinel, `revisions` is
`all_revisions` (each revision is its list of changes) and `currentRev` is the
index of `current_revision` in that list. -/
structure PieceChain where
  size : Nat
  dirty : Bool
  blocks : List Block
  pieces : List Piece
  headNext : NodeRef
  headPrev : NodeRef
  cache : Option Nat
  revisions : List (List Change)
  currentRev : Nat
  pendingChanges : List Change
deriving DecidableEq, Repr

/-- Read the piece with a given index (out-of-range reads yield the default
piece; they correspond to undefined behaviour in C and never occur in
well-formed states). -/
def getPiece (c : PieceChain) (i : Nat) : Piece :=
  c.pieces.getD i default

/-- Follow a `next` pointer. -/
def getNextOf (c : PieceChain) (r : NodeRef) : NodeRef :=
  match r with
  | .head => c.headNext
  | .node i => (getPiece c i).next

/-- Follow a `prev` pointer. -/
def getPrevOf (c : PieceChain) (r : NodeRef) : NodeRef :=
  match r with
  | .head => c.headPrev
  | .node i => (getPiece c i).prev

/-- Write the `next` field of a node (`x->next = v`). -/
def setNextOf (c : PieceChain) (r v : NodeRef) : PieceChain :=
  match r with
  | .head => { c with headNext := v }
  | .node i => { c with pieces := c.pieces.set i { getPiece c i with next := v } }

/-- Write the `prev` field of a node (`x->prev = v`). -/
def setPrevOf (c : PieceChain) (r v : NodeRef) : PieceChain :=
  match r with
  | .head => { c with headPrev := v }
  | .node i => { c with pieces := c.pieces.set i { getPiece c i with prev := v } }

/-- Walk the active chain along `next` pointers, collecting piece indices.
Fuel guarantees termination on malformed states; with fuel
`c.pieces.length` every well-formed chain is traversed completely. -/
def walkIds (c : PieceChain) : NodeRef → Nat → List Nat
  | .head, _ => []
  | .node _, 0 => []
  | .node i, fuel + 1 => i :: walkIds c (getPiece c i).next fuel

/-- The indices of the active pieces, in chain order (the traversal performed
by `list_for_each_member(p, &file->pieces, Piece, list)`). -/
def chainIds (c : PieceChain) : List Nat :=
  walkIds c c.headNext c.pieces.length

/-- The bytes of a piece, read from its backing block. -/
def pieceBytes (c : PieceChain) (i : Nat) : List Nat :=
  let p := getPiece c i
  ((c.blocks.getD p.blk default).data.drop p.off).take p.size

/-- The logical contents of the buffer: concatenation of the active pieces. -/
def contents (c : PieceChain) : List Nat :=
  ((chainIds c).map (pieceBytes c)).flatten

/-- `MEM_BLOCK_SIZE`: 1 MiB. -/
def MEM_BLOCK_SIZE : Nat := 1024 * 1024

/-- `block_can_fit`. -/
def block_can_fit (b : Block) (n : Nat) : Bool :=
  decide (n ≤ b.size - b.data.length)

/-- `block_alloc`: a fresh heap block of capacity `max size MEM_BLOCK_SIZE`. -/
def block_alloc (n : Nat) : Block :=
  { size := max n MEM_BLOCK_SIZE, data := [] }

/-- `cache_put`. -/
def cache_put (c : PieceChain) (p : Option Nat) : PieceChain :=
  { c with cache := p }

/-- Update the last element of a list (used for
`list_last(&file->pending_changes, Change, list)` mutations). -/
def updateLast {α : Type} (f : α → α) : List α → List α
  | [] => []
  | [x] => [f x]
  | x :: y :: t => x :: updateLast f (y :: t)

/-- `cache_insert`: the fast path that inserts `d` in place inside the cached
piece at local offset `poff`.  Returns `none` when the fast path does not
apply (C returns false). -/
def cache_insert (c : PieceChain) (pid poff : Nat) (d : List Nat) :
    Option PieceChain :=
  match c.cache with
  | none => none
  | some cid =>
    if cid ≠ pid then none
    else
      match c.blocks.getLast? with
      | none => none
      | some blk =>
        let p := getPiece c pid
        if block_can_fit blk d.length then
          -- blk_insertion = blk->data + blk->len - (piece->size - piece_offset)
          let k := blk.data.length - (p.size - poff)
          let blkData :=
            if k = blk.data.length then blk.data ++ d
            else blk.data.take k ++ d ++ blk.data.drop k
          let c := { c with
            blocks := c.blocks.set (c.blocks.length - 1) { blk with data := blkData } }
          let c := { c with
            pieces := c.pieces.set pid { p with size := p.size + d.length } }
          let c := { c with size := c.size + d.length }
          some { c with
            pendingChanges := updateLast
              (fun ch => { ch with
                replacement := { ch.replacement with len := ch.replacement.len + d.length } })
              c.pendingChanges }
        else none

/-- `cache_delete`: the fast path that removes `dlen` bytes in place from the
cached piece starting at local offset `poff`. -/
def cache_delete (c : PieceChain) (pid poff dlen : Nat) :
    Option PieceChain :=
  match c.cache with
  | none => none
  | some cid =>
    if cid ≠ pid then none
    else
      match c.blocks.getLast? with
      | none => none
      | some blk =>
        let p := getPiece c pid
        if p.size - poff < dlen then none
        else
          let k := blk.data.length - (p.size - poff)
          let blkData := blk.data.take k ++ blk.data.drop (k + dlen)
          let c := { c with
            blocks := c.blocks.set (c.blocks.length - 1) { blk with data := blkData } }
          let c := { c with
            pieces := c.pieces.set pid { p with size := p.size - dlen } }
          let c := { c with size := c.size - dlen }
          some { c with
            pendingChanges := updateLast
              (fun ch => { ch with
                replacement := { ch.replacement with len := ch.replacement.len - dlen } })
              c.pendingChanges }

/-- The length computation of `span_init`: walk from piece `s` to piece `e`
along `next` pointers summing sizes (`list_for_each_interval`). -/
def spanLenWalk (c : PieceChain) (e : Nat) : Nat → Nat → Nat
  | s, fuel =>
    (getPiece c s).size +
      (if s = e then 0
       else
         match fuel, (getPiece c s).next with
         | f + 1, .node j => spanLenWalk c e j f
         | _, _ => 0)

/-- `span_init`. -/
def span_mk (c : PieceChain) (s e : Option Nat) : Span :=
  match s, e with
  | none, none => ⟨none, none, 0⟩
  | some s', some e' => ⟨s, e, spanLenWalk c e' s' c.pieces.length⟩
  | _, _ => ⟨s, e, 0⟩

/-- `span_swap`: splice the `replacement` span in place of the `original` span
by rewriting the two hinge pointers, then adjust `size`.  The three branches
match the C code; the `_` fallbacks correspond to states the C code would
crash on (a span with non-zero `len` but NULL endpoints). -/
def span_swap (c : PieceChain) (original replacement : Span) : PieceChain :=
  if original.len = 0 ∧ replacement.len = 0 then c
  else
    let c' :=
      if original.len = 0 then
        match replacement.start, replacement.stop with
        | some s, some e =>
          let c1 := setNextOf c (getPrevOf c (.node s)) (.node s)
          setPrevOf c1 (getNextOf c1 (.node e)) (.node e)
        | _, _ => c
      else if replacement.len = 0 then
        match original.start, original.stop with
        | some s, some e =>
          let c1 := setNextOf c (getPrevOf c (.node s)) (getNextOf c (.node e))
          setPrevOf c1 (getNextOf c1 (.node e)) (getPrevOf c1 (.node s))
        | _, _ => c
      else
        match original.start, original.stop, replacement.start, replacement.stop with
        | some os, some oe, some rs, some re =>
          let c1 := setNextOf c (getPrevOf c (.node os)) (.node rs)
          setPrevOf c1 (getNextOf c1 (.node oe)) (.node re)
        | _, _, _, _ => c
    { c' with size := c'.size - original.len + replacement.len }

/-- `revision_purge`: discard redo history (every revision after the current
one).  The freed pieces simply become unreachable in the model. -/
def revision_purge (c : PieceChain) : PieceChain :=
  if c.revisions = [] then c
  else if c.currentRev = c.revisions.length - 1 then c
  else { c with revisions := c.revisions.take (c.currentRev + 1) }

/-- The inner loop of `piece_find`: walk the active pieces with a running
absolute offset. -/
def piece_find_go (c : PieceChain) (abs : Nat) : List Nat → Nat → Option (Nat × Nat)
  | [], _ => none
  | i :: t, abspos =>
    if abs < abspos + (getPiece c i).size then some (i, abs - abspos)
    else piece_find_go c abs t (abspos + (getPiece c i).size)

/-- `piece_find`. -/
def piece_find (c : PieceChain) (abs : Nat) : Option (Nat × Nat) :=
  if abs > c.size then none
  else piece_find_go c abs (chainIds c) 0

/-- `piece_chain_commit`. -/
def piece_chain_commit (c : PieceChain) : Bool × PieceChain :=
  if c.pendingChanges = [] then (true, { c with cache := none })
  else
    (true, { c with
      revisions := c.revisions ++ [c.pendingChanges],
      currentRev := c.revisions.length,
      pendingChanges := [],
      cache := none })

/-- The undo loop: revert the changes of a revision in reverse order,
recording each change's position in `*pos` (the argument list is already the
reversed change list). -/
def undoLoop : PieceChain → List Change → Option Nat → PieceChain × Option Nat
  | c, [], pos => (c, pos)
  | c, ch :: t, _ => undoLoop (span_swap c ch.replacement ch.original) t (some ch.pos)

/-- `piece_chain_undo`.  Returns (success, new state, `*pos`). -/
def piece_chain_undo (c : PieceChain) : Bool × PieceChain × Option Nat :=
  let c := (piece_chain_commit c).2
  if c.currentRev = 0 then (false, c, none)
  else
    let res := undoLoop c (c.revisions.getD c.currentRev []).reverse none
    (true, { res.1 with currentRev := c.currentRev - 1 }, res.2)

/-- The redo loop: reapply the changes of a revision in forward order. -/
def redoLoop : PieceChain → List Change → Option Nat → PieceChain × Option Nat
  | c, [], pos => (c, pos)
  | c, ch :: t, _ => redoLoop (span_swap c ch.original ch.replacement) t (some ch.pos)

/-- `piece_chain_redo`.  Returns (success, new state, `*pos`). -/
def piece_chain_redo (c : PieceChain) : Bool × PieceChain × Option Nat :=
  let c := (piece_chain_commit c).2
  if c.currentRev + 1 ≥ c.revisions.length then (false, c, none)
  else
    let res := redoLoop c (c.revisions.getD (c.currentRev + 1) []) none
    (true, { res.1 with currentRev := c.currentRev + 1 }, res.2)

/-- The piece lookup at the start of `piece_chain_insert`: `piece_find`, with
the fallbacks for an empty chain and for insertion at end of file.  Returns
`none` when the insert must fail. -/
def insert_find (c : PieceChain) (offset : Nat) : Option (Option Nat × Nat) :=
  match piece_find c offset with
  | some (p, po) => some (some p, po)
  | none =>
    if c.headNext = .head then some (none, 0)
    else if offset = c.size then
      match c.headPrev with
      | .node j => some (some j, (getPiece c j).size)
      | .head => none -- unreachable: the chain is known to be non-empty
    else none

/-- The cache fast path of `piece_chain_insert`: try `cache_insert` on the
found piece, then on its predecessor when inserting at a piece boundary. -/
def insert_fast (c : PieceChain) (pieceOpt : Option Nat) (piece_offset : Nat)
    (d : List Nat) : Option PieceChain :=
  match pieceOpt with
  | none => none
  | some p =>
    match cache_insert c p piece_offset d with
    | some c' => some c'
    | none =>
      if piece_offset = 0 ∧ c.headNext ≠ .node p then
        match (getPiece c p).prev with
        | .node q => cache_insert c q (getPiece c q).size d
        | .head => none
      else none

/-- The slow path of `piece_chain_insert`: append the payload to the tail
block (allocating a block if needed), build the new piece(s) for the three
insertion shapes, record the change, set the cache and splice. -/
def insert_slow (c : PieceChain) (offset : Nat) (data : List Nat)
    (pieceOpt : Option Nat) (piece_offset : Nat) : PieceChain :=
  -- choose the destination block: reuse the tail block if it fits, otherwise
  -- allocate a fresh one; either way the destination is the last block
  let c :=
    if (match c.blocks.getLast? with
        | some b => block_can_fit b data.length
        | none => false)
    then c
    else { c with blocks := c.blocks ++ [block_alloc data.length] }
  let bIdx := c.blocks.length - 1
  let b := c.blocks.getD bIdx default
  let ptrOff := b.data.length
  let c := { c with
    blocks := c.blocks.set bIdx { b with data := b.data ++ data } }
  match pieceOpt with
  | none =>
    -- first insertion into an empty chain
    let newId := c.pieces.length
    let newP : Piece :=
      { blk := bIdx, off := ptrOff, size := data.length,
        prev := .head, next := .head }
    let c := { c with pieces := c.pieces ++ [newP] }
    let orig : Span := ⟨none, none, 0⟩
    let repl := span_mk c (some newId) (some newId)
    let c := { c with
      pendingChanges := c.pendingChanges ++ [⟨orig, repl, offset⟩] }
    let c := cache_put c (some newId)
    span_swap c orig repl
  | some p =>
    if piece_offset = 0 ∨ piece_offset = (getPiece c p).size then
      -- insertion at a piece boundary
      let newId := c.pieces.length
      let links :=
        if piece_offset = 0 then ((getPiece c p).prev, NodeRef.node p)
        else (NodeRef.node p, (getPiece c p).next)
      let newP : Piece :=
        { blk := bIdx, off := ptrOff, size := data.length,
          prev := links.1, next := links.2 }
      let c := { c with pieces := c.pieces ++ [newP] }
      let orig : Span := ⟨none, none, 0⟩
      let repl := span_mk c (some newId) (some newId)
      let c := { c with
        pendingChanges := c.pendingChanges ++ [⟨orig, repl, offset⟩] }
      let c := cache_put c (some newId)
      span_swap c orig repl
    else
      -- mid-piece split: three new pieces
      let pc := getPiece c p
      let beforeId := c.pieces.length
      let middleId := c.pieces.length + 1
      let afterId := c.pieces.length + 2
      let beforeP : Piece :=
        { blk := pc.blk, off := pc.off, size := piece_offset,
          prev := pc.prev, next := .node middleId }
      let middleP : Piece :=
        { blk := bIdx, off := ptrOff, size := data.length,
          prev := .node beforeId, next := .node afterId }
      let afterP : Piece :=
        { blk := pc.blk, off := pc.off + piece_offset,
          size := pc.size - piece_offset,
          prev := .node middleId, next := pc.next }
      let c := { c with pieces := c.pieces ++ [beforeP, middleP, afterP] }
      let orig := span_mk c (some p) (some p)
      let repl := span_mk c (some beforeId) (some afterId)
      let c := { c with
        pendingChanges := c.pendingChanges ++ [⟨orig, repl, offset⟩] }
      let c := cache_put c (some middleId)
      span_swap c orig repl

/-- `piece_chain_insert`. -/
def piece_chain_insert (c0 : PieceChain) (offset : Nat) (data : List Nat) :
    Bool × PieceChain :=
  if data.length = 0 then (true, c0)
  else if offset > c0.size then (false, c0)
  else
    match insert_find c0 offset with
    | none => (false, c0)
    | some (pieceOpt, piece_offset) =>
      let c := revision_purge c0
      match insert_fast c pieceOpt piece_offset data with
      | some c' => (true, { c' with dirty := true })
      | none =>
        (true, { insert_slow c offset data pieceOpt piece_offset with
          dirty := true })

/-- Locate the end of a deletion range: `piece_find`, clamped to the last
piece if the end fell outside the file. -/
def delete_find_end (c : PieceChain) (sp offEnd : Nat) : Nat × Nat :=
  match piece_find c offEnd with
  | some (e, eo) => (e, eo)
  | none =>
    match c.headPrev with
    | .node j => (j, (getPiece c j).size)
    | .head => (sp, (getPiece c sp).size) -- unreachable: chain non-empty

/-- The slow path of `piece_chain_delete`: build the replacement pieces for
the four split shapes, record the change and splice. -/
def delete_slow (c : PieceChain) (offset dlen sp sl ep el : Nat) : PieceChain :=
  let splitStart := sl ≠ 0
  let splitEnd := el ≠ (getPiece c ep).size
  let before := (getPiece c sp).prev
  let after := (getPiece c ep).next
  let spc := getPiece c sp
  let epc := getPiece c ep
  if splitStart then
    if splitEnd then
      -- both ends split: two new pieces, linked to each other
      let nsId := c.pieces.length
      let neId := c.pieces.length + 1
      let nsP : Piece :=
        { blk := spc.blk, off := spc.off, size := sl,
          prev := before, next := .node neId }
      let neP : Piece :=
        { blk := epc.blk, off := epc.off + el, size := epc.size - el,
          prev := .node nsId, next := after }
      let c := { c with pieces := c.pieces ++ [nsP, neP] }
      let orig := span_mk c (some sp) (some ep)
      let repl := span_mk c (some nsId) (some neId)
      let c := { c with
        pendingChanges := c.pendingChanges ++ [⟨orig, repl, offset⟩] }
      span_swap c orig repl
    else
      -- only the start splits: a single new piece on both endpoints
      let nsId := c.pieces.length
      let nsP : Piece :=
        { blk := spc.blk, off := spc.off, size := sl,
          prev := before, next := after }
      let c := { c with pieces := c.pieces ++ [nsP] }
      let orig := span_mk c (some sp) (some ep)
      let repl := span_mk c (some nsId) (some nsId)
      let c := { c with
        pendingChanges := c.pendingChanges ++ [⟨orig, repl, offset⟩] }
      span_swap c orig repl
  else
    if splitEnd then
      -- only the end splits
      let neId := c.pieces.length
      let neP : Piece :=
        { blk := epc.blk, off := epc.off + el, size := epc.size - el,
          prev := before, next := after }
      let c := { c with pieces := c.pieces ++ [neP] }
      let orig := span_mk c (some sp) (some ep)
      let repl := span_mk c (some neId) (some neId)
      let c := { c with
        pendingChanges := c.pendingChanges ++ [⟨orig, repl, offset⟩] }
      span_swap c orig repl
    else
      -- pure deletion of whole pieces
      let orig := span_mk c (some sp) (some ep)
      let repl : Span := ⟨none, none, 0⟩
      let c := { c with
        pendingChanges := c.pendingChanges ++ [⟨orig, repl, offset⟩] }
      span_swap c orig repl

/-- `piece_chain_delete`. -/
def piece_chain_delete (c0 : PieceChain) (offset dlen : Nat) :
    Bool × PieceChain :=
  if dlen = 0 then (true, c0)
  else if offset > c0.size then (false, c0)
  else
    match piece_find c0 offset with
    | none => (false, c0)
    | some (sp, sl) =>
      let ee := delete_find_end c0 sp ((offset + dlen) % 2 ^ 64)
      let c := revision_purge c0
      match cache_delete c sp sl dlen with
      | some c' => (true, { c' with dirty := true })
      | none =>
        (true, { delete_slow c offset dlen sp sl ee.1 ee.2 with dirty := true })

/-- `piece_chain_replace`: delete then insert. -/
def piece_chain_replace (c : PieceChain) (offset : Nat) (data : List Nat) :
    Bool × PieceChain :=
  match piece_chain_delete c offset data.length with
  | (true, c') => piece_chain_insert c' offset data
  | (false, c') => (false, c')

/-- `piece_chain_open(NULL)`: an empty chain with one sealed empty revision. -/
def piece_chain_open_empty : PieceChain :=
  { size := 0, dirty := false, blocks := [], pieces := [],
    headNext := .head, headPrev := .head, cache := none,
    revisions := [[]], currentRev := 0, pendingChanges := [] }

/-- `piece_chain_open(path)` for a regular file whose contents are `bs`:
mmap the bytes as one block and one initial piece, then seal the initial
revision via `piece_chain_commit`. -/
def piece_chain_open_bytes (bs : List Nat) : PieceChain :=
  let base : PieceChain :=
    { size := 0, dirty := false, blocks := [], pieces := [],
      headNext := .head, headPrev := .head, cache := none,
      revisions := [], currentRev := 0, pendingChanges := [] }
  let c :=
    if bs.length > 0 then
      { base with
        blocks := [{ size := bs.length, data := bs }],
        pieces := [{ blk := 0, off := 0, size := bs.length,
                     prev := .head, next := .head }] }
    else base
  let pOpt : Option Nat := if bs.length > 0 then some 0 else none
  let orig : Span := ⟨none, none, 0⟩
  let repl := span_mk c pOpt pOpt
  let c := { c with pendingChanges := [⟨orig, repl, 0⟩] }
  let c := span_swap c orig repl
  (piece_chain_commit c).2

/-- 2^64, for modelling `size_t` wrap-around. -/
def USIZE : Nat := 18446744073709551616

/-- `size_t` subtraction `a - b` (wraps modulo 2^64). -/
def sub64 (a b : Nat) : Nat :=
  (a + (USIZE - b % USIZE)) % USIZE

/-- One slice handed to the `piece_chain_visit` callback: the absolute offset,
the `len` argument, and the bytes actually readable at the passed pointer. -/
structure VisitSlice where
  off : Nat
  len : Nat
  bytes : List Nat
deriving DecidableEq, Repr

/-- The loop of `piece_chain_visit` (with a callback that always returns
true): every slice passed to the visitor, in order.  The `piece_len`
computation wraps modulo 2^64 exactly as the `size_t` arithmetic does. -/
def visitGo (c : PieceChain) (start vlen : Nat) : List Nat → Nat → List VisitSlice
  | [], _ => []
  | i :: t, off =>
    let p := getPiece c i
    let rest := visitGo c start vlen t (off + p.size)
    if off + p.size ≥ start then
      let pieceStart := if off ≤ start then start - off else 0
      let subAmt :=
        if off + p.size ≥ start + vlen then off + p.size - start - vlen else 0
      let pieceLen := sub64 (p.size - pieceStart) subAmt
      { off := off + pieceStart, len := pieceLen,
        bytes := ((c.blocks.getD p.blk default).data.drop (p.off + pieceStart)).take pieceLen }
        :: rest
    else rest

/-- `piece_chain_visit` with an always-true visitor, as the slice sequence. -/
def piece_chain_visit_slices (c : PieceChain) (start vlen : Nat) : List VisitSlice :=
  if start ≥ c.size ∨ vlen = 0 then []
  else visitGo c start vlen (chainIds c) 0

/-- `struct PieceChainIterator_t` (minus the back-pointer to the chain). -/
structure PieceChainIterator where
  max_off : Nat
  current_off : Nat
  current_piece : Option Nat
deriving DecidableEq, Repr

/-- `piece_chain_iter`. -/
def piece_chain_iter (c : PieceChain) (start len : Nat) : PieceChainIterator :=
  { max_off := min (start + len) c.size, current_off := start, current_piece := none }

/-- The search loop in the first call of `piece_chain_iter_next`: find the
piece containing `start` (note the strict `>`). -/
def iterFindGo (c : PieceChain) (start : Nat) : List Nat → Nat → Option (Nat × Nat)
  | [], _ => none
  | i :: t, off =>
    if off + (getPiece c i).size > start then
      some (i, if off ≤ start then start - off else 0)
    else iterFindGo c start t (off + (getPiece c i).size)

/-- `piece_chain_iter_next`: `none` models returning false.  The two `none`
fallbacks inside correspond to undefined behaviour in C (they cannot occur
while `size` equals the total piece size). -/
def piece_chain_iter_next (c : PieceChain) (it : PieceChainIterator) :
    Option (List Nat × PieceChainIterator) :=
  if it.current_off ≥ it.max_off then none
  else
    match it.current_piece with
    | none =>
      let start := it.current_off
      match iterFindGo c start (chainIds c) 0 with
      | none => none
      | some (i, pieceStart) =>
        let p := getPiece c i
        let l := min (p.size - pieceStart) (it.max_off - start)
        some (((c.blocks.getD p.blk default).data.drop (p.off + pieceStart)).take l,
              { it with current_piece := some i, current_off := start + l })
    | some i =>
      match (getPiece c i).next with
      | .head => none
      | .node j =>
        let p := getPiece c j
        let l :=
          if it.current_off + p.size > it.max_off then it.max_off - it.current_off
          else p.size
        some (((c.blocks.getD p.blk default).data.drop p.off).take l,
              { it with current_piece := some j, current_off := it.current_off + l })

/-- Run the iterator to exhaustion, collecting the yielded slices. -/
def iterCollect (c : PieceChain) : PieceChainIterator → Nat → List (List Nat)
  | _, 0 => []
  | it, fuel + 1 =>
    match piece_chain_iter_next c it with
    | none => []
    | some (bs, it') => bs :: iterCollect c it' fuel

/-- All slices yielded by an iterator over `[start, start+len)`. -/
def piece_chain_iter_slices (c : PieceChain) (start len : Nat) : List (List Nat) :=
  iterCollect c (piece_chain_iter c start len) (c.pieces.length + 1)

/-- Bytes of a string, for readable concrete test states. -/
def strBytes (s : String) : List Nat :=
  s.toList.map Char.toNat


/-! ## Representation invariant -/

/-- `nextPath c r l t`: starting from node `r`, the `next` pointers traverse
exactly the pieces of `l` in order and then reach `t`. -/
def nextPath (c : PieceChain) : NodeRef → List Nat → NodeRef → Bool
  | r, [], t => decide (getNextOf c r = t)
  | r, i :: l, t => decide (getNextOf c r = .node i) && nextPath c (.node i) l t

/-- `prevPath c r l t`: the `prev` pointers of the pieces of `l` (and finally
of `t`) point back along the list, starting at `r`. -/
def prevPath (c : PieceChain) : NodeRef → List Nat → NodeRef → Bool
  | r, [], t => decide (getPrevOf c t = r)
  | r, i :: l, t => decide (getPrevOf c (.node i) = r) && prevPath c (.node i) l t

/-- The active chain is exactly the circular doubly-linked list through the
pieces of `ids`: `next` pointers go `head → ids → head`, `prev` pointers go
backwards, ids are distinct indices of allocated pieces. -/
def chainRep (c : PieceChain) (ids : List Nat) : Bool :=
  nextPath c .head ids .head && prevPath c .head ids .head &&
    decide ids.Nodup && decide (∀ i ∈ ids, i < c.pieces.length)

/-- Total byte size of a list of pieces. -/
def sumS (c : PieceChain) (ids : List Nat) : Nat :=
  (ids.map fun i => (getPiece c i).size).sum

/-- Every piece of `ids` points inside the used region of an existing block. -/
def boundsOk (c : PieceChain) (ids : List Nat) : Bool :=
  decide (∀ i ∈ ids, (getPiece c i).blk < c.blocks.length ∧
    (getPiece c i).off + (getPiece c i).size ≤
      (c.blocks.getD (getPiece c i).blk default).data.length)

/-- Discipline of the piece cache: if a piece is cached it is an allocated
piece whose bytes end exactly where the last block's used region ends, no
other active piece overlaps the cached piece's bytes, and a pending change
exists (the one whose replacement span the cache extends). -/
def cacheOk (c : PieceChain) (ids : List Nat) : Bool :=
  match c.cache with
  | none => true
  | some i =>
    decide (i < c.pieces.length) &&
    decide (c.blocks ≠ []) &&
    decide ((getPiece c i).blk = c.blocks.length - 1) &&
    decide ((getPiece c i).off + (getPiece c i).size =
      (c.blocks.getD (c.blocks.length - 1) default).data.length) &&
    decide (∀ j ∈ ids, j ≠ i → (getPiece c j).blk = c.blocks.length - 1 →
      (getPiece c j).off + (getPiece c j).size + (getPiece c i).size ≤
        (c.blocks.getD (c.blocks.length - 1) default).data.length) &&
    decide (c.pendingChanges ≠ [])

/-- The full representation invariant of a piece chain, with the witnessing
chain order `ids` existentially quantified. -/
def ChainInv (c : PieceChain) : Prop :=
  ∃ ids, chainRep c ids = true ∧ c.size = sumS c ids ∧ boundsOk c ids = true ∧
    cacheOk c ids = true ∧ c.revisions ≠ [] ∧ c.currentRev < c.revisions.length

/-- The cache/block invariant claimed by the `cache_put` debug assertion:
a cached piece is the tail of the last block (its bytes end exactly where
that block's used region ends). -/
def CacheInv (c : PieceChain) : Prop :=
  ∀ i, c.cache = some i →
    i < c.pieces.length ∧
    c.blocks ≠ [] ∧
    (getPiece c i).blk = c.blocks.length - 1 ∧
    (getPiece c i).off + (getPiece c i).size =
      (c.blocks.getD (c.blocks.length - 1) default).data.length

/-- States reachable from `piece_chain_open` through the public mutating
operations. -/
inductive Reachable : PieceChain → Prop where
  | open_empty : Reachable piece_chain_open_empty
  | open_bytes (bs : List Nat) : Reachable (piece_chain_open_bytes bs)
  | ins (c : PieceChain) (offset : Nat) (d : List Nat) :
      Reachable c → Reachable (piece_chain_insert c offset d).2
  | del (c : PieceChain) (offset dlen : Nat) :
      Reachable c → Reachable (piece_chain_delete c offset dlen).2
  | repl (c : PieceChain) (offset : Nat) (d : List Nat) :
      Reachable c → Reachable (piece_chain_replace c offset d).2
  | commit (c : PieceChain) : Reachable c → Reachable (piece_chain_commit c).2
  | undo (c : PieceChain) : Reachable c → Reachable (piece_chain_undo c).2.1
  | redo (c : PieceChain) : Reachable c → Reachable (piece_chain_redo c).2.1

/-! ## Concrete states used by the scenario theorems -/

/-- Insert a string (helper for concrete states). -/
def insStr (c : PieceChain) (o : Nat) (s : String) : PieceChain :=
  (piece_chain_insert c o (strBytes s)).2

/-- "cd" inserted, committed, then "ab" inserted at 0: a two-piece chain with
contents "abcd". -/
def stTwoPieces : PieceChain :=
  insStr (piece_chain_commit (insStr piece_chain_open_empty 0 "cd")).2 0 "ab"

/-- "hello" committed, then "X" at 5 and "Y" at 0 in one revision. -/
def stTwoChanges : PieceChain :=
  (piece_chain_commit
    (insStr (insStr (piece_chain_commit (insStr piece_chain_open_empty 0 "hello")).2 5 "X")
      0 "Y")).2

/-- A one-byte chain "a". -/
def stOneByte : PieceChain :=
  insStr piece_chain_open_empty 0 "a"

/-- "abcd" inserted and committed: a one-piece committed chain, used to
exhibit the `size_t` wraparound of the deletion end offset. -/
def stABCD : PieceChain :=
  (piece_chain_commit (insStr piece_chain_open_empty 0 "abcd")).2

/-- "hello" committed, then "X" inserted mid-piece at offset 2 (splitting the
piece): the cached piece is the middle one, not the chain tail. -/
def stMidInsert : PieceChain :=
  insStr (piece_chain_commit (insStr piece_chain_open_empty 0 "hello")).2 2 "X"

/-- "hello" committed, then " world" appended (uncommitted): the state of
scenario 5 before the undos. -/
def stHelloWorld : PieceChain :=
  insStr (piece_chain_commit (insStr piece_chain_open_empty 0 "hello")).2 5 " world"

/-- Intermediate states of the sequential-insert scenario. -/
def st7a : PieceChain := insStr piece_chain_open_empty 0 "hello"

def st7b : PieceChain := insStr st7a 0 "<"

def st7c : PieceChain := insStr st7b 6 "world"

def st7d : PieceChain := insStr st7c 6 " "

def st7e : PieceChain := insStr st7d 12 ">"

/-- The three successive undos of the undo-across-commits scenario. -/
def st6u1 : Bool × PieceChain × Option Nat := piece_chain_undo stHelloWorld

def st6u2 : Bool × PieceChain × Option Nat := piece_chain_undo st6u1.2.1

def st6u3 : Bool × PieceChain × Option Nat := piece_chain_undo st6u2.2.1

/-- A node reference that can actually be written through (`head`, or an
allocated piece index). -/
def validRef (c : PieceChain) (r : NodeRef) : Prop :=
  match r with
  | .head => True
  | .node i => i < c.pieces.length

/-- The state produced by a successful `cache_insert` (named for proofs; the
body mirrors the success branch of `cache_insert`). -/
def cache_insert_state (c : PieceChain) (pid poff : Nat) (d : List Nat)
    (blk : Block) : PieceChain :=
  let p := getPiece c pid
  let k := blk.data.length - (p.size - poff)
  let blkData :=
    if k = blk.data.length then blk.data ++ d
    else blk.data.take k ++ d ++ blk.data.drop k
  { c with
    blocks := c.blocks.set (c.blocks.length - 1) { blk with data := blkData },
    pieces := c.pieces.set pid { p with size := p.size + d.length },
    size := c.size + d.length,
    pendingChanges := updateLast
      (fun ch => { ch with
        replacement := { ch.replacement with len := ch.replacement.len + d.length } })
      c.pendingChanges }

/-- The state produced by a successful `cache_delete`. -/
def cache_delete_state (c : PieceChain) (pid poff dlen : Nat)
    (blk : Block) : PieceChain :=
  let p := getPiece c pid
  let k := blk.data.length - (p.size - poff)
  { c with
    blocks := c.blocks.set (c.blocks.length - 1)
      { blk with data := blk.data.take k ++ blk.data.drop (k + dlen) },
    pieces := c.pieces.set pid { p with size := p.size - dlen },
    size := c.size - dlen,
    pendingChanges := updateLast
      (fun ch => { ch with
        replacement := { ch.replacement with len := ch.replacement.len - dlen } })
      c.pendingChanges }

/-- The reference of the last element of `l`, or `r` when `l` is empty (the
node preceding a splice point). -/
def endRef (r : NodeRef) (l : List Nat) : NodeRef :=
  match l.getLast? with
  | some i => .node i
  | none => r

/-- The reference of the first element of `l`, or `r` when `l` is empty (the
node following a splice point). -/
def startRef (l : List Nat) (r : NodeRef) : NodeRef :=
  match l.head? with
  | some i => .node i
  | none => r

/-- The `prev` prelinks of a freshly built run of pieces: each piece of `l`
has its `prev` pointing at the piece before it (starting from `p`). -/
def prevLinks (c : PieceChain) : Nat → List Nat → Prop
  | _, [] => True
  | p, m :: t => getPrevOf c (.node m) = .node p ∧ prevLinks c m t

/-- The destination-block choice at the top of `insert_slow` (named for
proofs; mirrors the first `let` of the function). -/
def insert_dest (c : PieceChain) (n : Nat) : PieceChain :=
  if (match c.blocks.getLast? with
      | some b => block_can_fit b n
      | none => false)
  then c
  else { c with blocks := c.blocks ++ [block_alloc n] }


/-- The common tail of `insert_slow` once the new piece's neighbour links are
known: append the payload to the destination block, build the single new
piece, record the change, cache the new piece and splice (named for proofs;
all three `insert_slow` shapes that create one piece reduce to it). -/
def insert_slow_shape (c : PieceChain) (offset : Nat) (data : List Nat)
    (rA rB : NodeRef) : PieceChain :=
  let d := insert_dest c data.length
  let bIdx := d.blocks.length - 1
  let b := d.blocks.getD bIdx default
  let cB := { d with blocks := d.blocks.set bIdx { b with data := b.data ++ data } }
  let newId := cB.pieces.length
  let newP : Piece :=
    { blk := bIdx, off := b.data.length, size := data.length,
      prev := rA, next := rB }
  let c2 := { cB with pieces := cB.pieces ++ [newP] }
  let repl := span_mk c2 (some newId) (some newId)
  let c3 := { c2 with
    pendingChanges := c2.pendingChanges ++ [⟨⟨none, none, 0⟩, repl, offset⟩] }
  span_swap (cache_put c3 (some newId)) ⟨none, none, 0⟩ repl

/-- The mid-piece shape of `insert_slow` (named for proofs; mirrors the
split branch of the function). -/
def insert_slow_mid_shape (c : PieceChain) (offset : Nat) (data : List Nat)
    (p po : Nat) : PieceChain :=
  let d := insert_dest c data.length
  let bIdx := d.blocks.length - 1
  let b := d.blocks.getD bIdx default
  let cB := { d with blocks := d.blocks.set bIdx { b with data := b.data ++ data } }
  let pc := getPiece c p
  let beforeId := cB.pieces.length
  let middleId := cB.pieces.length + 1
  let afterId := cB.pieces.length + 2
  let beforeP : Piece :=
    { blk := pc.blk, off := pc.off, size := po,
      prev := pc.prev, next := .node middleId }
  let middleP : Piece :=
    { blk := bIdx, off := b.data.length, size := data.length,
      prev := .node beforeId, next := .node afterId }
  let afterP : Piece :=
    { blk := pc.blk, off := pc.off + po,
      size := pc.size - po, prev := .node middleId, next := pc.next }
  let c2 := { cB with pieces := cB.pieces ++ [beforeP, middleP, afterP] }
  let orig := span_mk c2 (some p) (some p)
  let repl := span_mk c2 (some beforeId) (some afterId)
  let c3 := { c2 with
    pendingChanges := c2.pendingChanges ++ [⟨orig, repl, offset⟩] }
  span_swap (cache_put c3 (some middleId)) orig repl

-- marker: end of definitions

/-! ## Congruence and unfolding lemmas -/

theorem getPiece_congr {c c' : PieceChain} (h : c'.pieces = c.pieces) (i : Nat) :
    getPiece c' i = getPiece c i := by
  simp [getPiece, h]

theorem walkIds_congr {c c' : PieceChain} (h : c'.pieces = c.pieces) :
    ∀ (f : Nat) (r : NodeRef), walkIds c' r f = walkIds c r f := by
  intro f
  induction f with
  | zero => intro r; cases r <;> simp [walkIds]
  | succ n ih =>
    intro r
    cases r with
    | head => simp [walkIds]
    | node i => simp [walkIds, getPiece_congr h, ih]

theorem chainIds_congr {c c' : PieceChain} (hp : c'.pieces = c.pieces)
    (hn : c'.headNext = c.headNext) : chainIds c' = chainIds c := by
  simp [chainIds, hn, hp, walkIds_congr hp]

theorem pieceBytes_congr {c c' : PieceChain} (hp : c'.pieces = c.pieces)
    (hb : c'.blocks = c.blocks) (i : Nat) : pieceBytes c' i = pieceBytes c i := by
  simp [pieceBytes, getPiece_congr hp, hb]

theorem contents_congr {c c' : PieceChain} (hp : c'.pieces = c.pieces)
    (hn : c'.headNext = c.headNext) (hb : c'.blocks = c.blocks) :
    contents c' = contents c := by
  have h1 := chainIds_congr hp hn
  have h2 := pieceBytes_congr hp hb
  simp [contents, h1]
  congr 1
  exact List.map_congr_left fun i _ => h2 i

theorem commit_commit (c : PieceChain) :
    piece_chain_commit (piece_chain_commit c).2 = piece_chain_commit c := by
  cases c with
  | mk s d b p hn hp ca rev cur pend =>
    by_cases h : pend = [] <;> simp [piece_chain_commit, h]

/-! ## Claim theorems -/

/-- C10: a zero-length insert or delete succeeds at any offset (even one past
the end of the buffer) and leaves the whole state unchanged, because the
empty-length check precedes the offset-range check. -/
theorem zero_length_edit_noop (c : PieceChain) (offset : Nat) :
    piece_chain_insert c offset [] = (true, c) ∧
    piece_chain_delete c offset 0 = (true, c) := by
  constructor <;> simp [piece_chain_insert, piece_chain_delete]

/-- C8: an insert or delete with positive length at an offset strictly beyond
the buffer size returns false and leaves the entire state unchanged. -/
theorem out_of_range_edit_rejected (c : PieceChain) (offset : Nat) (d : List Nat)
    (l : Nat) (hd : d ≠ []) (hl : 0 < l) (ho : c.size < offset) :
    piece_chain_insert c offset d = (false, c) ∧
    piece_chain_delete c offset l = (false, c) := by
  constructor
  · simp [piece_chain_insert, List.length_eq_zero, hd, ho]
  · simp [piece_chain_delete, Nat.pos_iff_ne_zero.mp hl, ho]

/-- Witness for `out_of_range_edit_rejected` at a concrete state. -/
theorem out_of_range_edit_rejected_witness :
    ([0] : List Nat) ≠ [] ∧ (0 : Nat) < 1 ∧ stOneByte.size < 2 ∧
    (piece_chain_insert stOneByte 2 [0] = (false, stOneByte) ∧
      piece_chain_delete stOneByte 2 1 = (false, stOneByte)) :=
  ⟨by decide, by decide, by decide,
    out_of_range_edit_rejected stOneByte 2 [0] 1 (by decide) (by decide) (by decide)⟩

/-- C9: committing with no pending changes returns true, creates no new
revision and leaves the revision list, current revision, contents and size
unchanged; moreover two consecutive commits always equal a single commit. -/
theorem commit_empty_noop (c : PieceChain) (h : c.pendingChanges = []) :
    (piece_chain_commit c).1 = true ∧
    (piece_chain_commit c).2.revisions = c.revisions ∧
    (piece_chain_commit c).2.currentRev = c.currentRev ∧
    contents (piece_chain_commit c).2 = contents c ∧
    (piece_chain_commit c).2.size = c.size ∧
    piece_chain_commit (piece_chain_commit c).2 = piece_chain_commit c := by
  refine ⟨by simp [piece_chain_commit, h], by simp [piece_chain_commit, h],
    by simp [piece_chain_commit, h], ?_, by simp [piece_chain_commit, h],
    commit_commit c⟩
  exact contents_congr (by simp [piece_chain_commit, h])
    (by simp [piece_chain_commit, h]) (by simp [piece_chain_commit, h])

/-- Witness for `commit_empty_noop` at the freshly opened empty chain. -/
theorem commit_empty_noop_witness :
    piece_chain_open_empty.pendingChanges = [] ∧
    ((piece_chain_commit piece_chain_open_empty).1 = true ∧
      (piece_chain_commit piece_chain_open_empty).2.revisions =
        piece_chain_open_empty.revisions ∧
      (piece_chain_commit piece_chain_open_empty).2.currentRev =
        piece_chain_open_empty.currentRev ∧
      contents (piece_chain_commit piece_chain_open_empty).2 =
        contents piece_chain_open_empty ∧
      (piece_chain_commit piece_chain_open_empty).2.size =
        piece_chain_open_empty.size ∧
      piece_chain_commit (piece_chain_commit piece_chain_open_empty).2 =
        piece_chain_commit piece_chain_open_empty) :=
  ⟨rfl, commit_empty_noop piece_chain_open_empty rfl⟩

/-- C7: from an empty chain the five sequential inserts all succeed and the
final contents are exactly "<hello world>". -/
theorem sequential_inserts_scenario :
    (piece_chain_insert piece_chain_open_empty 0 (strBytes "hello")).1 = true ∧
    (piece_chain_insert st7a 0 (strBytes "<")).1 = true ∧
    (piece_chain_insert st7b 6 (strBytes "world")).1 = true ∧
    (piece_chain_insert st7c 6 (strBytes " ")).1 = true ∧
    (piece_chain_insert st7d 12 (strBytes ">")).1 = true ∧
    contents st7e = strBytes "<hello world>" := by
  decide

/-- C6: after `insert(0,"hello"); commit; insert(5," world")` the first undo
returns true with pos 5 and contents "hello", the second returns true with
pos 0 and empty contents, and the third returns false. -/
theorem undo_across_commits_scenario :
    st6u1.1 = true ∧ st6u1.2.2 = some 5 ∧ contents st6u1.2.1 = strBytes "hello" ∧
    st6u2.1 = true ∧ st6u2.2.2 = some 0 ∧ contents st6u2.2.1 = [] ∧
    st6u3.1 = false := by
  decide

/-- C1 (code bug): on the two-piece chain "ab","cd", `visit(0,1)` passes the
visitor a slice whose length has wrapped around to 2^64 - 1 for the trailing
piece (a `size_t` underflow in the `piece_len` computation), so the visited
byte sequence is not the requested range, while the iterator yields exactly
the bytes of `[0, min(1, size))`. -/
theorem visit_underflow_bug :
    contents stTwoPieces = [97, 98, 99, 100] ∧
    (piece_chain_visit_slices stTwoPieces 0 1).map VisitSlice.len =
      [1, 18446744073709551615] ∧
    ((piece_chain_visit_slices stTwoPieces 0 1).map VisitSlice.bytes).flatten =
      [97, 99, 100, 97, 98] ∧
    (piece_chain_iter_slices stTwoPieces 0 1).flatten = [97] ∧
    (contents stTwoPieces).take (min (0 + 1) stTwoPieces.size) = [97] ∧
    ((piece_chain_visit_slices stTwoPieces 0 1).map VisitSlice.bytes).flatten ≠
      (piece_chain_iter_slices stTwoPieces 0 1).flatten := by
  decide

/-- C2 (counterexample): a committed revision whose change positions are
`[5, 0]`: undo succeeds but reports `*pos = 5`, the position of the
first-applied (last-iterated) change, not the minimum 0. -/
theorem undo_pos_not_minimum :
    (stTwoChanges.revisions.getD stTwoChanges.currentRev []).map Change.pos = [5, 0] ∧
    (piece_chain_undo stTwoChanges).1 = true ∧
    (piece_chain_undo stTwoChanges).2.2 = some 5 ∧
    ((stTwoChanges.revisions.getD stTwoChanges.currentRev []).map Change.pos).min? =
      some 0 ∧
    (some 5 : Option Nat) ≠ some 0 := by
  decide

/-- C3 (counterexample): deleting with positive length at `offset = size`
(here a one-byte buffer, `delete(1,1)`) returns false and changes nothing,
although the claim requires it to succeed as an empty clamped range. -/
theorem delete_at_size_rejected :
    stOneByte.size = 1 ∧ (0 : Nat) < 1 ∧
    piece_chain_delete stOneByte 1 1 = (false, stOneByte) := by
  decide

/-- C4 (counterexample): after `insert(0,"hello"); commit; insert(2,"X")` the
cache holds the middle piece of the split (piece 2) while the tail of the
active chain is piece 3, so the cached piece is *not* the last piece of the
active chain; the state is reachable by public operations. -/
theorem cache_not_active_tail :
    Reachable stMidInsert ∧
    stMidInsert.cache = some 2 ∧
    (chainIds stMidInsert).getLast? = some 3 ∧
    (some 2 : Option Nat) ≠ some 3 := by
  refine ⟨?_, by decide, by decide, by decide⟩
  exact Reachable.ins _ 2 (strBytes "X")
    (Reachable.commit _ (Reachable.ins _ 0 (strBytes "hello") Reachable.open_empty))

theorem undoLoop_pos (l : List Change) :
    ∀ (c : PieceChain) (p0 : Option Nat),
      (undoLoop c l p0).2 =
        match l.getLast? with
        | some ch => some ch.pos
        | none => p0 := by
  induction l with
  | nil => intro c p0; rfl
  | cons ch t ih =>
    intro c p0
    cases t with
    | nil => simp [undoLoop]
    | cons x t' =>
      have h1 : undoLoop c (ch :: x :: t') p0 =
          undoLoop (span_swap c ch.replacement ch.original) (x :: t') (some ch.pos) := rfl
      rw [h1, ih, List.getLast?_cons_cons]
      cases hgl : (x :: t').getLast? with
      | none => simp at hgl
      | some y => rfl

/-- C2 (amended): for every chain with no pending changes whose current
revision is not the first and contains at least one change, undo returns true
and stores into `*pos` the position of the *first-applied* change of the
reverted revision (the last-iterated change in the undo direction) — not the
minimum of the positions. -/
theorem undo_reports_first_change_pos (c : PieceChain)
    (hp : c.pendingChanges = []) (h0 : c.currentRev ≠ 0)
    (hne : c.revisions.getD c.currentRev [] ≠ []) :
    (piece_chain_undo c).1 = true ∧
    (piece_chain_undo c).2.2 =
      ((c.revisions.getD c.currentRev []).head?).map Change.pos := by
  have hc : (piece_chain_commit c).2 = { c with cache := none } := by
    simp [piece_chain_commit, hp]
  unfold piece_chain_undo
  rw [hc]
  simp only [h0, if_false]
  refine ⟨trivial, ?_⟩
  have hu := undoLoop_pos (c.revisions.getD c.currentRev []).reverse
    { c with cache := none } none
  rw [List.getLast?_reverse] at hu
  simp only [hu]
  cases h : (c.revisions.getD c.currentRev []).head? with
  | none => rw [List.head?_eq_none_iff] at h; exact absurd h hne
  | some ch => simp

/-- Witness for `undo_reports_first_change_pos` at the two-change state. -/
theorem undo_reports_first_change_pos_witness :
    stTwoChanges.pendingChanges = [] ∧ stTwoChanges.currentRev ≠ 0 ∧
    stTwoChanges.revisions.getD stTwoChanges.currentRev [] ≠ [] ∧
    ((piece_chain_undo stTwoChanges).1 = true ∧
      (piece_chain_undo stTwoChanges).2.2 =
        ((stTwoChanges.revisions.getD stTwoChanges.currentRev []).head?).map
          Change.pos) :=
  ⟨by decide, by decide, by decide,
    undo_reports_first_change_pos stTwoChanges (by decide) (by decide) (by decide)⟩

/-! ## List helper lemmas -/

theorem set_oob {α : Type} (l : List α) (i : Nat) (a : α) (h : l.length ≤ i) :
    l.set i a = l := by
  induction l generalizing i with
  | nil => rfl
  | cons x t ih =>
    cases i with
    | zero => simp at h
    | succ n => simpa using ih n (by simpa using h)

theorem getD_set_self {α : Type} (l : List α) (i : Nat) (a d : α)
    (h : i < l.length) : (l.set i a).getD i d = a := by
  induction l generalizing i with
  | nil => simp at h
  | cons x t ih =>
    cases i with
    | zero => rfl
    | succ n => simpa using ih n (by simpa using h)

theorem getD_set_ne {α : Type} (l : List α) (i j : Nat) (a d : α)
    (h : i ≠ j) : (l.set i a).getD j d = l.getD j d := by
  induction l generalizing i j with
  | nil => rfl
  | cons x t ih =>
    cases i with
    | zero =>
      cases j with
      | zero => exact absurd rfl h
      | succ m => rfl
    | succ n =>
      cases j with
      | zero => rfl
      | succ m => simpa using ih n m (fun hc => h (by rw [hc]))

theorem getD_append_left {α : Type} (l1 l2 : List α) (i : Nat) (d : α)
    (h : i < l1.length) : (l1 ++ l2).getD i d = l1.getD i d := by
  induction l1 generalizing i with
  | nil => simp at h
  | cons x t ih =>
    cases i with
    | zero => rfl
    | succ n => simpa using ih n (by simpa using h)

theorem getD_append_right {α : Type} (l1 l2 : List α) (i : Nat) (d : α)
    (h : l1.length ≤ i) : (l1 ++ l2).getD i d = l2.getD (i - l1.length) d := by
  induction l1 generalizing i with
  | nil => simp
  | cons x t ih =>
    cases i with
    | zero => simp at h
    | succ n => simpa using ih n (by simpa using h)

/-! ## Pointer-write and projection lemmas -/

theorem getPiece_set_field (c : PieceChain) (j : Nat) (p' : Piece) (i : Nat) :
    getPiece { c with pieces := c.pieces.set j p' } i =
      if j = i ∧ j < c.pieces.length then p' else getPiece c i := by
  unfold getPiece
  dsimp only
  by_cases h1 : j = i
  · subst h1
    by_cases h2 : j < c.pieces.length
    · rw [getD_set_self _ _ _ _ h2]; simp [h2]
    · rw [set_oob _ _ _ (Nat.le_of_not_lt h2)]; simp [h2]
  · rw [getD_set_ne _ _ _ _ _ h1]; simp [h1]

theorem getPiece_setNextOf (c : PieceChain) (r v : NodeRef) (i : Nat) :
    getPiece (setNextOf c r v) i =
      if r = .node i ∧ i < c.pieces.length then { getPiece c i with next := v }
      else getPiece c i := by
  cases r with
  | head => simp [setNextOf, getPiece]
  | node j =>
    have h : setNextOf c (.node j) v =
        { c with pieces := c.pieces.set j { getPiece c j with next := v } } := rfl
    rw [h, getPiece_set_field]
    by_cases h1 : j = i
    · subst h1; simp
    · simp [h1, fun hc : NodeRef.node j = NodeRef.node i => h1 (by injection hc)]

theorem getPiece_setPrevOf (c : PieceChain) (r v : NodeRef) (i : Nat) :
    getPiece (setPrevOf c r v) i =
      if r = .node i ∧ i < c.pieces.length then { getPiece c i with prev := v }
      else getPiece c i := by
  cases r with
  | head => simp [setPrevOf, getPiece]
  | node j =>
    have h : setPrevOf c (.node j) v =
        { c with pieces := c.pieces.set j { getPiece c j with prev := v } } := rfl
    rw [h, getPiece_set_field]
    by_cases h1 : j = i
    · subst h1; simp
    · simp [h1, fun hc : NodeRef.node j = NodeRef.node i => h1 (by injection hc)]

theorem setNextOf_blocks (c : PieceChain) (r v : NodeRef) :
    (setNextOf c r v).blocks = c.blocks := by cases r <;> rfl

theorem setNextOf_cache (c : PieceChain) (r v : NodeRef) :
    (setNextOf c r v).cache = c.cache := by cases r <;> rfl

theorem setNextOf_size (c : PieceChain) (r v : NodeRef) :
    (setNextOf c r v).size = c.size := by cases r <;> rfl

theorem setNextOf_dirty (c : PieceChain) (r v : NodeRef) :
    (setNextOf c r v).dirty = c.dirty := by cases r <;> rfl

theorem setNextOf_pendingChanges (c : PieceChain) (r v : NodeRef) :
    (setNextOf c r v).pendingChanges = c.pendingChanges := by cases r <;> rfl

theorem setNextOf_revisions (c : PieceChain) (r v : NodeRef) :
    (setNextOf c r v).revisions = c.revisions := by cases r <;> rfl

theorem setNextOf_currentRev (c : PieceChain) (r v : NodeRef) :
    (setNextOf c r v).currentRev = c.currentRev := by cases r <;> rfl

theorem setNextOf_pieces_length (c : PieceChain) (r v : NodeRef) :
    (setNextOf c r v).pieces.length = c.pieces.length := by
  cases r <;> simp [setNextOf]

theorem setPrevOf_blocks (c : PieceChain) (r v : NodeRef) :
    (setPrevOf c r v).blocks = c.blocks := by cases r <;> rfl

theorem setPrevOf_cache (c : PieceChain) (r v : NodeRef) :
    (setPrevOf c r v).cache = c.cache := by cases r <;> rfl

theorem setPrevOf_size (c : PieceChain) (r v : NodeRef) :
    (setPrevOf c r v).size = c.size := by cases r <;> rfl

theorem setPrevOf_dirty (c : PieceChain) (r v : NodeRef) :
    (setPrevOf c r v).dirty = c.dirty := by cases r <;> rfl

theorem setPrevOf_pendingChanges (c : PieceChain) (r v : NodeRef) :
    (setPrevOf c r v).pendingChanges = c.pendingChanges := by cases r <;> rfl

theorem setPrevOf_revisions (c : PieceChain) (r v : NodeRef) :
    (setPrevOf c r v).revisions = c.revisions := by cases r <;> rfl

theorem setPrevOf_currentRev (c : PieceChain) (r v : NodeRef) :
    (setPrevOf c r v).currentRev = c.currentRev := by cases r <;> rfl

theorem setPrevOf_pieces_length (c : PieceChain) (r v : NodeRef) :
    (setPrevOf c r v).pieces.length = c.pieces.length := by
  cases r <;> simp [setPrevOf]

theorem blk_setNextOf (c : PieceChain) (r v : NodeRef) (i : Nat) :
    (getPiece (setNextOf c r v) i).blk = (getPiece c i).blk := by
  rw [getPiece_setNextOf]; split <;> rfl

theorem off_setNextOf (c : PieceChain) (r v : NodeRef) (i : Nat) :
    (getPiece (setNextOf c r v) i).off = (getPiece c i).off := by
  rw [getPiece_setNextOf]; split <;> rfl

theorem size_setNextOf (c : PieceChain) (r v : NodeRef) (i : Nat) :
    (getPiece (setNextOf c r v) i).size = (getPiece c i).size := by
  rw [getPiece_setNextOf]; split <;> rfl

theorem prev_setNextOf (c : PieceChain) (r v : NodeRef) (i : Nat) :
    (getPiece (setNextOf c r v) i).prev = (getPiece c i).prev := by
  rw [getPiece_setNextOf]; split <;> rfl

theorem blk_setPrevOf (c : PieceChain) (r v : NodeRef) (i : Nat) :
    (getPiece (setPrevOf c r v) i).blk = (getPiece c i).blk := by
  rw [getPiece_setPrevOf]; split <;> rfl

theorem off_setPrevOf (c : PieceChain) (r v : NodeRef) (i : Nat) :
    (getPiece (setPrevOf c r v) i).off = (getPiece c i).off := by
  rw [getPiece_setPrevOf]; split <;> rfl

theorem size_setPrevOf (c : PieceChain) (r v : NodeRef) (i : Nat) :
    (getPiece (setPrevOf c r v) i).size = (getPiece c i).size := by
  rw [getPiece_setPrevOf]; split <;> rfl

theorem next_setPrevOf (c : PieceChain) (r v : NodeRef) (i : Nat) :
    (getPiece (setPrevOf c r v) i).next = (getPiece c i).next := by
  rw [getPiece_setPrevOf]; split <;> rfl

theorem getNextOf_setNextOf (c : PieceChain) (r v : NodeRef)
    (hr : validRef c r) (x : NodeRef) :
    getNextOf (setNextOf c r v) x = if x = r then v else getNextOf c x := by
  cases r with
  | head =>
    cases x with
    | head => rfl
    | node i => simp [getNextOf, setNextOf, getPiece]
  | node j =>
    cases x with
    | head => simp [getNextOf, setNextOf]
    | node i =>
      show (getPiece (setNextOf c (.node j) v) i).next = _
      rw [getPiece_setNextOf]
      by_cases hij : i = j
      · subst hij
        simp [validRef] at hr
        simp [hr]
      · have hji : ¬(j = i) := fun h => hij h.symm
        simp [hij, hji, getNextOf]

theorem getNextOf_setPrevOf (c : PieceChain) (r v : NodeRef) (x : NodeRef) :
    getNextOf (setPrevOf c r v) x = getNextOf c x := by
  cases x with
  | head => cases r <;> rfl
  | node i => show (getPiece (setPrevOf c r v) i).next = _; rw [next_setPrevOf]; rfl

theorem getPrevOf_setNextOf (c : PieceChain) (r v : NodeRef) (x : NodeRef) :
    getPrevOf (setNextOf c r v) x = getPrevOf c x := by
  cases x with
  | head => cases r <;> rfl
  | node i => show (getPiece (setNextOf c r v) i).prev = _; rw [prev_setNextOf]; rfl

theorem getPrevOf_setPrevOf (c : PieceChain) (r v : NodeRef)
    (hr : validRef c r) (x : NodeRef) :
    getPrevOf (setPrevOf c r v) x = if x = r then v else getPrevOf c x := by
  cases r with
  | head =>
    cases x with
    | head => rfl
    | node i => simp [getPrevOf, setPrevOf, getPiece]
  | node j =>
    cases x with
    | head => simp [getPrevOf, setPrevOf]
    | node i =>
      show (getPiece (setPrevOf c (.node j) v) i).prev = _
      rw [getPiece_setPrevOf]
      by_cases hij : i = j
      · subst hij
        simp [validRef] at hr
        simp [hr]
      · have hji : ¬(j = i) := fun h => hij h.symm
        simp [hij, hji, getPrevOf]

/-! ## span_swap projections -/

theorem span_swap_blocks (c : PieceChain) (o r : Span) :
    (span_swap c o r).blocks = c.blocks := by
  unfold span_swap
  repeat' split
  all_goals simp [setNextOf_blocks, setPrevOf_blocks]

theorem span_swap_cache (c : PieceChain) (o r : Span) :
    (span_swap c o r).cache = c.cache := by
  unfold span_swap
  repeat' split
  all_goals simp [setNextOf_cache, setPrevOf_cache]

theorem span_swap_pendingChanges (c : PieceChain) (o r : Span) :
    (span_swap c o r).pendingChanges = c.pendingChanges := by
  unfold span_swap
  repeat' split
  all_goals simp [setNextOf_pendingChanges, setPrevOf_pendingChanges]

theorem span_swap_revisions (c : PieceChain) (o r : Span) :
    (span_swap c o r).revisions = c.revisions := by
  unfold span_swap
  repeat' split
  all_goals simp [setNextOf_revisions, setPrevOf_revisions]

theorem span_swap_currentRev (c : PieceChain) (o r : Span) :
    (span_swap c o r).currentRev = c.currentRev := by
  unfold span_swap
  repeat' split
  all_goals simp [setNextOf_currentRev, setPrevOf_currentRev]

theorem span_swap_pieces_length (c : PieceChain) (o r : Span) :
    (span_swap c o r).pieces.length = c.pieces.length := by
  unfold span_swap
  repeat' split
  all_goals simp [setNextOf_pieces_length, setPrevOf_pieces_length]

theorem blk_span_swap (c : PieceChain) (o r : Span) (i : Nat) :
    (getPiece (span_swap c o r) i).blk = (getPiece c i).blk := by
  unfold span_swap
  repeat' split
  all_goals
    first
    | rfl
    | (show (getPiece (setPrevOf (setNextOf c _ _) _ _) i).blk = _
       rw [blk_setPrevOf, blk_setNextOf])

theorem off_span_swap (c : PieceChain) (o r : Span) (i : Nat) :
    (getPiece (span_swap c o r) i).off = (getPiece c i).off := by
  unfold span_swap
  repeat' split
  all_goals
    first
    | rfl
    | (show (getPiece (setPrevOf (setNextOf c _ _) _ _) i).off = _
       rw [off_setPrevOf, off_setNextOf])

theorem size_span_swap (c : PieceChain) (o r : Span) (i : Nat) :
    (getPiece (span_swap c o r) i).size = (getPiece c i).size := by
  unfold span_swap
  repeat' split
  all_goals
    first
    | rfl
    | (show (getPiece (setPrevOf (setNextOf c _ _) _ _) i).size = _
       rw [size_setPrevOf, size_setNextOf])

/-! ## Case equations for the cache fast paths -/

theorem getLast?_eq_getD {α : Type} [Inhabited α] (l : List α) (b : α)
    (h : l.getLast? = some b) : l.getD (l.length - 1) default = b := by
  induction l with
  | nil => simp at h
  | cons x t ih =>
    cases t with
    | nil =>
      simp only [List.getLast?_singleton, Option.some.injEq] at h
      simpa using h
    | cons y t' =>
      rw [List.getLast?_cons_cons] at h
      have h2 := ih h
      simp only [List.length_cons, Nat.add_sub_cancel] at h2 ⊢
      rw [List.getD_cons_succ]
      exact h2

theorem cache_insert_eq_none_cache {c : PieceChain} {pid poff : Nat} {d : List Nat}
    (hca : c.cache = none) : cache_insert c pid poff d = none := by
  unfold cache_insert; rw [hca]

theorem cache_insert_eq_none_ne {c : PieceChain} {pid poff : Nat} {d : List Nat}
    {cid : Nat} (hca : c.cache = some cid) (hne : cid ≠ pid) :
    cache_insert c pid poff d = none := by
  unfold cache_insert; rw [hca]; dsimp only; rw [if_pos hne]

theorem cache_insert_eq_none_noblock {c : PieceChain} {pid poff : Nat} {d : List Nat}
    {cid : Nat} (hca : c.cache = some cid) (hbl : c.blocks.getLast? = none) :
    cache_insert c pid poff d = none := by
  unfold cache_insert; rw [hca]; dsimp only
  by_cases hne : cid ≠ pid
  · rw [if_pos hne]
  · rw [if_neg hne, hbl]

theorem cache_insert_eq_none_nofit {c : PieceChain} {pid poff : Nat} {d : List Nat}
    {blk : Block} (hca : c.cache = some pid) (hbl : c.blocks.getLast? = some blk)
    (hfit : ¬ block_can_fit blk d.length = true) :
    cache_insert c pid poff d = none := by
  unfold cache_insert; rw [hca]; dsimp only
  rw [if_neg (by simp), hbl]; dsimp only
  rw [if_neg hfit]

theorem cache_insert_eq_some {c : PieceChain} {pid poff : Nat} {d : List Nat}
    {blk : Block} (hca : c.cache = some pid) (hbl : c.blocks.getLast? = some blk)
    (hfit : block_can_fit blk d.length = true) :
    cache_insert c pid poff d = some (cache_insert_state c pid poff d blk) := by
  unfold cache_insert; rw [hca]; dsimp only
  rw [if_neg (by simp), hbl]; dsimp only
  rw [if_pos hfit]
  unfold cache_insert_state
  rw [hca]

theorem cache_delete_eq_none_cache {c : PieceChain} {pid poff dlen : Nat}
    (hca : c.cache = none) : cache_delete c pid poff dlen = none := by
  unfold cache_delete; rw [hca]

theorem cache_delete_eq_none_ne {c : PieceChain} {pid poff dlen : Nat}
    {cid : Nat} (hca : c.cache = some cid) (hne : cid ≠ pid) :
    cache_delete c pid poff dlen = none := by
  unfold cache_delete; rw [hca]; dsimp only; rw [if_pos hne]

theorem cache_delete_eq_none_noblock {c : PieceChain} {pid poff dlen : Nat}
    {cid : Nat} (hca : c.cache = some cid) (hbl : c.blocks.getLast? = none) :
    cache_delete c pid poff dlen = none := by
  unfold cache_delete; rw [hca]; dsimp only
  by_cases hne : cid ≠ pid
  · rw [if_pos hne]
  · rw [if_neg hne, hbl]

theorem cache_delete_eq_none_toobig {c : PieceChain} {pid poff dlen : Nat}
    {blk : Block} (hca : c.cache = some pid) (hbl : c.blocks.getLast? = some blk)
    (hbig : (getPiece c pid).size - poff < dlen) :
    cache_delete c pid poff dlen = none := by
  unfold cache_delete; rw [hca]; dsimp only
  rw [if_neg (by simp), hbl]; dsimp only
  rw [if_pos hbig]

theorem cache_delete_eq_some {c : PieceChain} {pid poff dlen : Nat}
    {blk : Block} (hca : c.cache = some pid) (hbl : c.blocks.getLast? = some blk)
    (hfits : ¬ (getPiece c pid).size - poff < dlen) :
    cache_delete c pid poff dlen = some (cache_delete_state c pid poff dlen blk) := by
  unfold cache_delete; rw [hca]; dsimp only
  rw [if_neg (by simp), hbl]; dsimp only
  rw [if_neg hfits]
  unfold cache_delete_state
  rw [hca]

/-! ## CacheInv is preserved by every public operation -/

theorem set_ne_nil {α : Type} (l : List α) (i : Nat) (a : α) (h : l ≠ []) :
    l.set i a ≠ [] := by
  cases l with
  | nil => exact absurd rfl h
  | cons x t => cases i <;> simp

theorem getD_append_len0 {α : Type} (l : List α) (a : α) (d : α) :
    (l ++ [a]).getD l.length d = a := by
  rw [getD_append_right _ _ _ _ (Nat.le_refl _)]
  simp

theorem getD_append3_len1 {α : Type} (l : List α) (a b e : α) (d : α) :
    (l ++ [a, b, e]).getD (l.length + 1) d = b := by
  rw [getD_append_right _ _ _ _ (by omega)]
  simp

theorem cacheInv_congr {c c' : PieceChain} (h1 : c'.cache = c.cache)
    (h2 : c'.pieces = c.pieces) (h3 : c'.blocks = c.blocks)
    (h : CacheInv c) : CacheInv c' := by
  intro i hi
  rw [h1] at hi
  have hg : ∀ j, getPiece c' j = getPiece c j := fun j => by
    unfold getPiece; rw [h2]
  obtain ⟨a1, a2, a3, a4⟩ := h i hi
  exact ⟨by rw [h2]; exact a1, by rw [h3]; exact a2,
    by rw [hg, h3]; exact a3, by rw [hg, h3]; exact a4⟩

theorem cacheInv_cache_insert_state {c : PieceChain} {pid poff : Nat}
    {d : List Nat} {blk : Block} (hc : CacheInv c) (hca : c.cache = some pid)
    (hbl : c.blocks.getLast? = some blk) :
    CacheInv (cache_insert_state c pid poff d blk) := by
  obtain ⟨a1, a2, a3, a4⟩ := hc pid hca
  have hblk := getLast?_eq_getD _ _ hbl
  have hlen : c.blocks.length - 1 < c.blocks.length :=
    Nat.sub_lt (List.length_pos.mpr a2) Nat.one_pos
  intro i hi
  have hcache : (cache_insert_state c pid poff d blk).cache = c.cache := rfl
  rw [hcache, hca, Option.some.injEq] at hi
  subst hi
  have hgp : getPiece (cache_insert_state c pid poff d blk) pid =
      { getPiece c pid with size := (getPiece c pid).size + d.length } := by
    show (c.pieces.set pid _).getD pid default = _
    exact getD_set_self _ _ _ _ a1
  have hlength : (cache_insert_state c pid poff d blk).pieces.length =
      c.pieces.length := by
    show (c.pieces.set pid _).length = _
    exact List.length_set _ _ _
  have hblen : (cache_insert_state c pid poff d blk).blocks.length =
      c.blocks.length := by
    show (c.blocks.set _ _).length = _
    exact List.length_set _ _ _
  have hbget : (cache_insert_state c pid poff d blk).blocks.getD
      ((cache_insert_state c pid poff d blk).blocks.length - 1) default =
      { blk with data :=
        if blk.data.length - ((getPiece c pid).size - poff) = blk.data.length
        then blk.data ++ d
        else blk.data.take (blk.data.length - ((getPiece c pid).size - poff)) ++ d ++
          blk.data.drop (blk.data.length - ((getPiece c pid).size - poff)) } := by
    rw [hblen]
    show (c.blocks.set (c.blocks.length - 1) _).getD (c.blocks.length - 1) default = _
    exact getD_set_self _ _ _ _ hlen
  refine ⟨by rw [hlength]; exact a1, ?_, ?_, ?_⟩
  · intro hnil
    have : (cache_insert_state c pid poff d blk).blocks.length = 0 := by
      rw [hnil]; rfl
    rw [hblen] at this
    exact a2 (List.length_eq_zero.mp this)
  · rw [hgp, hblen]
    exact a3
  · rw [hgp, hbget]
    rw [hblk] at a4
    simp only
    split
    · simp only [List.length_append]
      omega
    · simp only [List.length_append, List.length_take, List.length_drop]
      omega

theorem cacheInv_cache_delete_state {c : PieceChain} {pid poff dlen : Nat}
    {blk : Block} (hc : CacheInv c) (hca : c.cache = some pid)
    (hbl : c.blocks.getLast? = some blk)
    (hfits : ¬ (getPiece c pid).size - poff < dlen) :
    CacheInv (cache_delete_state c pid poff dlen blk) := by
  obtain ⟨a1, a2, a3, a4⟩ := hc pid hca
  have hblk := getLast?_eq_getD _ _ hbl
  have hlen : c.blocks.length - 1 < c.blocks.length :=
    Nat.sub_lt (List.length_pos.mpr a2) Nat.one_pos
  intro i hi
  have hcache : (cache_delete_state c pid poff dlen blk).cache = c.cache := rfl
  rw [hcache, hca, Option.some.injEq] at hi
  subst hi
  have hgp : getPiece (cache_delete_state c pid poff dlen blk) pid =
      { getPiece c pid with size := (getPiece c pid).size - dlen } := by
    show (c.pieces.set pid _).getD pid default = _
    exact getD_set_self _ _ _ _ a1
  have hlength : (cache_delete_state c pid poff dlen blk).pieces.length =
      c.pieces.length := by
    show (c.pieces.set pid _).length = _
    exact List.length_set _ _ _
  have hblen : (cache_delete_state c pid poff dlen blk).blocks.length =
      c.blocks.length := by
    show (c.blocks.set _ _).length = _
    exact List.length_set _ _ _
  have hbget : (cache_delete_state c pid poff dlen blk).blocks.getD
      ((cache_delete_state c pid poff dlen blk).blocks.length - 1) default =
      { blk with data :=
        blk.data.take (blk.data.length - ((getPiece c pid).size - poff)) ++
          blk.data.drop (blk.data.length - ((getPiece c pid).size - poff) + dlen) } := by
    rw [hblen]
    show (c.blocks.set (c.blocks.length - 1) _).getD (c.blocks.length - 1) default = _
    exact getD_set_self _ _ _ _ hlen
  refine ⟨by rw [hlength]; exact a1, ?_, ?_, ?_⟩
  · intro hnil
    have : (cache_delete_state c pid poff dlen blk).blocks.length = 0 := by
      rw [hnil]; rfl
    rw [hblen] at this
    exact a2 (List.length_eq_zero.mp this)
  · rw [hgp, hblen]
    exact a3
  · rw [hgp, hbget]
    rw [hblk] at a4
    simp only [List.length_append, List.length_take, List.length_drop]
    omega

theorem cacheInv_cache_insert {c c' : PieceChain} {pid poff : Nat} {d : List Nat}
    (hc : CacheInv c) (h : cache_insert c pid poff d = some c') : CacheInv c' := by
  cases hca : c.cache with
  | none => rw [cache_insert_eq_none_cache hca] at h; exact absurd h (by simp)
  | some cid =>
    by_cases hne : cid = pid
    · rw [hne] at hca
      cases hbl : c.blocks.getLast? with
      | none => rw [cache_insert_eq_none_noblock hca hbl] at h; exact absurd h (by simp)
      | some blk =>
        by_cases hfit : block_can_fit blk d.length = true
        · rw [cache_insert_eq_some hca hbl hfit, Option.some.injEq] at h
          rw [← h]
          exact cacheInv_cache_insert_state hc hca hbl
        · rw [cache_insert_eq_none_nofit hca hbl hfit] at h
          exact absurd h (by simp)
    · rw [cache_insert_eq_none_ne hca hne] at h; exact absurd h (by simp)

theorem cacheInv_cache_delete {c c' : PieceChain} {pid poff dlen : Nat}
    (hc : CacheInv c) (h : cache_delete c pid poff dlen = some c') : CacheInv c' := by
  cases hca : c.cache with
  | none => rw [cache_delete_eq_none_cache hca] at h; exact absurd h (by simp)
  | some cid =>
    by_cases hne : cid = pid
    · rw [hne] at hca
      cases hbl : c.blocks.getLast? with
      | none => rw [cache_delete_eq_none_noblock hca hbl] at h; exact absurd h (by simp)
      | some blk =>
        by_cases hbig : (getPiece c pid).size - poff < dlen
        · rw [cache_delete_eq_none_toobig hca hbl hbig] at h
          exact absurd h (by simp)
        · rw [cache_delete_eq_some hca hbl hbig, Option.some.injEq] at h
          rw [← h]
          exact cacheInv_cache_delete_state hc hca hbl hbig
    · rw [cache_delete_eq_none_ne hca hne] at h; exact absurd h (by simp)

theorem revision_purge_eq (c : PieceChain) :
    revision_purge c = c ∨
      revision_purge c = { c with revisions := c.revisions.take (c.currentRev + 1) } := by
  unfold revision_purge
  split
  · exact Or.inl rfl
  · split
    · exact Or.inl rfl
    · exact Or.inr rfl

theorem revision_purge_cache (c : PieceChain) :
    (revision_purge c).cache = c.cache := by
  rcases revision_purge_eq c with h | h <;> rw [h]

theorem revision_purge_pieces (c : PieceChain) :
    (revision_purge c).pieces = c.pieces := by
  rcases revision_purge_eq c with h | h <;> rw [h]

theorem revision_purge_blocks (c : PieceChain) :
    (revision_purge c).blocks = c.blocks := by
  rcases revision_purge_eq c with h | h <;> rw [h]

theorem revision_purge_size (c : PieceChain) :
    (revision_purge c).size = c.size := by
  rcases revision_purge_eq c with h | h <;> rw [h]

theorem revision_purge_headNext (c : PieceChain) :
    (revision_purge c).headNext = c.headNext := by
  rcases revision_purge_eq c with h | h <;> rw [h]

theorem revision_purge_headPrev (c : PieceChain) :
    (revision_purge c).headPrev = c.headPrev := by
  rcases revision_purge_eq c with h | h <;> rw [h]

theorem revision_purge_pendingChanges (c : PieceChain) :
    (revision_purge c).pendingChanges = c.pendingChanges := by
  rcases revision_purge_eq c with h | h <;> rw [h]

theorem commit_cache_none (c : PieceChain) :
    (piece_chain_commit c).2.cache = none := by
  unfold piece_chain_commit; split; all_goals rfl

theorem cacheInv_of_cache_none {c : PieceChain} (h : c.cache = none) :
    CacheInv c := by
  intro i hi
  rw [h] at hi
  exact absurd hi (by simp)

theorem undoLoop_cache (l : List Change) :
    ∀ (c : PieceChain) (p : Option Nat), (undoLoop c l p).1.cache = c.cache := by
  induction l with
  | nil => intro c p; rfl
  | cons ch t ih =>
    intro c p
    show (undoLoop (span_swap c ch.replacement ch.original) t (some ch.pos)).1.cache = _
    rw [ih, span_swap_cache]

theorem redoLoop_cache (l : List Change) :
    ∀ (c : PieceChain) (p : Option Nat), (redoLoop c l p).1.cache = c.cache := by
  induction l with
  | nil => intro c p; rfl
  | cons ch t ih =>
    intro c p
    show (redoLoop (span_swap c ch.original ch.replacement) t (some ch.pos)).1.cache = _
    rw [ih, span_swap_cache]

theorem cacheInv_commit (c : PieceChain) : CacheInv (piece_chain_commit c).2 :=
  cacheInv_of_cache_none (commit_cache_none c)

theorem undo_cache_none (c : PieceChain) :
    (piece_chain_undo c).2.1.cache = none := by
  unfold piece_chain_undo
  dsimp only
  split
  · exact commit_cache_none c
  · show (undoLoop _ _ _).1.cache = none
    rw [undoLoop_cache]
    exact commit_cache_none c

theorem cacheInv_undo (c : PieceChain) : CacheInv (piece_chain_undo c).2.1 :=
  cacheInv_of_cache_none (undo_cache_none c)

theorem redo_cache_none (c : PieceChain) :
    (piece_chain_redo c).2.1.cache = none := by
  unfold piece_chain_redo
  dsimp only
  split
  · exact commit_cache_none c
  · show (redoLoop _ _ _).1.cache = none
    rw [redoLoop_cache]
    exact commit_cache_none c

theorem cacheInv_redo (c : PieceChain) : CacheInv (piece_chain_redo c).2.1 :=
  cacheInv_of_cache_none (redo_cache_none c)

theorem cacheInv_append_pieces {c : PieceChain} (ps : List Piece)
    (hc : CacheInv c) : CacheInv { c with pieces := c.pieces ++ ps } := by
  intro i hi
  obtain ⟨a1, a2, a3, a4⟩ := hc i hi
  have hg : getPiece { c with pieces := c.pieces ++ ps } i = getPiece c i := by
    show (c.pieces ++ ps).getD i default = _
    exact getD_append_left _ _ _ _ a1
  refine ⟨?_, a2, ?_, ?_⟩
  · show i < (c.pieces ++ ps).length
    simp only [List.length_append]
    omega
  · rw [hg]; exact a3
  · rw [hg]; exact a4

theorem cacheInv_span_swap_dirty {c : PieceChain} (o r : Span)
    (hc : CacheInv c) : CacheInv { span_swap c o r with dirty := true } := by
  intro i hi
  have hca : c.cache = some i := by
    have : ({ span_swap c o r with dirty := true } : PieceChain).cache =
        c.cache := by
      show (span_swap c o r).cache = c.cache
      exact span_swap_cache c o r
    rw [this] at hi
    exact hi
  obtain ⟨a1, a2, a3, a4⟩ := hc i hca
  have hg1 : (getPiece { span_swap c o r with dirty := true } i).blk =
      (getPiece c i).blk := blk_span_swap c o r i
  have hg2 : (getPiece { span_swap c o r with dirty := true } i).off =
      (getPiece c i).off := off_span_swap c o r i
  have hg3 : (getPiece { span_swap c o r with dirty := true } i).size =
      (getPiece c i).size := size_span_swap c o r i
  have hb : ({ span_swap c o r with dirty := true } : PieceChain).blocks =
      c.blocks := span_swap_blocks c o r
  refine ⟨?_, ?_, ?_, ?_⟩
  · show i < (span_swap c o r).pieces.length
    rw [span_swap_pieces_length]
    exact a1
  · rw [hb]; exact a2
  · rw [hg1, hb]; exact a3
  · rw [hg2, hg3, hb]; exact a4

theorem cacheInv_purge {c : PieceChain} (hc : CacheInv c) :
    CacheInv (revision_purge c) :=
  cacheInv_congr (revision_purge_cache c) (revision_purge_pieces c)
    (revision_purge_blocks c) hc

/-- After a successful slow-path insert the new piece is the fresh cache and
sits at the end of the last block. -/
theorem cacheInv_insert_slow_leaf (cb : PieceChain) (newId : Nat)
    (orig repl : Span)
    (hlen : newId < cb.pieces.length)
    (hnn : cb.blocks ≠ [])
    (hblk : (getPiece cb newId).blk = cb.blocks.length - 1)
    (hend : (getPiece cb newId).off + (getPiece cb newId).size =
      (cb.blocks.getD (cb.blocks.length - 1) default).data.length) :
    CacheInv { span_swap (cache_put cb (some newId)) orig repl with
      dirty := true } := by
  intro i hi
  have hcv : ({ span_swap (cache_put cb (some newId)) orig repl with
      dirty := true } : PieceChain).cache = some newId := by
    show (span_swap (cache_put cb (some newId)) orig repl).cache = _
    rw [span_swap_cache]
    rfl
  rw [hcv, Option.some.injEq] at hi
  subst hi
  have hb : ({ span_swap (cache_put cb (some newId)) orig repl with
      dirty := true } : PieceChain).blocks = cb.blocks := by
    show (span_swap (cache_put cb (some newId)) orig repl).blocks = _
    rw [span_swap_blocks]
    rfl
  have hg1 : (getPiece { span_swap (cache_put cb (some newId)) orig repl with
      dirty := true } newId).blk = (getPiece cb newId).blk := by
    show (getPiece (span_swap (cache_put cb (some newId)) orig repl) newId).blk = _
    rw [blk_span_swap]
    rfl
  have hg2 : (getPiece { span_swap (cache_put cb (some newId)) orig repl with
      dirty := true } newId).off = (getPiece cb newId).off := by
    show (getPiece (span_swap (cache_put cb (some newId)) orig repl) newId).off = _
    rw [off_span_swap]
    rfl
  have hg3 : (getPiece { span_swap (cache_put cb (some newId)) orig repl with
      dirty := true } newId).size = (getPiece cb newId).size := by
    show (getPiece (span_swap (cache_put cb (some newId)) orig repl) newId).size = _
    rw [size_span_swap]
    rfl
  refine ⟨?_, ?_, ?_, ?_⟩
  · show newId < (span_swap (cache_put cb (some newId)) orig repl).pieces.length
    rw [span_swap_pieces_length]
    exact hlen
  · rw [hb]; exact hnn
  · rw [hg1, hb]; exact hblk
  · rw [hg2, hg3, hb]; exact hend


theorem cacheInv_insert_slow (c : PieceChain) (offset : Nat) (d : List Nat)
    (pieceOpt : Option Nat) (poff : Nat) :
    CacheInv { insert_slow c offset d pieceOpt poff with dirty := true } := by
  unfold insert_slow
  by_cases hfit : (match c.blocks.getLast? with
      | some b => block_can_fit b d.length
      | none => false) = true
  · rw [if_pos hfit]
    have hnn : c.blocks ≠ [] := by
      intro hb
      rw [hb] at hfit
      simp at hfit
    have hpos : 0 < c.blocks.length := List.length_pos.mpr hnn
    have hlt : c.blocks.length - 1 < c.blocks.length := Nat.sub_lt hpos Nat.one_pos
    cases pieceOpt with
    | none =>
      dsimp only
      refine cacheInv_insert_slow_leaf _ _ _ _ ?_ ?_ ?_ ?_
      · simp
      · exact set_ne_nil _ _ _ hnn
      · simp only [getPiece]
        rw [getD_append_len0]
        simp [List.length_set]
      · simp only [getPiece]
        rw [getD_append_len0]
        simp only [List.length_set]
        rw [getD_set_self _ _ _ _ hlt]
        simp
    | some p =>
      dsimp only
      split
      · refine cacheInv_insert_slow_leaf _ _ _ _ ?_ ?_ ?_ ?_
        · simp
        · exact set_ne_nil _ _ _ hnn
        · simp only [getPiece]
          rw [getD_append_len0]
          simp [List.length_set]
        · simp only [getPiece]
          rw [getD_append_len0]
          simp only [List.length_set]
          rw [getD_set_self _ _ _ _ hlt]
          simp
      · refine cacheInv_insert_slow_leaf _ _ _ _ ?_ ?_ ?_ ?_
        · simp
        · exact set_ne_nil _ _ _ hnn
        · simp only [getPiece]
          rw [getD_append3_len1]
          simp [List.length_set]
        · simp only [getPiece]
          rw [getD_append3_len1]
          simp only [List.length_set]
          rw [getD_set_self _ _ _ _ hlt]
          simp
  · rw [if_neg hfit]
    have hnn2 : c.blocks ++ [block_alloc d.length] ≠ [] := by simp
    have hpos : 0 < (c.blocks ++ [block_alloc d.length]).length := List.length_pos.mpr hnn2
    have hlt : (c.blocks ++ [block_alloc d.length]).length - 1 <
        (c.blocks ++ [block_alloc d.length]).length := Nat.sub_lt hpos Nat.one_pos
    cases pieceOpt with
    | none =>
      dsimp only
      refine cacheInv_insert_slow_leaf _ _ _ _ ?_ ?_ ?_ ?_
      · simp
      · exact set_ne_nil _ _ _ hnn2
      · simp only [getPiece]
        rw [getD_append_len0]
        simp [List.length_set]
      · simp only [getPiece]
        rw [getD_append_len0]
        simp only [List.length_set]
        rw [getD_set_self _ _ _ _ hlt]
        simp
    | some p =>
      dsimp only
      split
      · refine cacheInv_insert_slow_leaf _ _ _ _ ?_ ?_ ?_ ?_
        · simp
        · exact set_ne_nil _ _ _ hnn2
        · simp only [getPiece]
          rw [getD_append_len0]
          simp [List.length_set]
        · simp only [getPiece]
          rw [getD_append_len0]
          simp only [List.length_set]
          rw [getD_set_self _ _ _ _ hlt]
          simp
      · refine cacheInv_insert_slow_leaf _ _ _ _ ?_ ?_ ?_ ?_
        · simp
        · exact set_ne_nil _ _ _ hnn2
        · simp only [getPiece]
          rw [getD_append3_len1]
          simp [List.length_set]
        · simp only [getPiece]
          rw [getD_append3_len1]
          simp only [List.length_set]
          rw [getD_set_self _ _ _ _ hlt]
          simp

theorem cacheInv_insert_fast {c c' : PieceChain} {pieceOpt : Option Nat}
    {poff : Nat} {d : List Nat} (hc : CacheInv c)
    (h : insert_fast c pieceOpt poff d = some c') : CacheInv c' := by
  unfold insert_fast at h
  cases pieceOpt with
  | none => exact absurd h (by simp)
  | some p =>
    dsimp only at h
    cases hci : cache_insert c p poff d with
    | some cx =>
      rw [hci] at h
      dsimp only at h
      rw [Option.some.injEq] at h
      rw [← h]
      exact cacheInv_cache_insert hc hci
    | none =>
      rw [hci] at h
      dsimp only at h
      by_cases hcond : poff = 0 ∧ c.headNext ≠ NodeRef.node p
      · rw [if_pos hcond] at h
        cases hp : (getPiece c p).prev with
        | head => rw [hp] at h; exact absurd h (by simp)
        | node q =>
          rw [hp] at h
          exact cacheInv_cache_insert hc h
      · rw [if_neg hcond] at h
        exact absurd h (by simp)

theorem cacheInv_insert (c0 : PieceChain) (offset : Nat) (d : List Nat)
    (hc : CacheInv c0) : CacheInv (piece_chain_insert c0 offset d).2 := by
  have hc1 : CacheInv (revision_purge c0) := cacheInv_purge hc
  unfold piece_chain_insert
  by_cases h0 : d.length = 0
  · rw [if_pos h0]; exact hc
  · rw [if_neg h0]
    by_cases h1 : offset > c0.size
    · rw [if_pos h1]; exact hc
    · rw [if_neg h1]
      cases hf : insert_find c0 offset with
      | none => exact hc
      | some pr =>
        obtain ⟨pieceOpt, poff⟩ := pr
        dsimp only
        cases hfast : insert_fast (revision_purge c0) pieceOpt poff d with
        | some c' =>
          dsimp only
          have hx : CacheInv c' := cacheInv_insert_fast hc1 hfast
          exact @cacheInv_congr c' _ rfl rfl rfl hx
        | none =>
          dsimp only
          exact cacheInv_insert_slow (revision_purge c0) offset d pieceOpt poff

theorem cacheInv_delete_slow (c : PieceChain) (offset dlen sp sl ep el : Nat)
    (hc : CacheInv c) :
    CacheInv { delete_slow c offset dlen sp sl ep el with dirty := true } := by
  unfold delete_slow
  dsimp only
  by_cases h1 : sl ≠ 0
  · rw [if_pos h1]
    by_cases h2 : el ≠ (getPiece c ep).size
    · rw [if_pos h2]
      exact cacheInv_span_swap_dirty _ _
        (cacheInv_congr rfl rfl rfl (cacheInv_append_pieces _ hc))
    · rw [if_neg h2]
      exact cacheInv_span_swap_dirty _ _
        (cacheInv_congr rfl rfl rfl (cacheInv_append_pieces _ hc))
  · rw [if_neg h1]
    by_cases h2 : el ≠ (getPiece c ep).size
    · rw [if_pos h2]
      exact cacheInv_span_swap_dirty _ _
        (cacheInv_congr rfl rfl rfl (cacheInv_append_pieces _ hc))
    · rw [if_neg h2]
      exact cacheInv_span_swap_dirty _ _ (cacheInv_congr rfl rfl rfl hc)

theorem cacheInv_delete (c0 : PieceChain) (offset dlen : Nat)
    (hc : CacheInv c0) : CacheInv (piece_chain_delete c0 offset dlen).2 := by
  have hc1 : CacheInv (revision_purge c0) := cacheInv_purge hc
  unfold piece_chain_delete
  by_cases h0 : dlen = 0
  · rw [if_pos h0]; exact hc
  · rw [if_neg h0]
    by_cases h1 : offset > c0.size
    · rw [if_pos h1]; exact hc
    · rw [if_neg h1]
      cases hf : piece_find c0 offset with
      | none => exact hc
      | some pr =>
        obtain ⟨sp, sl⟩ := pr
        dsimp only
        cases hcd : cache_delete (revision_purge c0) sp sl dlen with
        | some c' =>
          dsimp only
          have hx : CacheInv c' := cacheInv_cache_delete hc1 hcd
          exact @cacheInv_congr c' _ rfl rfl rfl hx
        | none =>
          dsimp only
          exact cacheInv_delete_slow (revision_purge c0) offset dlen sp sl _ _ hc1

theorem cacheInv_replace (c0 : PieceChain) (offset : Nat) (d : List Nat)
    (hc : CacheInv c0) : CacheInv (piece_chain_replace c0 offset d).2 := by
  unfold piece_chain_replace
  rcases hdel : piece_chain_delete c0 offset d.length with ⟨b, c'⟩
  have hcd : CacheInv c' := by
    have := cacheInv_delete c0 offset d.length hc
    rw [hdel] at this
    exact this
  cases b
  · exact hcd
  · exact cacheInv_insert c' offset d hcd

theorem cacheInv_open_empty : CacheInv piece_chain_open_empty :=
  cacheInv_of_cache_none rfl

theorem cacheInv_open_bytes (bs : List Nat) :
    CacheInv (piece_chain_open_bytes bs) := by
  unfold piece_chain_open_bytes
  exact cacheInv_commit _

/-- C4 (amended): in every reachable state, the cached piece (when present)
is an allocated piece of the last block whose bytes end exactly where that
block's used region ends. -/
theorem reachable_cache_inv (c : PieceChain) (h : Reachable c) : CacheInv c := by
  induction h with
  | open_empty => exact cacheInv_open_empty
  | open_bytes bs => exact cacheInv_open_bytes bs
  | ins c offset d _ ih => exact cacheInv_insert c offset d ih
  | del c offset dlen _ ih => exact cacheInv_delete c offset dlen ih
  | repl c offset d _ ih => exact cacheInv_replace c offset d ih
  | commit c _ _ => exact cacheInv_commit c
  | undo c _ _ => exact cacheInv_undo c
  | redo c _ _ => exact cacheInv_redo c

/-- Witness for `reachable_cache_inv` at a concrete reachable state with a
non-null cache. -/
theorem reachable_cache_inv_witness :
    Reachable stMidInsert ∧ CacheInv stMidInsert :=
  ⟨Reachable.ins _ 2 (strBytes "X")
      (Reachable.commit _ (Reachable.ins _ 0 (strBytes "hello") Reachable.open_empty)),
    reachable_cache_inv stMidInsert
      (Reachable.ins _ 2 (strBytes "X")
        (Reachable.commit _ (Reachable.ins _ 0 (strBytes "hello") Reachable.open_empty)))⟩

/-! ## Path lemmas for the doubly-linked chain -/

theorem nextPath_append (c : PieceChain) (l1 : List Nat) :
    ∀ (r t : NodeRef) (l2 : List Nat),
      nextPath c r (l1 ++ l2) t = true ↔
        (nextPath c r l1 (startRef l2 t) = true ∧
          match l2 with
          | [] => True
          | i :: l2' => nextPath c (.node i) l2' t = true) := by
  induction l1 with
  | nil =>
    intro r t l2
    cases l2 with
    | nil => simp [nextPath, startRef]
    | cons i l2' =>
      simp [nextPath, startRef, Bool.and_eq_true]
  | cons j l1' ih =>
    intro r t l2
    show (decide (getNextOf c r = .node j) && nextPath c (.node j) (l1' ++ l2) t) = true ↔ _
    rw [Bool.and_eq_true, decide_eq_true_iff, ih]
    show _ ↔ ((decide (getNextOf c r = .node j) && nextPath c (.node j) l1' (startRef l2 t)) = true ∧ _)
    rw [Bool.and_eq_true, decide_eq_true_iff]
    tauto

theorem prevPath_append (c : PieceChain) (l1 : List Nat) :
    ∀ (r t : NodeRef) (l2 : List Nat),
      prevPath c r (l1 ++ l2) t = true ↔
        (prevPath c r l1 (startRef l2 t) = true ∧
          match l2 with
          | [] => True
          | i :: l2' => prevPath c (.node i) l2' t = true) := by
  induction l1 with
  | nil =>
    intro r t l2
    cases l2 with
    | nil => simp [prevPath, startRef]
    | cons i l2' =>
      simp [prevPath, startRef, Bool.and_eq_true]
  | cons j l1' ih =>
    intro r t l2
    show (decide (getPrevOf c (.node j) = r) && prevPath c (.node j) (l1' ++ l2) t) = true ↔ _
    rw [Bool.and_eq_true, decide_eq_true_iff, ih]
    show _ ↔ ((decide (getPrevOf c (.node j) = r) && prevPath c (.node j) l1' (startRef l2 t)) = true ∧ _)
    rw [Bool.and_eq_true, decide_eq_true_iff]
    tauto

theorem nextPath_congr {c c' : PieceChain} :
    ∀ (l : List Nat) (r t : NodeRef),
      (getNextOf c' r = getNextOf c r) →
      (∀ i ∈ l, getNextOf c' (.node i) = getNextOf c (.node i)) →
      nextPath c' r l t = nextPath c r l t := by
  intro l
  induction l with
  | nil => intro r t hr _; simp [nextPath, hr]
  | cons i l' ih =>
    intro r t hr hl
    show (decide (getNextOf c' r = .node i) && nextPath c' (.node i) l' t) = _
    rw [hr, ih (.node i) t (hl i (by simp)) (fun j hj => hl j (by simp [hj]))]
    rfl

theorem prevPath_congr {c c' : PieceChain} :
    ∀ (l : List Nat) (r t : NodeRef),
      (getPrevOf c' t = getPrevOf c t) →
      (∀ i ∈ l, getPrevOf c' (.node i) = getPrevOf c (.node i)) →
      prevPath c' r l t = prevPath c r l t := by
  intro l
  induction l with
  | nil => intro r t ht _; simp [prevPath, ht]
  | cons i l' ih =>
    intro r t ht hl
    show (decide (getPrevOf c' (.node i) = r) && prevPath c' (.node i) l' t) = _
    rw [hl i (by simp), ih (.node i) t ht (fun j hj => hl j (by simp [hj]))]
    rfl

theorem walkIds_of_nextPath (c : PieceChain) :
    ∀ (l : List Nat) (r : NodeRef) (fuel : Nat),
      nextPath c r l .head = true → l.length ≤ fuel →
      walkIds c (getNextOf c r) fuel = l := by
  intro l
  induction l with
  | nil =>
    intro r fuel h _
    rw [show getNextOf c r = .head from by simpa [nextPath] using h]
    cases fuel <;> rfl
  | cons i l' ih =>
    intro r fuel h hf
    rw [show nextPath c r (i :: l') .head =
        (decide (getNextOf c r = .node i) && nextPath c (.node i) l' .head) from rfl,
      Bool.and_eq_true, decide_eq_true_iff] at h
    rw [h.1]
    cases fuel with
    | zero => simp at hf
    | succ f =>
      show i :: walkIds c (getPiece c i).next f = i :: l'
      have := ih (.node i) f h.2 (by simpa using hf)
      rw [show getNextOf c (NodeRef.node i) = (getPiece c i).next from rfl] at this
      rw [this]

theorem nodup_bounded_length (l : List Nat) (n : Nat)
    (hnd : l.Nodup) (hb : ∀ i ∈ l, i < n) : l.length ≤ n := by
  classical
  have h1 : l.toFinset.card = l.length := List.toFinset_card_of_nodup hnd
  have h2 : l.toFinset ⊆ Finset.range n := by
    intro x hx
    rw [List.mem_toFinset] at hx
    exact Finset.mem_range.mpr (hb x hx)
  have := Finset.card_le_card h2
  rw [h1, Finset.card_range] at this
  exact this

theorem chainRep_parts {c : PieceChain} {ids : List Nat}
    (h : chainRep c ids = true) :
    nextPath c .head ids .head = true ∧ prevPath c .head ids .head = true ∧
    ids.Nodup ∧ ∀ i ∈ ids, i < c.pieces.length := by
  unfold chainRep at h
  simp only [Bool.and_eq_true, decide_eq_true_iff] at h
  exact ⟨h.1.1.1, h.1.1.2, h.1.2, h.2⟩

theorem chainRep_mk {c : PieceChain} {ids : List Nat}
    (h1 : nextPath c .head ids .head = true)
    (h2 : prevPath c .head ids .head = true)
    (h3 : ids.Nodup) (h4 : ∀ i ∈ ids, i < c.pieces.length) :
    chainRep c ids = true := by
  unfold chainRep
  simp only [Bool.and_eq_true, decide_eq_true_iff]
  exact ⟨⟨⟨h1, h2⟩, h3⟩, h4⟩

theorem chainIds_eq {c : PieceChain} {ids : List Nat}
    (h : chainRep c ids = true) : chainIds c = ids := by
  obtain ⟨h1, _, h3, h4⟩ := chainRep_parts h
  have hlen : ids.length ≤ c.pieces.length := nodup_bounded_length _ _ h3 h4
  have := walkIds_of_nextPath c ids .head c.pieces.length h1 hlen
  rw [show getNextOf c .head = c.headNext from rfl] at this
  exact this

theorem contents_of_chainRep {c : PieceChain} {ids : List Nat}
    (h : chainRep c ids = true) :
    contents c = (ids.map (pieceBytes c)).flatten := by
  rw [contents, chainIds_eq h]

/-! ## piece_find characterization -/

theorem sumS_append (c : PieceChain) (l1 l2 : List Nat) :
    sumS c (l1 ++ l2) = sumS c l1 + sumS c l2 := by
  simp [sumS]

theorem sumS_cons (c : PieceChain) (i : Nat) (l : List Nat) :
    sumS c (i :: l) = (getPiece c i).size + sumS c l := by
  simp [sumS]

theorem sumS_nil (c : PieceChain) : sumS c [] = 0 := rfl

theorem piece_find_go_cons (c : PieceChain) (abs i : Nat) (t : List Nat)
    (acc : Nat) :
    piece_find_go c abs (i :: t) acc =
      if abs < acc + (getPiece c i).size then some (i, abs - acc)
      else piece_find_go c abs t (acc + (getPiece c i).size) := rfl

theorem piece_find_go_skip (c : PieceChain) (abs : Nat) :
    ∀ (A rest : List Nat) (acc : Nat), acc + sumS c A ≤ abs →
      piece_find_go c abs (A ++ rest) acc =
        piece_find_go c abs rest (acc + sumS c A) := by
  intro A
  induction A with
  | nil => intro rest acc _; simp [sumS_nil]
  | cons i A' ih =>
    intro rest acc h
    rw [sumS_cons] at h
    rw [List.cons_append, piece_find_go_cons, if_neg (by omega),
      ih rest (acc + (getPiece c i).size) (by omega), sumS_cons,
      Nat.add_assoc]

theorem piece_find_go_found (c : PieceChain) (abs sp : Nat) (rest : List Nat)
    (acc : Nat) (h : abs < acc + (getPiece c sp).size) :
    piece_find_go c abs (sp :: rest) acc = some (sp, abs - acc) := by
  show (if abs < acc + (getPiece c sp).size then _ else _) = _
  rw [if_pos h]

theorem piece_find_go_none (c : PieceChain) (abs : Nat) :
    ∀ (l : List Nat) (acc : Nat), acc + sumS c l ≤ abs →
      piece_find_go c abs l acc = none := by
  intro l
  induction l with
  | nil => intro acc _; rfl
  | cons i l' ih =>
    intro acc h
    rw [sumS_cons] at h
    show (if abs < acc + (getPiece c i).size then _ else _) = _
    rw [if_neg (by omega)]
    exact ih (acc + (getPiece c i).size) (by omega)

theorem piece_find_go_some (c : PieceChain) (abs : Nat) :
    ∀ (l : List Nat) (acc : Nat) (p po : Nat), acc ≤ abs →
      piece_find_go c abs l acc = some (p, po) →
      ∃ A B, l = A ++ p :: B ∧ acc + sumS c A ≤ abs ∧
        abs < acc + sumS c A + (getPiece c p).size ∧
        po = abs - (acc + sumS c A) := by
  intro l
  induction l with
  | nil => intro acc p po _ h; exact absurd h (by simp [piece_find_go])
  | cons i l' ih =>
    intro acc p po hacc h
    by_cases hc : abs < acc + (getPiece c i).size
    · rw [piece_find_go_found c abs i l' acc hc] at h
      rw [Option.some.injEq, Prod.mk.injEq] at h
      obtain ⟨h1, h2⟩ := h
      subst h1
      exact ⟨[], l', rfl, by simpa [sumS_nil], by rw [sumS_nil]; omega, by rw [sumS_nil]; omega⟩
    · rw [show piece_find_go c abs (i :: l') acc =
          piece_find_go c abs l' (acc + (getPiece c i).size) from by
        show (if abs < acc + (getPiece c i).size then _ else _) = _
        rw [if_neg hc]] at h
      obtain ⟨A, B, hl, h1, h2, h3⟩ := ih (acc + (getPiece c i).size) p po (by omega) h
      refine ⟨i :: A, B, ?_, ?_, ?_, ?_⟩
      · rw [List.cons_append, hl]
      · rw [sumS_cons]; omega
      · rw [sumS_cons]; omega
      · rw [sumS_cons]; omega

theorem piece_find_go_isSome (c : PieceChain) (abs : Nat) :
    ∀ (l : List Nat) (acc : Nat), acc ≤ abs → abs < acc + sumS c l →
      (piece_find_go c abs l acc).isSome := by
  intro l
  induction l with
  | nil => intro acc h1 h2; rw [sumS_nil] at h2; omega
  | cons i l' ih =>
    intro acc h1 h2
    rw [sumS_cons] at h2
    rw [piece_find_go_cons]
    by_cases hc : abs < acc + (getPiece c i).size
    · rw [if_pos hc]; rfl
    · rw [if_neg hc]
      exact ih (acc + (getPiece c i).size) (by omega) (by omega)

theorem piece_find_spec {c : PieceChain} {ids : List Nat} {abs : Nat}
    (hrep : chainRep c ids = true) (hsize : c.size = sumS c ids)
    (habs : abs < c.size) :
    ∃ p po A B, piece_find c abs = some (p, po) ∧ ids = A ++ p :: B ∧
      sumS c A ≤ abs ∧ abs < sumS c A + (getPiece c p).size ∧
      po = abs - sumS c A := by
  unfold piece_find
  rw [if_neg (by omega), chainIds_eq hrep]
  have hsome : (piece_find_go c abs ids 0).isSome := by
    refine piece_find_go_isSome c abs ids 0 (Nat.zero_le _) ?_
    rw [hsize] at habs
    omega
  cases hfind : piece_find_go c abs ids 0 with
  | none => rw [hfind] at hsome; simp at hsome
  | some pr =>
    obtain ⟨p, po⟩ := pr
    obtain ⟨A, B, h1, h2, h3, h4⟩ :=
      piece_find_go_some c abs ids 0 p po (Nat.zero_le _) hfind
    exact ⟨p, po, A, B, rfl, h1, by simpa using h2, by simpa using h3,
      by simpa using h4⟩

theorem piece_find_at_size {c : PieceChain} {ids : List Nat}
    (hrep : chainRep c ids = true) (hsize : c.size = sumS c ids) :
    piece_find c c.size = none := by
  unfold piece_find
  rw [if_neg (by omega), chainIds_eq hrep]
  exact piece_find_go_none c c.size ids 0 (by omega)

theorem piece_find_none_iff {c : PieceChain} {ids : List Nat} {abs : Nat}
    (hrep : chainRep c ids = true) (hsize : c.size = sumS c ids) :
    c.size ≤ abs → piece_find c abs = none := by
  intro h
  unfold piece_find
  by_cases hgt : abs > c.size
  · rw [if_pos hgt]
  · rw [if_neg hgt, chainIds_eq hrep]
    exact piece_find_go_none c abs ids 0 (by omega)

/-! ## Span length and edge lemmas -/

theorem spanLenWalk_self (c : PieceChain) (e fuel : Nat) :
    spanLenWalk c e e fuel = (getPiece c e).size := by
  unfold spanLenWalk
  simp

theorem spanLenWalk_of_nextPath (c : PieceChain) :
    ∀ (mid : List Nat) (s e : Nat) (t : NodeRef) (fuel : Nat),
      nextPath c (.node s) (mid ++ [e]) t = true → s ≠ e → e ∉ mid →
      mid.length + 1 ≤ fuel →
      spanLenWalk c e s fuel =
        (getPiece c s).size + sumS c mid + (getPiece c e).size := by
  intro mid
  induction mid with
  | nil =>
    intro s e t fuel h hne _ hf
    rw [show ([] : List Nat) ++ [e] = [e] from rfl] at h
    rw [show nextPath c (.node s) [e] t =
        (decide (getNextOf c (.node s) = .node e) && nextPath c (.node e) [] t)
      from rfl, Bool.and_eq_true, decide_eq_true_iff] at h
    cases fuel with
    | zero => omega
    | succ f =>
      unfold spanLenWalk
      rw [if_neg hne]
      rw [show getNextOf c (NodeRef.node s) = (getPiece c s).next from rfl] at h
      rw [h.1]
      show (getPiece c s).size + spanLenWalk c e e f = _
      rw [spanLenWalk_self, sumS_nil]
      omega
  | cons m mid' ih =>
    intro s e t fuel h hne hmem hf
    rw [List.cons_append] at h
    rw [show nextPath c (.node s) (m :: (mid' ++ [e])) t =
        (decide (getNextOf c (.node s) = .node m) &&
          nextPath c (.node m) (mid' ++ [e]) t) from rfl,
      Bool.and_eq_true, decide_eq_true_iff] at h
    cases fuel with
    | zero => simp at hf
    | succ f =>
      unfold spanLenWalk
      rw [if_neg hne]
      rw [show getNextOf c (NodeRef.node s) = (getPiece c s).next from rfl] at h
      rw [h.1]
      have hm_ne : m ≠ e := by
        intro hceq
        refine hmem ?_
        rw [← hceq]
        exact List.mem_cons_self m mid'
      have hrec := ih m e t f h.2 hm_ne
        (fun hc => hmem (List.mem_cons_of_mem m hc)) (by simpa using hf)
      show (getPiece c s).size + spanLenWalk c e m f = _
      rw [hrec, sumS_cons]
      omega

theorem endRef_cons (r : NodeRef) (i : Nat) (l : List Nat) :
    endRef r (i :: l) = endRef (.node i) l := by
  cases l with
  | nil => rfl
  | cons j l'' =>
    unfold endRef
    rw [List.getLast?_cons_cons]
    cases hgl : (j :: l'').getLast? with
    | none => simp at hgl
    | some x => rfl

theorem nextPath_last_edge (c : PieceChain) :
    ∀ (l : List Nat) (r t : NodeRef), nextPath c r l t = true →
      getNextOf c (endRef r l) = t := by
  intro l
  induction l with
  | nil =>
    intro r t h
    simpa [nextPath, endRef] using h
  | cons i l' ih =>
    intro r t h
    rw [show nextPath c r (i :: l') t =
        (decide (getNextOf c r = .node i) && nextPath c (.node i) l' t) from rfl,
      Bool.and_eq_true, decide_eq_true_iff] at h
    have := ih (.node i) t h.2
    rwa [endRef_cons]

theorem prevPath_last_edge (c : PieceChain) :
    ∀ (l : List Nat) (r t : NodeRef), prevPath c r l t = true →
      getPrevOf c t = endRef r l := by
  intro l
  induction l with
  | nil =>
    intro r t h
    simpa [prevPath, endRef] using h
  | cons i l' ih =>
    intro r t h
    rw [show prevPath c r (i :: l') t =
        (decide (getPrevOf c (.node i) = r) && prevPath c (.node i) l' t) from rfl,
      Bool.and_eq_true, decide_eq_true_iff] at h
    have := ih (.node i) t h.2
    rwa [endRef_cons]

theorem nextPath_retarget {c c'' : PieceChain} :
    ∀ (l : List Nat) (r t t' : NodeRef), nextPath c r l t = true →
      (∀ x, (x = r ∧ l ≠ []) ∨ (∃ i ∈ l.dropLast, x = .node i) →
        getNextOf c'' x = getNextOf c x) →
      getNextOf c'' (endRef r l) = t' →
      nextPath c'' r l t' = true := by
  intro l
  induction l with
  | nil =>
    intro r t t' _ _ hlast
    simpa [nextPath, endRef] using hlast
  | cons i l' ih =>
    intro r t t' h hagree hlast
    rw [show nextPath c r (i :: l') t =
        (decide (getNextOf c r = .node i) && nextPath c (.node i) l' t) from rfl,
      Bool.and_eq_true, decide_eq_true_iff] at h
    rw [show nextPath c'' r (i :: l') t' =
        (decide (getNextOf c'' r = .node i) && nextPath c'' (.node i) l' t') from rfl,
      Bool.and_eq_true, decide_eq_true_iff]
    rw [endRef_cons] at hlast
    cases l' with
    | nil =>
      refine ⟨?_, ?_⟩
      · -- here r = endRef r [i] only if ... no: the edge r→i is the last edge? no:
        -- for l = [i], the reads are at r (edge r→i is NOT final; final is at node i).
        -- r is in the agreement set iff l ≠ [] ✓
        rw [hagree r (Or.inl ⟨rfl, by simp⟩)]
        exact h.1
      · simpa [nextPath, endRef] using hlast
    | cons j l'' =>
      refine ⟨?_, ?_⟩
      · rw [hagree r (Or.inl ⟨rfl, by simp⟩)]
        exact h.1
      · refine ih (.node i) t t' h.2 ?_ hlast
        intro x hx
        refine hagree x ?_
        rcases hx with ⟨hx1, _⟩ | ⟨k, hk, hx2⟩
        · exact Or.inr ⟨i, by simp, hx1⟩
        · refine Or.inr ⟨k, ?_, hx2⟩
          rw [show (i :: j :: l'').dropLast = i :: (j :: l'').dropLast from rfl]
          exact List.mem_cons_of_mem i hk

theorem prevPath_retarget {c c'' : PieceChain} :
    ∀ (l : List Nat) (r t t' : NodeRef), prevPath c r l t = true →
      (∀ i ∈ l, getPrevOf c'' (.node i) = getPrevOf c (.node i)) →
      getPrevOf c'' t' = endRef r l →
      prevPath c'' r l t' = true := by
  intro l
  induction l with
  | nil =>
    intro r t t' _ _ hlast
    simpa [prevPath, endRef] using hlast
  | cons i l' ih =>
    intro r t t' h hagree hlast
    rw [show prevPath c r (i :: l') t =
        (decide (getPrevOf c (.node i) = r) && prevPath c (.node i) l' t) from rfl,
      Bool.and_eq_true, decide_eq_true_iff] at h
    rw [show prevPath c'' r (i :: l') t' =
        (decide (getPrevOf c'' (.node i) = r) && prevPath c'' (.node i) l' t') from rfl,
      Bool.and_eq_true, decide_eq_true_iff]
    rw [endRef_cons] at hlast
    exact ⟨by rw [hagree i (by simp)]; exact h.1,
      ih (.node i) t t' h.2 (fun j hj => hagree j (by simp [hj])) hlast⟩

/-! ## Rewiring the chain: generic splice lemma -/

theorem endRef_of_getLast {l : List Nat} {x : Nat} (r : NodeRef)
    (h : l.getLast? = some x) : endRef r l = .node x := by
  unfold endRef; rw [h]

theorem startRef_of_head {l : List Nat} {x : Nat} (t : NodeRef)
    (h : l.head? = some x) : startRef l t = .node x := by
  unfold startRef; rw [h]

theorem startRef_append (l1 l2 : List Nat) (t : NodeRef) :
    startRef (l1 ++ l2) t = startRef l1 (startRef l2 t) := by
  cases l1 with
  | nil => rfl
  | cons i l' => rfl

theorem endRef_nil (r : NodeRef) : endRef r [] = r := rfl

theorem endRef_append (r : NodeRef) (l1 l2 : List Nat) :
    endRef r (l1 ++ l2) = endRef (endRef r l1) l2 := by
  induction l1 generalizing r with
  | nil => rw [List.nil_append, endRef_nil]
  | cons i l1' ih => rw [List.cons_append, endRef_cons, ih, endRef_cons]

theorem getLast?_not_mem_dropLast (l : List Nat) (x : Nat)
    (hnd : l.Nodup) (h : l.getLast? = some x) : x ∉ l.dropLast := by
  intro hmem
  have hne : l ≠ [] := by intro hl; rw [hl] at h; simp at h
  have hsplit : l.dropLast ++ [l.getLast hne] = l := List.dropLast_append_getLast hne
  have hx : l.getLast hne = x := by
    have := List.getLast?_eq_getLast l hne
    rw [h] at this
    exact (Option.some.injEq _ _).mp this.symm
  rw [← hsplit] at hnd
  rw [List.nodup_append] at hnd
  exact hnd.2.2 hmem (by rw [hx]; simp)

theorem chainRep_congr {c c' : PieceChain} {ids : List Nat}
    (hp : c'.pieces = c.pieces) (hn : c'.headNext = c.headNext)
    (hv : c'.headPrev = c.headPrev) (h : chainRep c ids = true) :
    chainRep c' ids = true := by
  obtain ⟨h1, h2, h3, h4⟩ := chainRep_parts h
  have hgn : ∀ x, getNextOf c' x = getNextOf c x := by
    intro x
    cases x with
    | head => exact hn
    | node i => show (getPiece c' i).next = _; rw [getPiece_congr hp]; rfl
  have hgp : ∀ x, getPrevOf c' x = getPrevOf c x := by
    intro x
    cases x with
    | head => exact hv
    | node i => show (getPiece c' i).prev = _; rw [getPiece_congr hp]; rfl
  refine chainRep_mk ?_ ?_ h3 ?_
  · rw [nextPath_congr ids .head .head (hgn .head) (fun i _ => hgn (.node i))]
    exact h1
  · rw [prevPath_congr ids .head .head (hgp .head) (fun i _ => hgp (.node i))]
    exact h2
  · rw [hp]; exact h4

theorem span_swap_size (c : PieceChain) (o r : Span) :
    (span_swap c o r).size = c.size - o.len + r.len := by
  unfold span_swap
  split
  · next h => rw [h.1, h.2]; simp
  · repeat' split
    all_goals simp [setNextOf_size, setPrevOf_size]

theorem prevLinks_congr {c c'' : PieceChain} :
    ∀ (l : List Nat) (p : Nat),
      (∀ m ∈ l, getPrevOf c'' (.node m) = getPrevOf c (.node m)) →
      prevLinks c p l → prevLinks c'' p l := by
  intro l
  induction l with
  | nil => intro p _ _; trivial
  | cons m t ih =>
    intro p hagree h
    exact ⟨by rw [hagree m (by simp)]; exact h.1,
      ih m (fun j hj => hagree j (by simp [hj])) h.2⟩

theorem prevPath_of_prevLinks {c'' : PieceChain} :
    ∀ (l : List Nat) (p : Nat) (t : NodeRef),
      prevLinks c'' p l → getPrevOf c'' t = endRef (.node p) l →
      prevPath c'' (.node p) l t = true := by
  intro l
  induction l with
  | nil =>
    intro p t _ hlast
    simpa [prevPath, endRef] using hlast
  | cons m t' ih =>
    intro p t hpl hlast
    rw [endRef_cons] at hlast
    show (decide (getPrevOf c'' (.node m) = .node p) &&
      prevPath c'' (.node m) t' t) = true
    rw [Bool.and_eq_true, decide_eq_true_iff]
    exact ⟨hpl.1, ih m t hpl.2 hlast⟩

theorem mem_of_head_some {l : List Nat} {x : Nat} (h : l.head? = some x) :
    x ∈ l := by
  cases l with
  | nil => simp at h
  | cons a t =>
    have hax : a = x := by simpa using h
    rw [← hax]
    simp

theorem mem_of_getLast_some {l : List Nat} {x : Nat} (h : l.getLast? = some x) :
    x ∈ l := by
  cases l with
  | nil => simp at h
  | cons a t =>
    have hne : (a :: t) ≠ [] := by simp
    rw [List.getLast?_eq_getLast _ hne] at h
    have hx : (a :: t).getLast hne = x := by simpa using h
    rw [← hx]
    exact List.getLast_mem hne

theorem startRef_eq_or (l : List Nat) (t : NodeRef) :
    (l = [] ∧ startRef l t = t) ∨
      ∃ x, l.head? = some x ∧ startRef l t = .node x := by
  cases l with
  | nil => exact Or.inl ⟨rfl, rfl⟩
  | cons a t' => exact Or.inr ⟨a, rfl, rfl⟩

theorem endRef_eq_or (r : NodeRef) (l : List Nat) :
    (l = [] ∧ endRef r l = r) ∨
      ∃ x, l.getLast? = some x ∧ endRef r l = .node x := by
  cases l with
  | nil => exact Or.inl ⟨rfl, rfl⟩
  | cons a t =>
    right
    cases hgl : (a :: t).getLast? with
    | none => simp at hgl
    | some x => exact ⟨x, rfl, by unfold endRef; rw [hgl]⟩

/-- Generic splice lemma: if the chain of `c` decomposes as prefix `A` and
suffix `B` (with arbitrary old links in between), and `N` is a run of pieces
prelinked as `endRef A ← n0 ↔ … ↔ nLast → startRef B`, then performing the
two hinge writes of `span_swap` (`next` of the piece before the splice point,
`prev` of the piece after it) yields a well-formed chain `A ++ N ++ B`. -/
theorem chainRep_rewire (c cf : PieceChain) (A N B : List Nat)
    (rA rB v1 v2 tA tP : NodeRef)
    (hrA : rA = endRef .head A)
    (hrB : rB = startRef B .head)
    (hv1 : v1 = startRef N rB)
    (hv2 : v2 = endRef rA N)
    (hcf : cf = setPrevOf (setNextOf c rA v1) rB v2)
    (hnd : (A ++ N ++ B).Nodup)
    (hbw : ∀ i ∈ A ++ N ++ B, i < c.pieces.length)
    (hAn : nextPath c .head A tA = true)
    (hAp : prevPath c .head A tP = true)
    (hBn : ∀ b0 B2, B = b0 :: B2 → nextPath c (.node b0) B2 .head = true)
    (hBp : ∀ b0 B2, B = b0 :: B2 → prevPath c (.node b0) B2 .head = true)
    (hN : ∀ n0 N2, N = n0 :: N2 → getPrevOf c (.node n0) = rA ∧
          nextPath c (.node n0) N2 rB = true ∧
          prevLinks c n0 N2) :
    chainRep cf (A ++ N ++ B) = true := by
  have hnd' := hnd
  rw [List.append_assoc, List.nodup_append] at hnd'
  obtain ⟨hndA, hndNB, hdisjA⟩ := hnd'
  rw [List.nodup_append] at hndNB
  obtain ⟨hndN, hndB, hdisjNB⟩ := hndNB
  have hbw' : ∀ i, i ∈ A ∨ i ∈ N ∨ i ∈ B → i < c.pieces.length := by
    intro i hi
    refine hbw i ?_
    rw [List.append_assoc, List.mem_append, List.mem_append]
    exact hi
  have hvA : validRef c rA := by
    rcases endRef_eq_or .head A with ⟨_, h2⟩ | ⟨x, hx, h2⟩
    · rw [hrA, h2]; trivial
    · rw [hrA, h2]
      exact hbw' x (Or.inl (mem_of_getLast_some hx))
  have hc1len : (setNextOf c rA v1).pieces.length = c.pieces.length :=
    setNextOf_pieces_length c rA v1
  have hvB : validRef (setNextOf c rA v1) rB := by
    rcases startRef_eq_or B .head with ⟨_, h2⟩ | ⟨x, hx, h2⟩
    · rw [hrB, h2]; trivial
    · rw [hrB, h2]
      show x < (setNextOf c rA v1).pieces.length
      rw [hc1len]
      exact hbw' x (Or.inr (Or.inr (mem_of_head_some hx)))
  have hgn : ∀ x, getNextOf cf x = if x = rA then v1 else getNextOf c x := by
    intro x
    rw [hcf, getNextOf_setPrevOf, getNextOf_setNextOf c rA v1 hvA x]
  have hgp : ∀ x, getPrevOf cf x = if x = rB then v2 else getPrevOf c x := by
    intro x
    rw [hcf, getPrevOf_setPrevOf (setNextOf c rA v1) rB v2 hvB x,
      getPrevOf_setNextOf]
  have hgnA : getNextOf cf rA = v1 := by rw [hgn rA, if_pos rfl]
  have hgpB : getPrevOf cf rB = v2 := by rw [hgp rB, if_pos rfl]
  have hgn' : ∀ x, x ≠ rA → getNextOf cf x = getNextOf c x := by
    intro x hx; rw [hgn x, if_neg hx]
  have hgp' : ∀ x, x ≠ rB → getPrevOf cf x = getPrevOf c x := by
    intro x hx; rw [hgp x, if_neg hx]
  have hrAne : ∀ i, i ∈ N ∨ i ∈ B → rA ≠ .node i := by
    intro i hi
    rcases endRef_eq_or .head A with ⟨_, h2⟩ | ⟨x, hx, h2⟩
    · rw [hrA, h2]; intro h; exact NodeRef.noConfusion h
    · rw [hrA, h2]
      intro h
      have hxi : x = i := NodeRef.node.inj h
      subst hxi
      have hxA : x ∈ A := mem_of_getLast_some hx
      rcases hi with hiN | hiB
      · exact hdisjA hxA (List.mem_append.mpr (Or.inl hiN))
      · exact hdisjA hxA (List.mem_append.mpr (Or.inr hiB))
  have hrAdrop : ∀ i ∈ A.dropLast, rA ≠ .node i := by
    intro i hi
    rcases endRef_eq_or .head A with ⟨_, h2⟩ | ⟨x, hx, h2⟩
    · rw [hrA, h2]; intro h; exact NodeRef.noConfusion h
    · rw [hrA, h2]
      intro h
      have hxi : x = i := NodeRef.node.inj h
      subst hxi
      exact getLast?_not_mem_dropLast A x hndA hx hi
  have hrBne : ∀ i, i ∈ A ∨ i ∈ N → rB ≠ .node i := by
    intro i hi
    rcases startRef_eq_or B .head with ⟨_, h2⟩ | ⟨x, hx, h2⟩
    · rw [hrB, h2]; intro h; exact NodeRef.noConfusion h
    · rw [hrB, h2]
      intro h
      have hxi : x = i := NodeRef.node.inj h
      subst hxi
      have hxB : x ∈ B := mem_of_head_some hx
      rcases hi with hiA | hiN
      · exact hdisjA hiA (List.mem_append.mpr (Or.inr hxB))
      · exact hdisjNB hiN hxB
  have hBnext : ∀ b0 B', B = b0 :: B' → nextPath cf (.node b0) B' .head = true := by
    intro b0 B' hB
    subst hB
    have hBn2 : nextPath c (.node b0) B' .head = true := hBn b0 B' rfl
    have e1 : getNextOf cf (.node b0) = getNextOf c (.node b0) :=
      hgn' _ (Ne.symm (hrAne b0 (Or.inr (by simp))))
    have e2 : ∀ i ∈ B', getNextOf cf (.node i) = getNextOf c (.node i) := by
      intro i hi
      exact hgn' _ (Ne.symm (hrAne i (Or.inr (by simp [hi]))))
    rw [nextPath_congr B' (.node b0) .head e1 e2]
    exact hBn2
  have hBprev : ∀ b0 B', B = b0 :: B' → prevPath cf (.node b0) B' .head = true := by
    intro b0 B' hB
    subst hB
    have hBp2 : prevPath c (.node b0) B' .head = true := hBp b0 B' rfl
    have hb0B' : b0 ∉ B' := (List.nodup_cons.mp hndB).1
    have hrB2 : rB = .node b0 := hrB
    have e1 : getPrevOf cf .head = getPrevOf c .head := by
      refine hgp' _ ?_
      rw [hrB2]
      intro h
      exact NodeRef.noConfusion h
    have e2 : ∀ i ∈ B', getPrevOf cf (.node i) = getPrevOf c (.node i) := by
      intro i hi
      refine hgp' _ ?_
      intro h
      rw [hrB2] at h
      have hib : i = b0 := NodeRef.node.inj h
      subst hib
      exact hb0B' hi
    rw [prevPath_congr B' (.node b0) .head e1 e2]
    exact hBp2
  have hNnext : ∀ n0 N', N = n0 :: N' → nextPath cf (.node n0) N' rB = true := by
    intro n0 N' hNe
    subst hNe
    have hN2 : getPrevOf c (.node n0) = rA ∧
        nextPath c (.node n0) N' rB = true ∧ prevLinks c n0 N' := hN n0 N' rfl
    have e1 : getNextOf cf (.node n0) = getNextOf c (.node n0) :=
      hgn' _ (Ne.symm (hrAne n0 (Or.inl (by simp))))
    have e2 : ∀ i ∈ N', getNextOf cf (.node i) = getNextOf c (.node i) := by
      intro i hi
      exact hgn' _ (Ne.symm (hrAne i (Or.inl (by simp [hi]))))
    rw [nextPath_congr N' (.node n0) rB e1 e2]
    exact hN2.2.1
  have hNlinks : ∀ n0 N', N = n0 :: N' → prevLinks cf n0 N' := by
    intro n0 N' hNe
    subst hNe
    have hN2 : getPrevOf c (.node n0) = rA ∧
        nextPath c (.node n0) N' rB = true ∧ prevLinks c n0 N' := hN n0 N' rfl
    refine prevLinks_congr N' n0 ?_ hN2.2.2
    intro m hm
    exact hgp' _ (Ne.symm (hrBne m (Or.inr (by simp [hm]))))
  have hNprev0 : ∀ n0 N', N = n0 :: N' → getPrevOf cf (.node n0) = rA := by
    intro n0 N' hNe
    subst hNe
    have hN2 : getPrevOf c (.node n0) = rA ∧
        nextPath c (.node n0) N' rB = true ∧ prevLinks c n0 N' := hN n0 N' rfl
    rw [hgp' _ (Ne.symm (hrBne n0 (Or.inr (by simp))))]
    exact hN2.1
  have hplencf : cf.pieces.length = c.pieces.length := by
    rw [hcf, setPrevOf_pieces_length, setNextOf_pieces_length]
  rw [List.append_assoc]
  refine chainRep_mk ?_ ?_ ?_ ?_
  · -- next pointers
    refine (nextPath_append cf A .head .head (N ++ B)).mpr ⟨?_, ?_⟩
    · refine nextPath_retarget A .head tA (startRef (N ++ B) .head) hAn ?_ ?_
      · intro x hx
        refine hgn' x ?_
        rcases hx with ⟨hx1, hne⟩ | ⟨i, hi, hx2⟩
        · subst hx1
          rcases endRef_eq_or .head A with ⟨h1, _⟩ | ⟨y, hy, h2⟩
          · exact absurd h1 hne
          · rw [hrA, h2]; intro h; exact NodeRef.noConfusion h
        · subst hx2
          exact Ne.symm (hrAdrop i hi)
      · rw [← hrA, hgnA, hv1, hrB, startRef_append]
    · cases hNe : N with
      | nil =>
        rw [List.nil_append]
        cases hBe : B with
        | nil => show True; trivial
        | cons b0 B' =>
          show nextPath cf (.node b0) B' .head = true
          exact hBnext b0 B' hBe
      | cons n0 N' =>
        rw [List.cons_append]
        show nextPath cf (.node n0) (N' ++ B) .head = true
        refine (nextPath_append cf N' (.node n0) .head B).mpr ⟨?_, ?_⟩
        · rw [← hrB]
          exact hNnext n0 N' hNe
        · cases hBe : B with
          | nil => show True; trivial
          | cons b0 B' =>
            show nextPath cf (.node b0) B' .head = true
            exact hBnext b0 B' hBe
  · -- prev pointers
    refine (prevPath_append cf A .head .head (N ++ B)).mpr ⟨?_, ?_⟩
    · refine prevPath_retarget A .head tP (startRef (N ++ B) .head) hAp ?_ ?_
      · intro i hi
        exact hgp' _ (Ne.symm (hrBne i (Or.inl hi)))
      · rw [startRef_append, ← hrB, ← hrA]
        cases hNe : N with
        | nil =>
          show getPrevOf cf rB = rA
          rw [hgpB, hv2, hNe, endRef_nil]
        | cons n0 N' =>
          show getPrevOf cf (.node n0) = rA
          exact hNprev0 n0 N' hNe
    · cases hNe : N with
      | nil =>
        rw [List.nil_append]
        cases hBe : B with
        | nil => show True; trivial
        | cons b0 B' =>
          show prevPath cf (.node b0) B' .head = true
          exact hBprev b0 B' hBe
      | cons n0 N' =>
        rw [List.cons_append]
        show prevPath cf (.node n0) (N' ++ B) .head = true
        refine (prevPath_append cf N' (.node n0) .head B).mpr ⟨?_, ?_⟩
        · rw [← hrB]
          refine prevPath_of_prevLinks N' n0 rB (hNlinks n0 N' hNe) ?_
          rw [hgpB, hv2, hNe, endRef_cons]
        · cases hBe : B with
          | nil => show True; trivial
          | cons b0 B' =>
            show prevPath cf (.node b0) B' .head = true
            exact hBprev b0 B' hBe
  · rw [← List.append_assoc]
    exact hnd
  · intro i hi
    rw [hplencf]
    refine hbw i ?_
    rw [List.append_assoc]
    exact hi

/-! ## Slice and growth helpers -/

theorem take_append_le {α : Type} (X Y : List α) (n : Nat) (h : n ≤ X.length) :
    (X ++ Y).take n = X.take n := by
  rw [List.take_append_eq_append_take]
  have h0 : n - X.length = 0 := by omega
  rw [h0, List.take_zero, List.append_nil]

theorem drop_append_le {α : Type} (X Y : List α) (n : Nat) (h : n ≤ X.length) :
    (X ++ Y).drop n = X.drop n ++ Y := by
  rw [List.drop_append_eq_append_drop]
  have h0 : n - X.length = 0 := by omega
  rw [h0, List.drop_zero]

theorem take_append_exact {α : Type} (X Y : List α) (n m : Nat)
    (h : X.length = n) : (X ++ Y).take (n + m) = X ++ Y.take m := by
  rw [List.take_append_eq_append_take]
  have h1 : X.take (n + m) = X := List.take_of_length_le (by omega)
  rw [h1]
  have h2 : n + m - X.length = m := by omega
  rw [h2]

theorem drop_append_exact {α : Type} (X Y : List α) (n m : Nat)
    (h : X.length = n) : (X ++ Y).drop (n + m) = Y.drop m := by
  rw [List.drop_append_eq_append_drop]
  have h1 : X.drop (n + m) = [] := List.drop_eq_nil_of_le (by omega)
  have h2 : n + m - X.length = m := by omega
  rw [h1, h2, List.nil_append]

theorem pieceBytes_ext {c c2 : PieceChain} (j : Nat)
    (hb : c2.blocks = c.blocks)
    (h1 : (getPiece c2 j).blk = (getPiece c j).blk)
    (h2 : (getPiece c2 j).off = (getPiece c j).off)
    (h3 : (getPiece c2 j).size = (getPiece c j).size) :
    pieceBytes c2 j = pieceBytes c j := by
  simp only [pieceBytes]
  rw [hb, h1, h2, h3]

theorem pieceBytes_span_swap (c : PieceChain) (o r : Span) (j : Nat) :
    pieceBytes (span_swap c o r) j = pieceBytes c j :=
  pieceBytes_ext j (span_swap_blocks c o r) (blk_span_swap c o r j)
    (off_span_swap c o r j) (size_span_swap c o r j)

theorem getPiece_grow {c c2 : PieceChain} {L : List Piece}
    (hp : c2.pieces = c.pieces ++ L) {j : Nat} (hj : j < c.pieces.length) :
    getPiece c2 j = getPiece c j := by
  show c2.pieces.getD j default = c.pieces.getD j default
  rw [hp]
  exact getD_append_left c.pieces L j default hj

theorem getNextOf_grow {c c2 : PieceChain} {L : List Piece}
    (hp : c2.pieces = c.pieces ++ L) (hn : c2.headNext = c.headNext) :
    ∀ r, (match r with | NodeRef.head => True | NodeRef.node j => j < c.pieces.length) →
      getNextOf c2 r = getNextOf c r := by
  intro r hr
  cases r with
  | head => exact hn
  | node j => show (getPiece c2 j).next = _; rw [getPiece_grow hp hr]; rfl

theorem getPrevOf_grow {c c2 : PieceChain} {L : List Piece}
    (hp : c2.pieces = c.pieces ++ L) (hv : c2.headPrev = c.headPrev) :
    ∀ r, (match r with | NodeRef.head => True | NodeRef.node j => j < c.pieces.length) →
      getPrevOf c2 r = getPrevOf c r := by
  intro r hr
  cases r with
  | head => exact hv
  | node j => show (getPiece c2 j).prev = _; rw [getPiece_grow hp hr]; rfl

theorem chainRep_grow {c c2 : PieceChain} {ids : List Nat} {L : List Piece}
    (hp : c2.pieces = c.pieces ++ L) (hn : c2.headNext = c.headNext)
    (hv : c2.headPrev = c.headPrev)
    (h : chainRep c ids = true) : chainRep c2 ids = true := by
  obtain ⟨h1, h2, h3, h4⟩ := chainRep_parts h
  refine chainRep_mk ?_ ?_ h3 ?_
  · rw [nextPath_congr ids .head .head (getNextOf_grow hp hn .head trivial)
      (fun i hi => getNextOf_grow hp hn (.node i) (h4 i hi))]
    exact h1
  · rw [prevPath_congr ids .head .head (getPrevOf_grow hp hv .head trivial)
      (fun i hi => getPrevOf_grow hp hv (.node i) (h4 i hi))]
    exact h2
  · intro i hi
    rw [hp, List.length_append]
    exact Nat.lt_of_lt_of_le (h4 i hi) (Nat.le_add_right _ _)

theorem nodup_splice_fresh (A B N : List Nat) (Len : Nat)
    (hAB : (A ++ B).Nodup) (hbound : ∀ i ∈ A ++ B, i < Len)
    (hN : N.Nodup) (hfresh : ∀ n ∈ N, Len ≤ n) :
    (A ++ N ++ B).Nodup := by
  rw [List.append_assoc, List.nodup_append]
  rw [List.nodup_append] at hAB
  obtain ⟨hA, hB, hABd⟩ := hAB
  refine ⟨hA, ?_, ?_⟩
  · rw [List.nodup_append]
    refine ⟨hN, hB, ?_⟩
    intro n hn hnB
    have h1 := hfresh n hn
    have h2 := hbound n (List.mem_append.mpr (Or.inr hnB))
    omega
  · intro a ha hmem
    rw [List.mem_append] at hmem
    rcases hmem with haN | haB
    · have h1 := hfresh a haN
      have h2 := hbound a (List.mem_append.mpr (Or.inl ha))
      omega
    · exact hABd ha haB

theorem nodup_mid_of_split (A S B : List Nat) (h : (A ++ S ++ B).Nodup) :
    (A ++ B).Nodup := by
  have hsub : List.Sublist (A ++ B) (A ++ (S ++ B)) := by
    refine List.Sublist.append_left ?_ A
    exact List.sublist_append_right S B
  rw [List.append_assoc] at h
  exact h.sublist hsub

/-! ## The three non-trivial branch shapes of span_swap -/

theorem span_swap_del_eq (c : PieceChain) (os oe olen : Nat)
    (holen : olen ≠ 0) :
    span_swap c ⟨some os, some oe, olen⟩ ⟨none, none, 0⟩ =
      { setPrevOf
          (setNextOf c (getPrevOf c (.node os)) (getNextOf c (.node oe)))
          (getNextOf (setNextOf c (getPrevOf c (.node os)) (getNextOf c (.node oe)))
            (.node oe))
          (getPrevOf (setNextOf c (getPrevOf c (.node os)) (getNextOf c (.node oe)))
            (.node os)) with
        size := c.size - olen } := by
  unfold span_swap
  rw [if_neg (by simp [holen])]
  rw [if_neg (by simp [holen])]
  rw [if_pos rfl]
  have hsz : ∀ c' r v, (setPrevOf c' r v).size = c'.size := setPrevOf_size
  have hsz2 : ∀ c' r v, (setNextOf c' r v).size = c'.size := setNextOf_size
  dsimp only
  rw [hsz, hsz2]
  simp

theorem span_swap_ins_eq (c : PieceChain) (rs re rlen : Nat)
    (hrlen : rlen ≠ 0) :
    span_swap c ⟨none, none, 0⟩ ⟨some rs, some re, rlen⟩ =
      { setPrevOf
          (setNextOf c (getPrevOf c (.node rs)) (.node rs))
          (getNextOf (setNextOf c (getPrevOf c (.node rs)) (.node rs)) (.node re))
          (.node re) with
        size := c.size + rlen } := by
  unfold span_swap
  rw [if_neg (by simp [hrlen])]
  rw [if_pos rfl]
  have hsz : ∀ c' r v, (setPrevOf c' r v).size = c'.size := setPrevOf_size
  have hsz2 : ∀ c' r v, (setNextOf c' r v).size = c'.size := setNextOf_size
  dsimp only
  rw [hsz, hsz2]
  simp

theorem span_swap_mixed_eq (c : PieceChain) (os oe rs re olen rlen : Nat)
    (holen : olen ≠ 0) (hrlen : rlen ≠ 0) :
    span_swap c ⟨some os, some oe, olen⟩ ⟨some rs, some re, rlen⟩ =
      { setPrevOf
          (setNextOf c (getPrevOf c (.node os)) (.node rs))
          (getNextOf (setNextOf c (getPrevOf c (.node os)) (.node rs)) (.node oe))
          (.node re) with
        size := c.size - olen + rlen } := by
  unfold span_swap
  rw [if_neg (by simp [holen])]
  rw [if_neg (by simp [holen])]
  rw [if_neg (by simp [hrlen])]
  have hsz : ∀ c' r v, (setPrevOf c' r v).size = c'.size := setPrevOf_size
  have hsz2 : ∀ c' r v, (setNextOf c' r v).size = c'.size := setNextOf_size
  dsimp only
  rw [hsz, hsz2]

theorem getD_append2_len0 {α : Type} (l : List α) (a b d : α) :
    (l ++ [a, b]).getD l.length d = a := by
  rw [getD_append_right l [a, b] l.length d (Nat.le_refl _)]
  simp

theorem getD_append2_len1 {α : Type} (l : List α) (a b d : α) :
    (l ++ [a, b]).getD (l.length + 1) d = b := by
  rw [getD_append_right l [a, b] (l.length + 1) d (Nat.le_succ_of_le (Nat.le_refl _))]
  simp

theorem spanLenWalk_lower (c : PieceChain) (e s fuel : Nat) :
    (getPiece c s).size ≤ spanLenWalk c e s fuel := by
  unfold spanLenWalk
  exact Nat.le_add_right _ _

theorem pieceBytes_take_shape {c c3 : PieceChain} {n p s : Nat}
    (hb : c3.blocks = c.blocks)
    (h1 : (getPiece c3 n).blk = (getPiece c p).blk)
    (h2 : (getPiece c3 n).off = (getPiece c p).off)
    (h3 : (getPiece c3 n).size = s)
    (hs : s ≤ (getPiece c p).size) :
    pieceBytes c3 n = (pieceBytes c p).take s := by
  simp only [pieceBytes]
  rw [hb, h1, h2, h3, List.take_take, Nat.min_eq_left hs]

theorem pieceBytes_drop_shape {c c3 : PieceChain} {n p e : Nat}
    (hb : c3.blocks = c.blocks)
    (h1 : (getPiece c3 n).blk = (getPiece c p).blk)
    (h2 : (getPiece c3 n).off = (getPiece c p).off + e)
    (h3 : (getPiece c3 n).size = (getPiece c p).size - e) :
    pieceBytes c3 n = (pieceBytes c p).drop e := by
  simp only [pieceBytes]
  rw [hb, h1, h2, h3, List.drop_take, List.drop_drop]

theorem nextPath_grow {c c3 : PieceChain} {L : List Piece}
    (hp3 : c3.pieces = c.pieces ++ L) (hn3 : c3.headNext = c.headNext)
    (l : List Nat) (r t : NodeRef)
    (hl : ∀ i ∈ l, i < c.pieces.length)
    (hr : match r with | NodeRef.head => True | NodeRef.node j => j < c.pieces.length) :
    nextPath c3 r l t = nextPath c r l t :=
  nextPath_congr l r t (getNextOf_grow hp3 hn3 r hr)
    (fun i hi => getNextOf_grow hp3 hn3 (.node i) (hl i hi))

theorem prevPath_grow {c c3 : PieceChain} {L : List Piece}
    (hp3 : c3.pieces = c.pieces ++ L) (hv3 : c3.headPrev = c.headPrev)
    (l : List Nat) (r t : NodeRef)
    (hl : ∀ i ∈ l, i < c.pieces.length)
    (ht : match t with | NodeRef.head => True | NodeRef.node j => j < c.pieces.length) :
    prevPath c3 r l t = prevPath c r l t :=
  prevPath_congr l r t (getPrevOf_grow hp3 hv3 t ht)
    (fun i hi => getPrevOf_grow hp3 hv3 (.node i) (hl i hi))

/-- Correctness of a full splice step: state `c3` extends `c` with fresh
pieces, the two hinge writes reroute the chain through the run `N`, and the
resulting contents are the old `A`/`B` bytes around the bytes of `N`. -/
theorem splice_state_spec (c c3 cf : PieceChain) (A B N : List Nat)
    (NP : List Piece) (rA rB v1 v2 tA tP : NodeRef) (z : Nat)
    (hrA : rA = endRef .head A)
    (hrB : rB = startRef B .head)
    (hv1 : v1 = startRef N rB)
    (hv2 : v2 = endRef rA N)
    (hcf : cf = { setPrevOf (setNextOf c3 rA v1) rB v2 with size := z })
    (hp3 : c3.pieces = c.pieces ++ NP)
    (hb3 : c3.blocks = c.blocks)
    (hn3 : c3.headNext = c.headNext)
    (hv3 : c3.headPrev = c.headPrev)
    (hnd : (A ++ N ++ B).Nodup)
    (hbw : ∀ i ∈ A ++ N ++ B, i < c3.pieces.length)
    (hAn : nextPath c3 .head A tA = true)
    (hAp : prevPath c3 .head A tP = true)
    (hBn : ∀ b0 B2, B = b0 :: B2 → nextPath c3 (.node b0) B2 .head = true)
    (hBp : ∀ b0 B2, B = b0 :: B2 → prevPath c3 (.node b0) B2 .head = true)
    (hN : ∀ n0 N2, N = n0 :: N2 → getPrevOf c3 (.node n0) = rA ∧
          nextPath c3 (.node n0) N2 rB = true ∧
          prevLinks c3 n0 N2)
    (hAold : ∀ i ∈ A, i < c.pieces.length)
    (hBold : ∀ i ∈ B, i < c.pieces.length) :
    chainRep cf (A ++ N ++ B) = true ∧
    contents cf = (A.map (pieceBytes c)).flatten ++
      (N.map (pieceBytes c3)).flatten ++ (B.map (pieceBytes c)).flatten := by
  have hrep0 : chainRep (setPrevOf (setNextOf c3 rA v1) rB v2) (A ++ N ++ B) = true :=
    chainRep_rewire c3 _ A N B rA rB v1 v2 tA tP hrA hrB hv1 hv2 rfl
      hnd hbw hAn hAp hBn hBp hN
  have hrepf : chainRep cf (A ++ N ++ B) = true := by
    refine chainRep_congr ?_ ?_ ?_ hrep0 <;> rw [hcf]
  refine ⟨hrepf, ?_⟩
  have hbytes3 : ∀ j, pieceBytes cf j = pieceBytes c3 j := by
    intro j
    refine pieceBytes_ext j ?_ ?_ ?_ ?_ <;> rw [hcf]
    · show (setPrevOf (setNextOf c3 rA v1) rB v2).blocks = c3.blocks
      rw [setPrevOf_blocks, setNextOf_blocks]
    · show (getPiece (setPrevOf (setNextOf c3 rA v1) rB v2) j).blk = _
      rw [blk_setPrevOf, blk_setNextOf]
    · show (getPiece (setPrevOf (setNextOf c3 rA v1) rB v2) j).off = _
      rw [off_setPrevOf, off_setNextOf]
    · show (getPiece (setPrevOf (setNextOf c3 rA v1) rB v2) j).size = _
      rw [size_setPrevOf, size_setNextOf]
  have hbytesOld : ∀ j, j < c.pieces.length → pieceBytes c3 j = pieceBytes c j := by
    intro j hj
    refine pieceBytes_ext j hb3 ?_ ?_ ?_ <;> rw [getPiece_grow hp3 hj]
  rw [contents_of_chainRep hrepf, List.map_append, List.map_append,
    List.flatten_append, List.flatten_append]
  have hA : A.map (pieceBytes cf) = A.map (pieceBytes c) := by
    refine List.map_congr_left ?_
    intro j hj
    rw [hbytes3 j, hbytesOld j (hAold j hj)]
  have hB : B.map (pieceBytes cf) = B.map (pieceBytes c) := by
    refine List.map_congr_left ?_
    intro j hj
    rw [hbytes3 j, hbytesOld j (hBold j hj)]
  have hNm : N.map (pieceBytes cf) = N.map (pieceBytes c3) := by
    refine List.map_congr_left ?_
    intro j _
    rw [hbytes3 j]
  rw [hA, hB, hNm]

/-! ## Branch equations for delete_slow -/

theorem delete_slow_eq_both (c : PieceChain) (offset dlen sp sl ep el : Nat)
    (h1 : sl ≠ 0) (h2 : el ≠ (getPiece c ep).size) :
    delete_slow c offset dlen sp sl ep el =
      span_swap
        { c with
          pieces := c.pieces ++
            [{ blk := (getPiece c sp).blk, off := (getPiece c sp).off,
               size := sl, prev := (getPiece c sp).prev,
               next := .node (c.pieces.length + 1) },
             { blk := (getPiece c ep).blk, off := (getPiece c ep).off + el,
               size := (getPiece c ep).size - el,
               prev := .node c.pieces.length, next := (getPiece c ep).next }],
          pendingChanges := c.pendingChanges ++
            [⟨span_mk
                { c with
                  pieces := c.pieces ++
                    [{ blk := (getPiece c sp).blk, off := (getPiece c sp).off,
                       size := sl, prev := (getPiece c sp).prev,
                       next := .node (c.pieces.length + 1) },
                     { blk := (getPiece c ep).blk, off := (getPiece c ep).off + el,
                       size := (getPiece c ep).size - el,
                       prev := .node c.pieces.length, next := (getPiece c ep).next }] }
                (some sp) (some ep),
              span_mk
                { c with
                  pieces := c.pieces ++
                    [{ blk := (getPiece c sp).blk, off := (getPiece c sp).off,
                       size := sl, prev := (getPiece c sp).prev,
                       next := .node (c.pieces.length + 1) },
                     { blk := (getPiece c ep).blk, off := (getPiece c ep).off + el,
                       size := (getPiece c ep).size - el,
                       prev := .node c.pieces.length, next := (getPiece c ep).next }] }
                (some c.pieces.length) (some (c.pieces.length + 1)),
              offset⟩] }
        (span_mk
          { c with
            pieces := c.pieces ++
              [{ blk := (getPiece c sp).blk, off := (getPiece c sp).off,
                 size := sl, prev := (getPiece c sp).prev,
                 next := .node (c.pieces.length + 1) },
               { blk := (getPiece c ep).blk, off := (getPiece c ep).off + el,
                 size := (getPiece c ep).size - el,
                 prev := .node c.pieces.length, next := (getPiece c ep).next }] }
          (some sp) (some ep))
        (span_mk
          { c with
            pieces := c.pieces ++
              [{ blk := (getPiece c sp).blk, off := (getPiece c sp).off,
                 size := sl, prev := (getPiece c sp).prev,
                 next := .node (c.pieces.length + 1) },
               { blk := (getPiece c ep).blk, off := (getPiece c ep).off + el,
                 size := (getPiece c ep).size - el,
                 prev := .node c.pieces.length, next := (getPiece c ep).next }] }
          (some c.pieces.length) (some (c.pieces.length + 1))) := by
  unfold delete_slow
  dsimp only
  rw [if_pos h1, if_pos h2]

theorem delete_slow_eq_start (c : PieceChain) (offset dlen sp sl ep el : Nat)
    (h1 : sl ≠ 0) (h2 : el = (getPiece c ep).size) :
    delete_slow c offset dlen sp sl ep el =
      span_swap
        { c with
          pieces := c.pieces ++
            [{ blk := (getPiece c sp).blk, off := (getPiece c sp).off,
               size := sl, prev := (getPiece c sp).prev,
               next := (getPiece c ep).next }],
          pendingChanges := c.pendingChanges ++
            [⟨span_mk
                { c with
                  pieces := c.pieces ++
                    [{ blk := (getPiece c sp).blk, off := (getPiece c sp).off,
                       size := sl, prev := (getPiece c sp).prev,
                       next := (getPiece c ep).next }] }
                (some sp) (some ep),
              span_mk
                { c with
                  pieces := c.pieces ++
                    [{ blk := (getPiece c sp).blk, off := (getPiece c sp).off,
                       size := sl, prev := (getPiece c sp).prev,
                       next := (getPiece c ep).next }] }
                (some c.pieces.length) (some c.pieces.length),
              offset⟩] }
        (span_mk
          { c with
            pieces := c.pieces ++
              [{ blk := (getPiece c sp).blk, off := (getPiece c sp).off,
                 size := sl, prev := (getPiece c sp).prev,
                 next := (getPiece c ep).next }] }
          (some sp) (some ep))
        (span_mk
          { c with
            pieces := c.pieces ++
              [{ blk := (getPiece c sp).blk, off := (getPiece c sp).off,
                 size := sl, prev := (getPiece c sp).prev,
                 next := (getPiece c ep).next }] }
          (some c.pieces.length) (some c.pieces.length)) := by
  unfold delete_slow
  dsimp only
  rw [if_pos h1, if_neg (by rw [h2]; exact fun h => h rfl)]

theorem delete_slow_eq_end (c : PieceChain) (offset dlen sp sl ep el : Nat)
    (h1 : sl = 0) (h2 : el ≠ (getPiece c ep).size) :
    delete_slow c offset dlen sp sl ep el =
      span_swap
        { c with
          pieces := c.pieces ++
            [{ blk := (getPiece c ep).blk, off := (getPiece c ep).off + el,
               size := (getPiece c ep).size - el,
               prev := (getPiece c sp).prev, next := (getPiece c ep).next }],
          pendingChanges := c.pendingChanges ++
            [⟨span_mk
                { c with
                  pieces := c.pieces ++
                    [{ blk := (getPiece c ep).blk, off := (getPiece c ep).off + el,
                       size := (getPiece c ep).size - el,
                       prev := (getPiece c sp).prev, next := (getPiece c ep).next }] }
                (some sp) (some ep),
              span_mk
                { c with
                  pieces := c.pieces ++
                    [{ blk := (getPiece c ep).blk, off := (getPiece c ep).off + el,
                       size := (getPiece c ep).size - el,
                       prev := (getPiece c sp).prev, next := (getPiece c ep).next }] }
                (some c.pieces.length) (some c.pieces.length),
              offset⟩] }
        (span_mk
          { c with
            pieces := c.pieces ++
              [{ blk := (getPiece c ep).blk, off := (getPiece c ep).off + el,
                 size := (getPiece c ep).size - el,
                 prev := (getPiece c sp).prev, next := (getPiece c ep).next }] }
          (some sp) (some ep))
        (span_mk
          { c with
            pieces := c.pieces ++
              [{ blk := (getPiece c ep).blk, off := (getPiece c ep).off + el,
                 size := (getPiece c ep).size - el,
                 prev := (getPiece c sp).prev, next := (getPiece c ep).next }] }
          (some c.pieces.length) (some c.pieces.length)) := by
  unfold delete_slow
  dsimp only
  rw [if_neg (by rw [h1]; exact fun h => h rfl), if_pos h2]

theorem delete_slow_eq_del (c : PieceChain) (offset dlen sp sl ep el : Nat)
    (h1 : sl = 0) (h2 : el = (getPiece c ep).size) :
    delete_slow c offset dlen sp sl ep el =
      span_swap
        { c with
          pendingChanges := c.pendingChanges ++
            [⟨span_mk c (some sp) (some ep), ⟨none, none, 0⟩, offset⟩] }
        (span_mk c (some sp) (some ep))
        ⟨none, none, 0⟩ := by
  unfold delete_slow
  dsimp only
  rw [if_neg (by rw [h1]; exact fun h => h rfl),
    if_neg (by rw [h2]; exact fun h => h rfl)]

theorem validRef_grow {c c3 : PieceChain} {L : List Piece}
    (hp3 : c3.pieces = c.pieces ++ L) {r : NodeRef}
    (h : validRef c r) : validRef c3 r := by
  cases r with
  | head => trivial
  | node j =>
    show j < c3.pieces.length
    rw [hp3, List.length_append]
    exact Nat.lt_of_lt_of_le h (Nat.le_add_right _ _)

/-- Contents and chain shape after the slow deletion path: the pieces of the
segment from `sp` to `ep` are replaced by (up to two) trimmed copies, keeping
the first `sl` bytes of `sp` and the bytes of `ep` from `el` on. -/
theorem delete_slow_spec (c : PieceChain) (A SS B : List Nat)
    (offset dlen sp sl ep el : Nat)
    (hrep : chainRep c (A ++ SS ++ B) = true)
    (hsp_head : SS.head? = some sp)
    (hep_mem : ep ∈ SS)
    (hbefore : getPrevOf c (.node sp) = endRef .head A)
    (hafter : getNextOf c (.node ep) = startRef B .head)
    (hsl : sl < (getPiece c sp).size)
    (hel : el ≤ (getPiece c ep).size) :
    ∃ ids2, chainRep (delete_slow c offset dlen sp sl ep el) ids2 = true ∧
      contents (delete_slow c offset dlen sp sl ep el) =
        (A.map (pieceBytes c)).flatten ++ (pieceBytes c sp).take sl ++
          (pieceBytes c ep).drop el ++ (B.map (pieceBytes c)).flatten := by
  obtain ⟨hnp, hpp, hnd, hbnd⟩ := chainRep_parts hrep
  have hsp_mem : sp ∈ SS := mem_of_head_some hsp_head
  have hsp_start : startRef SS (startRef B .head) = .node sp :=
    startRef_of_head _ hsp_head
  obtain ⟨hnp1, hBn0⟩ := (nextPath_append c (A ++ SS) .head .head B).mp hnp
  obtain ⟨hAn0, _⟩ := (nextPath_append c A .head (startRef B .head) SS).mp hnp1
  obtain ⟨hpp1, hBp0⟩ := (prevPath_append c (A ++ SS) .head .head B).mp hpp
  obtain ⟨hAp0, _⟩ := (prevPath_append c A .head (startRef B .head) SS).mp hpp1
  rw [hsp_start] at hAn0 hAp0
  have hBn' : ∀ b0 B', B = b0 :: B' → nextPath c (.node b0) B' .head = true := by
    intro b0 B' hBe
    rw [hBe] at hBn0
    exact hBn0
  have hBp' : ∀ b0 B', B = b0 :: B' → prevPath c (.node b0) B' .head = true := by
    intro b0 B' hBe
    rw [hBe] at hBp0
    exact hBp0
  have hspb : sp < c.pieces.length := hbnd sp (by simp [hsp_mem])
  have hepb : ep < c.pieces.length := hbnd ep (by simp [hep_mem])
  have hAb : ∀ i ∈ A, i < c.pieces.length := fun i hi => hbnd i (by simp [hi])
  have hBb : ∀ i ∈ B, i < c.pieces.length := fun i hi => hbnd i (by simp [hi])
  have hABnd : (A ++ B).Nodup := nodup_mid_of_split A SS B hnd
  have hABb : ∀ i ∈ A ++ B, i < c.pieces.length := by
    intro i hi
    rw [List.mem_append] at hi
    rcases hi with h | h
    · exact hAb i h
    · exact hBb i h
  have hnd2 := hnd
  rw [List.append_assoc, List.nodup_append] at hnd2
  obtain ⟨hndA, hndSB, hdisjA⟩ := hnd2
  have hepA : ep ∉ A := fun hc => hdisjA hc (List.mem_append.mpr (Or.inl hep_mem))
  have hrAvalid : validRef c (endRef .head A) := by
    rcases endRef_eq_or .head A with ⟨_, h2⟩ | ⟨x, hx, h2⟩
    · rw [h2]; trivial
    · rw [h2]; exact hAb x (mem_of_getLast_some hx)
  have hrAne_ep : endRef .head A ≠ .node ep := by
    rcases endRef_eq_or .head A with ⟨_, h2⟩ | ⟨x, hx, h2⟩
    · rw [h2]; intro h; exact NodeRef.noConfusion h
    · rw [h2]; intro h
      have hx2 := NodeRef.node.inj h
      subst hx2
      exact hepA (mem_of_getLast_some hx)
  by_cases hss : sl = 0
  · by_cases hse : el = (getPiece c ep).size
    · -- pure deletion of whole pieces
      rw [delete_slow_eq_del c offset dlen sp sl ep el hss hse]
      set C3 := (
        { c with
          pendingChanges := c.pendingChanges ++
            [⟨span_mk c (some sp) (some ep), ⟨none, none, 0⟩, offset⟩] } :
          PieceChain)
      have hC3p : C3.pieces = c.pieces ++ [] := (List.append_nil c.pieces).symm
      have hC3b : C3.blocks = c.blocks := rfl
      have hC3n : C3.headNext = c.headNext := rfl
      have hC3v : C3.headPrev = c.headPrev := rfl
      have hmk1 : span_mk c (some sp) (some ep) =
          ⟨some sp, some ep, spanLenWalk c ep sp c.pieces.length⟩ := rfl
      rw [hmk1]
      have holen : spanLenWalk c ep sp c.pieces.length ≠ 0 := by
        have h := spanLenWalk_lower c ep sp c.pieces.length
        omega
      rw [span_swap_del_eq C3 sp ep (spanLenWalk c ep sp c.pieces.length) holen]
      have hprev3 : getPrevOf C3 (.node sp) = endRef .head A := by
        rw [getPrevOf_grow hC3p hC3v (.node sp) hspb]
        exact hbefore
      have hnextep : getNextOf C3 (.node ep) = startRef B .head := by
        rw [getNextOf_grow hC3p hC3n (.node ep) hepb]
        exact hafter
      rw [hprev3, hnextep]
      have hrAvalid3 : validRef C3 (endRef .head A) := validRef_grow hC3p hrAvalid
      have hnext1 : getNextOf (setNextOf C3 (endRef .head A) (startRef B .head))
          (.node ep) = startRef B .head := by
        rw [getNextOf_setNextOf C3 (endRef .head A) (startRef B .head)
          hrAvalid3 (.node ep), if_neg (fun h => hrAne_ep h.symm)]
        exact hnextep
      have hprev1 : getPrevOf (setNextOf C3 (endRef .head A) (startRef B .head))
          (.node sp) = endRef .head A := by
        rw [getPrevOf_setNextOf]
        exact hprev3
      rw [hnext1, hprev1]
      have hAnC3 : nextPath C3 .head A (.node sp) = true := by
        rw [nextPath_grow hC3p hC3n A .head (.node sp) hAb trivial]
        exact hAn0
      have hApC3 : prevPath C3 .head A (.node sp) = true := by
        rw [prevPath_grow hC3p hC3v A .head (.node sp) hAb hspb]
        exact hAp0
      have hndN : (A ++ [] ++ B).Nodup := by
        rw [List.append_nil]
        exact hABnd
      have hbwN : ∀ i ∈ A ++ [] ++ B, i < C3.pieces.length := by
        intro i hi
        rw [List.append_nil] at hi
        show i < c.pieces.length
        exact hABb i hi
      obtain ⟨hrepf, hcont⟩ :=
        splice_state_spec c C3 _ A B [] []
          (endRef .head A) (startRef B .head) (startRef B .head)
          (endRef .head A) (.node sp) (.node sp)
          (C3.size - spanLenWalk c ep sp c.pieces.length)
          rfl rfl rfl rfl rfl
          hC3p hC3b hC3n hC3v hndN hbwN hAnC3 hApC3
          (by
            intro b0 B2 hBe
            rw [nextPath_grow hC3p hC3n B2 (.node b0) .head
              (fun i hi => hBb i (by rw [hBe]; simp [hi]))
              (hBb b0 (by rw [hBe]; simp))]
            exact hBn' b0 B2 hBe)
          (by
            intro b0 B2 hBe
            rw [prevPath_grow hC3p hC3v B2 (.node b0) .head
              (fun i hi => hBb i (by rw [hBe]; simp [hi])) trivial]
            exact hBp' b0 B2 hBe)
          (by
            intro n0 N2 hh
            exact absurd hh (by simp))
          hAb hBb
      refine ⟨A ++ [] ++ B, hrepf, ?_⟩
      rw [hcont]
      have hpblen : (pieceBytes c ep).length ≤ (getPiece c ep).size := by
        simp [pieceBytes]
      have hdropnil : (pieceBytes c ep).drop el = [] := by
        refine List.drop_eq_nil_of_le ?_
        rw [hse]
        exact hpblen
      rw [hdropnil, hss]
      simp
    · -- only the end splits (sl = 0)
      rw [delete_slow_eq_end c offset dlen sp sl ep el hss hse]
      set p1 := (
        { blk := (getPiece c ep).blk, off := (getPiece c ep).off + el,
          size := (getPiece c ep).size - el,
          prev := (getPiece c sp).prev, next := (getPiece c ep).next } : Piece)
      set c2 := ({ c with pieces := c.pieces ++ [p1] } : PieceChain)
      set C3 := (
        { c with
          pieces := c.pieces ++ [p1],
          pendingChanges := c.pendingChanges ++
            [⟨span_mk c2 (some sp) (some ep),
              span_mk c2 (some c.pieces.length) (some c.pieces.length),
              offset⟩] } : PieceChain)
      have hC3p : C3.pieces = c.pieces ++ [p1] := rfl
      have hC3b : C3.blocks = c.blocks := rfl
      have hC3n : C3.headNext = c.headNext := rfl
      have hC3v : C3.headPrev = c.headPrev := rfl
      have hc2p : c2.pieces = c.pieces ++ [p1] := rfl
      have hgp1 : getPiece C3 c.pieces.length = p1 := by
        show C3.pieces.getD _ default = p1
        rw [hC3p]
        exact getD_append_len0 c.pieces p1 default
      have hg2p1 : getPiece c2 c.pieces.length = p1 := by
        show c2.pieces.getD _ default = p1
        rw [hc2p]
        exact getD_append_len0 c.pieces p1 default
      have hmk1 : span_mk c2 (some sp) (some ep) =
          ⟨some sp, some ep, spanLenWalk c2 ep sp c2.pieces.length⟩ := rfl
      have hmk2 : span_mk c2 (some c.pieces.length) (some c.pieces.length) =
          ⟨some c.pieces.length, some c.pieces.length,
            spanLenWalk c2 c.pieces.length c.pieces.length c2.pieces.length⟩ := rfl
      rw [hmk1, hmk2]
      have holen : spanLenWalk c2 ep sp c2.pieces.length ≠ 0 := by
        have h := spanLenWalk_lower c2 ep sp c2.pieces.length
        rw [getPiece_grow hc2p hspb] at h
        omega
      have hrlen : spanLenWalk c2 c.pieces.length c.pieces.length
          c2.pieces.length ≠ 0 := by
        rw [spanLenWalk_self, hg2p1]
        have hp1s : p1.size = (getPiece c ep).size - el := rfl
        omega
      rw [span_swap_mixed_eq C3 sp ep c.pieces.length c.pieces.length
        (spanLenWalk c2 ep sp c2.pieces.length)
        (spanLenWalk c2 c.pieces.length c.pieces.length c2.pieces.length)
        holen hrlen]
      have hprev3 : getPrevOf C3 (.node sp) = endRef .head A := by
        rw [getPrevOf_grow hC3p hC3v (.node sp) hspb]
        exact hbefore
      rw [hprev3]
      have hrAvalid3 : validRef C3 (endRef .head A) := validRef_grow hC3p hrAvalid
      have hnext1 : getNextOf (setNextOf C3 (endRef .head A) (.node c.pieces.length))
          (.node ep) = startRef B .head := by
        rw [getNextOf_setNextOf C3 (endRef .head A) (.node c.pieces.length)
          hrAvalid3 (.node ep), if_neg (fun h => hrAne_ep h.symm),
          getNextOf_grow hC3p hC3n (.node ep) hepb]
        exact hafter
      rw [hnext1]
      have hAnC3 : nextPath C3 .head A (.node sp) = true := by
        rw [nextPath_grow hC3p hC3n A .head (.node sp) hAb trivial]
        exact hAn0
      have hApC3 : prevPath C3 .head A (.node sp) = true := by
        rw [prevPath_grow hC3p hC3v A .head (.node sp) hAb hspb]
        exact hAp0
      have hndN : (A ++ [c.pieces.length] ++ B).Nodup := by
        refine nodup_splice_fresh A B _ c.pieces.length hABnd hABb ?_ ?_
        · simp
        · intro n hn
          simp at hn
          omega
      have hbwN : ∀ i ∈ A ++ [c.pieces.length] ++ B, i < C3.pieces.length := by
        intro i hi
        have hlen : C3.pieces.length = c.pieces.length + 1 := by
          rw [hC3p, List.length_append]
          rfl
        rw [hlen]
        rw [List.append_assoc, List.mem_append, List.mem_append] at hi
        rcases hi with h | h | h
        · exact Nat.lt_of_lt_of_le (hAb i h) (by omega)
        · simp at h
          omega
        · exact Nat.lt_of_lt_of_le (hBb i h) (by omega)
      have hNfact : ∀ n0 N2, [c.pieces.length] = n0 :: N2 →
          getPrevOf C3 (.node n0) = endRef .head A ∧
          nextPath C3 (.node n0) N2 (startRef B .head) = true ∧
          prevLinks C3 n0 N2 := by
        intro n0 N2 hh
        obtain ⟨hh1, hh2⟩ := List.cons.inj hh
        subst hh1
        subst hh2
        refine ⟨?_, ?_, trivial⟩
        · show (getPiece C3 c.pieces.length).prev = _
          rw [hgp1]
          exact hbefore
        · show decide (getNextOf C3 (.node c.pieces.length) = startRef B .head) = true
          rw [decide_eq_true_iff]
          show (getPiece C3 c.pieces.length).next = _
          rw [hgp1]
          exact hafter
      obtain ⟨hrepf, hcont⟩ :=
        splice_state_spec c C3 _ A B [c.pieces.length] [p1]
          (endRef .head A) (startRef B .head) (.node c.pieces.length)
          (.node c.pieces.length) (.node sp) (.node sp)
          (C3.size - spanLenWalk c2 ep sp c2.pieces.length +
            spanLenWalk c2 c.pieces.length c.pieces.length c2.pieces.length)
          rfl rfl rfl (endRef_of_getLast _ (by simp)).symm rfl
          hC3p hC3b hC3n hC3v hndN hbwN hAnC3 hApC3
          (by
            intro b0 B2 hBe
            rw [nextPath_grow hC3p hC3n B2 (.node b0) .head
              (fun i hi => hBb i (by rw [hBe]; simp [hi]))
              (hBb b0 (by rw [hBe]; simp))]
            exact hBn' b0 B2 hBe)
          (by
            intro b0 B2 hBe
            rw [prevPath_grow hC3p hC3v B2 (.node b0) .head
              (fun i hi => hBb i (by rw [hBe]; simp [hi])) trivial]
            exact hBp' b0 B2 hBe)
          hNfact hAb hBb
      refine ⟨A ++ [c.pieces.length] ++ B, hrepf, ?_⟩
      rw [hcont]
      have hpb1 : pieceBytes C3 c.pieces.length = (pieceBytes c ep).drop el :=
        pieceBytes_drop_shape hC3b (by rw [hgp1]) (by rw [hgp1]) (by rw [hgp1])
      rw [hss]
      simp only [List.map_cons, List.map_nil, List.flatten_cons, List.flatten_nil,
        List.append_nil, hpb1, List.take_zero, List.append_assoc, List.nil_append]
  · by_cases hse : el = (getPiece c ep).size
    · -- only the start splits (el = size of ep)
      rw [delete_slow_eq_start c offset dlen sp sl ep el hss hse]
      set p1 := (
        { blk := (getPiece c sp).blk, off := (getPiece c sp).off,
          size := sl, prev := (getPiece c sp).prev,
          next := (getPiece c ep).next } : Piece)
      set c2 := ({ c with pieces := c.pieces ++ [p1] } : PieceChain)
      set C3 := (
        { c with
          pieces := c.pieces ++ [p1],
          pendingChanges := c.pendingChanges ++
            [⟨span_mk c2 (some sp) (some ep),
              span_mk c2 (some c.pieces.length) (some c.pieces.length),
              offset⟩] } : PieceChain)
      have hC3p : C3.pieces = c.pieces ++ [p1] := rfl
      have hC3b : C3.blocks = c.blocks := rfl
      have hC3n : C3.headNext = c.headNext := rfl
      have hC3v : C3.headPrev = c.headPrev := rfl
      have hc2p : c2.pieces = c.pieces ++ [p1] := rfl
      have hgp1 : getPiece C3 c.pieces.length = p1 := by
        show C3.pieces.getD _ default = p1
        rw [hC3p]
        exact getD_append_len0 c.pieces p1 default
      have hg2p1 : getPiece c2 c.pieces.length = p1 := by
        show c2.pieces.getD _ default = p1
        rw [hc2p]
        exact getD_append_len0 c.pieces p1 default
      have hmk1 : span_mk c2 (some sp) (some ep) =
          ⟨some sp, some ep, spanLenWalk c2 ep sp c2.pieces.length⟩ := rfl
      have hmk2 : span_mk c2 (some c.pieces.length) (some c.pieces.length) =
          ⟨some c.pieces.length, some c.pieces.length,
            spanLenWalk c2 c.pieces.length c.pieces.length c2.pieces.length⟩ := rfl
      rw [hmk1, hmk2]
      have holen : spanLenWalk c2 ep sp c2.pieces.length ≠ 0 := by
        have h := spanLenWalk_lower c2 ep sp c2.pieces.length
        rw [getPiece_grow hc2p hspb] at h
        omega
      have hrlen : spanLenWalk c2 c.pieces.length c.pieces.length
          c2.pieces.length ≠ 0 := by
        rw [spanLenWalk_self, hg2p1]
        have hp1s : p1.size = sl := rfl
        omega
      rw [span_swap_mixed_eq C3 sp ep c.pieces.length c.pieces.length
        (spanLenWalk c2 ep sp c2.pieces.length)
        (spanLenWalk c2 c.pieces.length c.pieces.length c2.pieces.length)
        holen hrlen]
      have hprev3 : getPrevOf C3 (.node sp) = endRef .head A := by
        rw [getPrevOf_grow hC3p hC3v (.node sp) hspb]
        exact hbefore
      rw [hprev3]
      have hrAvalid3 : validRef C3 (endRef .head A) := validRef_grow hC3p hrAvalid
      have hnext1 : getNextOf (setNextOf C3 (endRef .head A) (.node c.pieces.length))
          (.node ep) = startRef B .head := by
        rw [getNextOf_setNextOf C3 (endRef .head A) (.node c.pieces.length)
          hrAvalid3 (.node ep), if_neg (fun h => hrAne_ep h.symm),
          getNextOf_grow hC3p hC3n (.node ep) hepb]
        exact hafter
      rw [hnext1]
      have hAnC3 : nextPath C3 .head A (.node sp) = true := by
        rw [nextPath_grow hC3p hC3n A .head (.node sp) hAb trivial]
        exact hAn0
      have hApC3 : prevPath C3 .head A (.node sp) = true := by
        rw [prevPath_grow hC3p hC3v A .head (.node sp) hAb hspb]
        exact hAp0
      have hndN : (A ++ [c.pieces.length] ++ B).Nodup := by
        refine nodup_splice_fresh A B _ c.pieces.length hABnd hABb ?_ ?_
        · simp
        · intro n hn
          simp at hn
          omega
      have hbwN : ∀ i ∈ A ++ [c.pieces.length] ++ B, i < C3.pieces.length := by
        intro i hi
        have hlen : C3.pieces.length = c.pieces.length + 1 := by
          rw [hC3p, List.length_append]
          rfl
        rw [hlen]
        rw [List.append_assoc, List.mem_append, List.mem_append] at hi
        rcases hi with h | h | h
        · exact Nat.lt_of_lt_of_le (hAb i h) (by omega)
        · simp at h
          omega
        · exact Nat.lt_of_lt_of_le (hBb i h) (by omega)
      have hNfact : ∀ n0 N2, [c.pieces.length] = n0 :: N2 →
          getPrevOf C3 (.node n0) = endRef .head A ∧
          nextPath C3 (.node n0) N2 (startRef B .head) = true ∧
          prevLinks C3 n0 N2 := by
        intro n0 N2 hh
        obtain ⟨hh1, hh2⟩ := List.cons.inj hh
        subst hh1
        subst hh2
        refine ⟨?_, ?_, trivial⟩
        · show (getPiece C3 c.pieces.length).prev = _
          rw [hgp1]
          exact hbefore
        · show decide (getNextOf C3 (.node c.pieces.length) = startRef B .head) = true
          rw [decide_eq_true_iff]
          show (getPiece C3 c.pieces.length).next = _
          rw [hgp1]
          exact hafter
      obtain ⟨hrepf, hcont⟩ :=
        splice_state_spec c C3 _ A B [c.pieces.length] [p1]
          (endRef .head A) (startRef B .head) (.node c.pieces.length)
          (.node c.pieces.length) (.node sp) (.node sp)
          (C3.size - spanLenWalk c2 ep sp c2.pieces.length +
            spanLenWalk c2 c.pieces.length c.pieces.length c2.pieces.length)
          rfl rfl rfl (endRef_of_getLast _ (by simp)).symm rfl
          hC3p hC3b hC3n hC3v hndN hbwN hAnC3 hApC3
          (by
            intro b0 B2 hBe
            rw [nextPath_grow hC3p hC3n B2 (.node b0) .head
              (fun i hi => hBb i (by rw [hBe]; simp [hi]))
              (hBb b0 (by rw [hBe]; simp))]
            exact hBn' b0 B2 hBe)
          (by
            intro b0 B2 hBe
            rw [prevPath_grow hC3p hC3v B2 (.node b0) .head
              (fun i hi => hBb i (by rw [hBe]; simp [hi])) trivial]
            exact hBp' b0 B2 hBe)
          hNfact hAb hBb
      refine ⟨A ++ [c.pieces.length] ++ B, hrepf, ?_⟩
      rw [hcont]
      have hpb1 : pieceBytes C3 c.pieces.length = (pieceBytes c sp).take sl :=
        pieceBytes_take_shape hC3b (by rw [hgp1]) (by rw [hgp1]) (by rw [hgp1])
          (Nat.le_of_lt hsl)
      have hpblen : (pieceBytes c ep).length ≤ (getPiece c ep).size := by
        simp [pieceBytes]
      have hdropnil : (pieceBytes c ep).drop el = [] := by
        refine List.drop_eq_nil_of_le ?_
        rw [hse]
        exact hpblen
      rw [hdropnil]
      simp only [List.map_cons, List.map_nil, List.flatten_cons, List.flatten_nil,
        List.append_nil, hpb1, List.append_assoc, List.nil_append]
    · -- both ends split
      rw [delete_slow_eq_both c offset dlen sp sl ep el hss hse]
      set p1 := (
        { blk := (getPiece c sp).blk, off := (getPiece c sp).off,
          size := sl, prev := (getPiece c sp).prev,
          next := .node (c.pieces.length + 1) } : Piece)
      set p2 := (
        { blk := (getPiece c ep).blk, off := (getPiece c ep).off + el,
          size := (getPiece c ep).size - el,
          prev := .node c.pieces.length, next := (getPiece c ep).next } : Piece)
      set c2 := ({ c with pieces := c.pieces ++ [p1, p2] } : PieceChain)
      set C3 := (
        { c with
          pieces := c.pieces ++ [p1, p2],
          pendingChanges := c.pendingChanges ++
            [⟨span_mk c2 (some sp) (some ep),
              span_mk c2 (some c.pieces.length) (some (c.pieces.length + 1)),
              offset⟩] } : PieceChain)
      have hC3p : C3.pieces = c.pieces ++ [p1, p2] := rfl
      have hC3b : C3.blocks = c.blocks := rfl
      have hC3n : C3.headNext = c.headNext := rfl
      have hC3v : C3.headPrev = c.headPrev := rfl
      have hc2p : c2.pieces = c.pieces ++ [p1, p2] := rfl
      have hgp1 : getPiece C3 c.pieces.length = p1 := by
        show C3.pieces.getD _ default = p1
        rw [hC3p]
        exact getD_append2_len0 c.pieces p1 p2 default
      have hgp2 : getPiece C3 (c.pieces.length + 1) = p2 := by
        show C3.pieces.getD _ default = p2
        rw [hC3p]
        exact getD_append2_len1 c.pieces p1 p2 default
      have hg2p1 : getPiece c2 c.pieces.length = p1 := by
        show c2.pieces.getD _ default = p1
        rw [hc2p]
        exact getD_append2_len0 c.pieces p1 p2 default
      have hmk1 : span_mk c2 (some sp) (some ep) =
          ⟨some sp, some ep, spanLenWalk c2 ep sp c2.pieces.length⟩ := rfl
      have hmk2 : span_mk c2 (some c.pieces.length) (some (c.pieces.length + 1)) =
          ⟨some c.pieces.length, some (c.pieces.length + 1),
            spanLenWalk c2 (c.pieces.length + 1) c.pieces.length c2.pieces.length⟩ := rfl
      rw [hmk1, hmk2]
      have holen : spanLenWalk c2 ep sp c2.pieces.length ≠ 0 := by
        have h := spanLenWalk_lower c2 ep sp c2.pieces.length
        rw [getPiece_grow hc2p hspb] at h
        omega
      have hrlen : spanLenWalk c2 (c.pieces.length + 1) c.pieces.length
          c2.pieces.length ≠ 0 := by
        have h := spanLenWalk_lower c2 (c.pieces.length + 1) c.pieces.length
          c2.pieces.length
        rw [hg2p1] at h
        have hp1s : p1.size = sl := rfl
        omega
      rw [span_swap_mixed_eq C3 sp ep c.pieces.length (c.pieces.length + 1)
        (spanLenWalk c2 ep sp c2.pieces.length)
        (spanLenWalk c2 (c.pieces.length + 1) c.pieces.length c2.pieces.length)
        holen hrlen]
      have hprev3 : getPrevOf C3 (.node sp) = endRef .head A := by
        rw [getPrevOf_grow hC3p hC3v (.node sp) hspb]
        exact hbefore
      rw [hprev3]
      have hrAvalid3 : validRef C3 (endRef .head A) := validRef_grow hC3p hrAvalid
      have hnext1 : getNextOf (setNextOf C3 (endRef .head A) (.node c.pieces.length))
          (.node ep) = startRef B .head := by
        rw [getNextOf_setNextOf C3 (endRef .head A) (.node c.pieces.length)
          hrAvalid3 (.node ep), if_neg (fun h => hrAne_ep h.symm),
          getNextOf_grow hC3p hC3n (.node ep) hepb]
        exact hafter
      rw [hnext1]
      have hAnC3 : nextPath C3 .head A (.node sp) = true := by
        rw [nextPath_grow hC3p hC3n A .head (.node sp) hAb trivial]
        exact hAn0
      have hApC3 : prevPath C3 .head A (.node sp) = true := by
        rw [prevPath_grow hC3p hC3v A .head (.node sp) hAb hspb]
        exact hAp0
      have hndN : (A ++ [c.pieces.length, c.pieces.length + 1] ++ B).Nodup := by
        refine nodup_splice_fresh A B _ c.pieces.length hABnd hABb ?_ ?_
        · simp
        · intro n hn
          simp at hn
          rcases hn with h | h <;> omega
      have hbwN : ∀ i ∈ A ++ [c.pieces.length, c.pieces.length + 1] ++ B,
          i < C3.pieces.length := by
        intro i hi
        have hlen : C3.pieces.length = c.pieces.length + 2 := by
          rw [hC3p, List.length_append]
          rfl
        rw [hlen]
        rw [List.append_assoc, List.mem_append, List.mem_append] at hi
        rcases hi with h | h | h
        · exact Nat.lt_of_lt_of_le (hAb i h) (by omega)
        · simp at h
          rcases h with h | h <;> omega
        · exact Nat.lt_of_lt_of_le (hBb i h) (by omega)
      have hNfact : ∀ n0 N2, [c.pieces.length, c.pieces.length + 1] = n0 :: N2 →
          getPrevOf C3 (.node n0) = endRef .head A ∧
          nextPath C3 (.node n0) N2 (startRef B .head) = true ∧
          prevLinks C3 n0 N2 := by
        intro n0 N2 hh
        obtain ⟨hh1, hh2⟩ := List.cons.inj hh
        subst hh1
        subst hh2
        refine ⟨?_, ?_, ?_⟩
        · show (getPiece C3 c.pieces.length).prev = _
          rw [hgp1]
          exact hbefore
        · show (decide (getNextOf C3 (.node c.pieces.length) =
              .node (c.pieces.length + 1)) &&
              nextPath C3 (.node (c.pieces.length + 1)) [] (startRef B .head)) = true
          rw [Bool.and_eq_true, decide_eq_true_iff]
          refine ⟨?_, ?_⟩
          · show (getPiece C3 c.pieces.length).next = _
            rw [hgp1]
          · show decide (getNextOf C3 (.node (c.pieces.length + 1)) =
              startRef B .head) = true
            rw [decide_eq_true_iff]
            show (getPiece C3 (c.pieces.length + 1)).next = _
            rw [hgp2]
            exact hafter
        · refine ⟨?_, trivial⟩
          show (getPiece C3 (c.pieces.length + 1)).prev = .node c.pieces.length
          rw [hgp2]
      obtain ⟨hrepf, hcont⟩ :=
        splice_state_spec c C3 _ A B [c.pieces.length, c.pieces.length + 1]
          [p1, p2] (endRef .head A) (startRef B .head) (.node c.pieces.length)
          (.node (c.pieces.length + 1)) (.node sp) (.node sp)
          (C3.size - spanLenWalk c2 ep sp c2.pieces.length +
            spanLenWalk c2 (c.pieces.length + 1) c.pieces.length c2.pieces.length)
          rfl rfl rfl (endRef_of_getLast _ (by simp)).symm rfl
          hC3p hC3b hC3n hC3v hndN hbwN hAnC3 hApC3
          (by
            intro b0 B2 hBe
            rw [nextPath_grow hC3p hC3n B2 (.node b0) .head
              (fun i hi => hBb i (by rw [hBe]; simp [hi]))
              (hBb b0 (by rw [hBe]; simp))]
            exact hBn' b0 B2 hBe)
          (by
            intro b0 B2 hBe
            rw [prevPath_grow hC3p hC3v B2 (.node b0) .head
              (fun i hi => hBb i (by rw [hBe]; simp [hi])) trivial]
            exact hBp' b0 B2 hBe)
          hNfact hAb hBb
      refine ⟨A ++ [c.pieces.length, c.pieces.length + 1] ++ B, hrepf, ?_⟩
      rw [hcont]
      have hpb1 : pieceBytes C3 c.pieces.length = (pieceBytes c sp).take sl :=
        pieceBytes_take_shape hC3b (by rw [hgp1]) (by rw [hgp1]) (by rw [hgp1])
          (Nat.le_of_lt hsl)
      have hpb2 : pieceBytes C3 (c.pieces.length + 1) = (pieceBytes c ep).drop el :=
        pieceBytes_drop_shape hC3b (by rw [hgp2]) (by rw [hgp2]) (by rw [hgp2])
      simp only [List.map_cons, List.map_nil, List.flatten_cons, List.flatten_nil,
        List.append_nil, hpb1, hpb2, List.append_assoc]

theorem getLast?_cons_ne {α : Type} (a : α) (l : List α) (h : l ≠ []) :
    (a :: l).getLast? = l.getLast? := by
  cases l with
  | nil => exact absurd rfl h
  | cons b t => exact List.getLast?_cons_cons

theorem getLast?_append_ne {α : Type} (l1 l2 : List α) (h : l2 ≠ []) :
    (l1 ++ l2).getLast? = l2.getLast? := by
  induction l1 with
  | nil => rfl
  | cons a t ih =>
    rw [List.cons_append, getLast?_cons_ne a (t ++ l2) ?_, ih]
    intro hc
    rcases List.append_eq_nil.mp hc with ⟨_, h2⟩
    exact h h2

theorem pieceBytes_length {c : PieceChain} {i : Nat}
    (h : (getPiece c i).off + (getPiece c i).size ≤
      (c.blocks.getD (getPiece c i).blk default).data.length) :
    (pieceBytes c i).length = (getPiece c i).size := by
  simp only [pieceBytes, List.length_take, List.length_drop]
  omega

theorem boundsOk_mem {c : PieceChain} {ids : List Nat} {i : Nat}
    (h : boundsOk c ids = true) (hi : i ∈ ids) :
    (getPiece c i).blk < c.blocks.length ∧
      (getPiece c i).off + (getPiece c i).size ≤
        (c.blocks.getD (getPiece c i).blk default).data.length := by
  unfold boundsOk at h
  rw [decide_eq_true_iff] at h
  exact h i hi

theorem flatten_map_length {c : PieceChain} {ids : List Nat}
    (hbounds : boundsOk c ids = true) :
    ((ids.map (pieceBytes c)).flatten).length = sumS c ids := by
  induction ids with
  | nil => rfl
  | cons i t ih =>
    rw [List.map_cons, List.flatten_cons, List.length_append, sumS_cons]
    have hb : boundsOk c t = true := by
      unfold boundsOk at hbounds ⊢
      rw [decide_eq_true_iff] at hbounds
      rw [decide_eq_true_iff]
      intro j hj
      exact hbounds j (by simp [hj])
    rw [ih hb, pieceBytes_length (boundsOk_mem hbounds (by simp)).2]

theorem contents_length {c : PieceChain} {ids : List Nat}
    (hrep : chainRep c ids = true) (hsize : c.size = sumS c ids)
    (hbounds : boundsOk c ids = true) :
    (contents c).length = c.size := by
  rw [contents_of_chainRep hrep, flatten_map_length hbounds, hsize]

/-- Pure list fact: splicing `dlen` bytes out of the middle of the used
region of a block, at position `off + sl` of a piece ending at the block's
end. -/
theorem take_drop_splice (bd : List Nat) (off size sl dlen : Nat)
    (hlen : bd.length = off + size) (hsl : sl ≤ size) (hdl : sl + dlen ≤ size) :
    ((bd.take (off + sl) ++ bd.drop (off + sl + dlen)).drop off).take (size - dlen) =
      ((bd.drop off).take size).take sl ++ ((bd.drop off).take size).drop (sl + dlen) := by
  have hlen1 : (bd.take (off + sl)).length = off + sl := by
    rw [List.length_take]
    omega
  rw [drop_append_le _ _ off (by omega), List.drop_take]
  have h2 : off + sl - off = sl := by omega
  rw [h2]
  have hlen2 : ((bd.drop off).take sl).length = sl := by
    rw [List.length_take, List.length_drop]
    omega
  have h3 : size - dlen = sl + (size - dlen - sl) := by omega
  rw [h3, take_append_exact _ _ sl (size - dlen - sl) hlen2]
  rw [List.take_take, Nat.min_eq_left hsl, List.drop_take, List.drop_drop]
  have h4 : size - (sl + dlen) = size - dlen - sl := by omega
  have h5 : sl + dlen + off = off + sl + dlen := by omega
  have h6 : off + (sl + dlen) = off + sl + dlen := by omega
  rw [h4, h6]

/-- Pure list fact: a slice lying strictly before the splice point is not
affected by the splice. -/
theorem slice_prefix_stable (bd : List Nat) (k dlen off size : Nat)
    (hk : off + size ≤ k) (hkb : k ≤ bd.length) :
    ((bd.take k ++ bd.drop (k + dlen)).drop off).take size =
      (bd.drop off).take size := by
  have hlen1 : (bd.take k).length = k := by
    rw [List.length_take]
    omega
  rw [drop_append_le _ _ off (by omega), List.drop_take]
  have hlen2 : ((bd.drop off).take (k - off)).length = k - off := by
    rw [List.length_take, List.length_drop]
    omega
  rw [take_append_le _ _ size (by omega), List.take_take,
    Nat.min_eq_left (by omega)]

/-- Updating one piece without touching its links keeps the chain shape. -/
theorem chainRep_set_piece {c c2 : PieceChain} {ids : List Nat}
    (i : Nat) (p' : Piece)
    (hp : c2.pieces = c.pieces.set i p')
    (hn : c2.headNext = c.headNext) (hv : c2.headPrev = c.headPrev)
    (hprev : p'.prev = (getPiece c i).prev)
    (hnext : p'.next = (getPiece c i).next)
    (h : chainRep c ids = true) : chainRep c2 ids = true := by
  obtain ⟨h1, h2, h3, h4⟩ := chainRep_parts h
  have hnexteq : ∀ r, getNextOf c2 r = getNextOf c r := by
    intro r
    cases r with
    | head => exact hn
    | node j =>
      show (c2.pieces.getD j default).next = (getPiece c j).next
      rw [hp]
      by_cases hj : i = j
      · subst hj
        by_cases hib : i < c.pieces.length
        · rw [getD_set_self _ _ _ _ hib]
          exact hnext
        · rw [set_oob _ _ _ (Nat.le_of_not_lt hib)]
          rfl
      · rw [getD_set_ne _ _ _ _ _ hj]
        rfl
  have hpreveq : ∀ r, getPrevOf c2 r = getPrevOf c r := by
    intro r
    cases r with
    | head => exact hv
    | node j =>
      show (c2.pieces.getD j default).prev = (getPiece c j).prev
      rw [hp]
      by_cases hj : i = j
      · subst hj
        by_cases hib : i < c.pieces.length
        · rw [getD_set_self _ _ _ _ hib]
          exact hprev
        · rw [set_oob _ _ _ (Nat.le_of_not_lt hib)]
          rfl
      · rw [getD_set_ne _ _ _ _ _ hj]
        rfl
  refine chainRep_mk ?_ ?_ h3 ?_
  · rw [nextPath_congr ids .head .head (hnexteq .head)
      (fun j _ => hnexteq (.node j))]
    exact h1
  · rw [prevPath_congr ids .head .head (hpreveq .head)
      (fun j _ => hpreveq (.node j))]
    exact h2
  · intro j hj
    rw [hp, List.length_set]
    exact h4 j hj

theorem cacheOk_parts {c : PieceChain} {ids : List Nat} {i : Nat}
    (h : cacheOk c ids = true) (hca : c.cache = some i) :
    i < c.pieces.length ∧ c.blocks ≠ [] ∧
    (getPiece c i).blk = c.blocks.length - 1 ∧
    (getPiece c i).off + (getPiece c i).size =
      (c.blocks.getD (c.blocks.length - 1) default).data.length ∧
    (∀ j ∈ ids, j ≠ i → (getPiece c j).blk = c.blocks.length - 1 →
      (getPiece c j).off + (getPiece c j).size + (getPiece c i).size ≤
        (c.blocks.getD (c.blocks.length - 1) default).data.length) ∧
    c.pendingChanges ≠ [] := by
  unfold cacheOk at h
  rw [hca] at h
  simp only [Bool.and_eq_true, decide_eq_true_iff] at h
  exact ⟨h.1.1.1.1.1, h.1.1.1.1.2, h.1.1.1.2, h.1.1.2, h.1.2, h.2⟩

theorem cache_delete_some_inv {c : PieceChain} {pid poff dlen : Nat}
    {x : PieceChain} (h : cache_delete c pid poff dlen = some x) :
    c.cache = some pid ∧ ∃ blk, c.blocks.getLast? = some blk ∧
      ¬ (getPiece c pid).size - poff < dlen ∧
      x = cache_delete_state c pid poff dlen blk := by
  have hcc : c.cache = some pid := by
    cases hca : c.cache with
    | none =>
      rw [cache_delete_eq_none_cache hca] at h
      exact Option.noConfusion h
    | some cid =>
      by_cases hcid : cid = pid
      · rw [hcid]
      · rw [cache_delete_eq_none_ne hca hcid] at h
        exact Option.noConfusion h
  have hblk : ∃ blk, c.blocks.getLast? = some blk := by
    cases hbl : c.blocks.getLast? with
    | none =>
      rw [cache_delete_eq_none_noblock hcc hbl] at h
      exact Option.noConfusion h
    | some blk => exact ⟨blk, rfl⟩
  obtain ⟨blk, hbl⟩ := hblk
  have hfits : ¬ (getPiece c pid).size - poff < dlen := by
    intro hbig
    rw [cache_delete_eq_none_toobig hcc hbl hbig] at h
    exact Option.noConfusion h
  rw [cache_delete_eq_some hcc hbl hfits] at h
  exact ⟨hcc, blk, hbl, hfits, (Option.some.inj h).symm⟩

/-- Contents after the in-place `cache_delete` fast path: the cached piece
keeps its first `sl` bytes and loses the next `dlen`; all other pieces are
untouched (they live before the splice point of the last block, by the cache
discipline). -/
theorem cache_delete_state_contents {c : PieceChain} {A B1 : List Nat}
    {sp sl dlen : Nat} {blk : Block}
    (hrep : chainRep c (A ++ sp :: B1) = true)
    (hcok : cacheOk c (A ++ sp :: B1) = true)
    (hca : c.cache = some sp)
    (hbl : c.blocks.getLast? = some blk)
    (hsl : sl ≤ (getPiece c sp).size)
    (hfits : ¬ (getPiece c sp).size - sl < dlen) :
    chainRep (cache_delete_state c sp sl dlen blk) (A ++ sp :: B1) = true ∧
    contents (cache_delete_state c sp sl dlen blk) =
      (A.map (pieceBytes c)).flatten ++ (pieceBytes c sp).take sl ++
        (pieceBytes c sp).drop (sl + dlen) ++ (B1.map (pieceBytes c)).flatten := by
  obtain ⟨hlt, hbne, hblki, hend, halias, _⟩ := cacheOk_parts hcok hca
  obtain ⟨_, _, hnd, _⟩ := chainRep_parts hrep
  have hndAB : A.Nodup ∧ (sp :: B1).Nodup ∧ A.Disjoint (sp :: B1) :=
    List.nodup_append.mp hnd
  have hspA : sp ∉ A := fun hc => hndAB.2.2 hc (by simp)
  have hspB1 : sp ∉ B1 := (List.nodup_cons.mp hndAB.2.1).1
  have hblkD : c.blocks.getD (c.blocks.length - 1) default = blk :=
    getLast?_eq_getD c.blocks blk hbl
  have hlen : blk.data.length = (getPiece c sp).off + (getPiece c sp).size := by
    rw [hblkD] at hend
    omega
  have hdl : sl + dlen ≤ (getPiece c sp).size := by omega
  have hk : blk.data.length - ((getPiece c sp).size - sl) =
      (getPiece c sp).off + sl := by omega
  have hblen : 0 < c.blocks.length := by
    cases hbc : c.blocks with
    | nil => exact absurd hbc hbne
    | cons x t => simp [hbc]
  set cds := cache_delete_state c sp sl dlen blk with hcds
  have hcdsp : cds.pieces = c.pieces.set sp
      { getPiece c sp with size := (getPiece c sp).size - dlen } := rfl
  have hcdsb : cds.blocks = c.blocks.set (c.blocks.length - 1)
      { blk with data := blk.data.take (blk.data.length - ((getPiece c sp).size - sl)) ++
          blk.data.drop (blk.data.length - ((getPiece c sp).size - sl) + dlen) } := rfl
  have hrep2 : chainRep cds (A ++ sp :: B1) = true :=
    chainRep_set_piece sp _ hcdsp rfl rfl rfl rfl hrep
  refine ⟨hrep2, ?_⟩
  have hgsp : getPiece cds sp =
      { getPiece c sp with size := (getPiece c sp).size - dlen } := by
    show cds.pieces.getD sp default = _
    rw [hcdsp]
    exact getD_set_self _ _ _ _ hlt
  have hgne : ∀ j, j ≠ sp → getPiece cds j = getPiece c j := by
    intro j hj
    show cds.pieces.getD j default = _
    rw [hcdsp]
    exact getD_set_ne _ _ _ _ _ (fun h => hj h.symm)
  have hbquot : cds.blocks.getD (c.blocks.length - 1) default =
      { blk with data := blk.data.take (blk.data.length - ((getPiece c sp).size - sl)) ++
          blk.data.drop (blk.data.length - ((getPiece c sp).size - sl) + dlen) } := by
    rw [hcdsb]
    exact getD_set_self _ _ _ _ (by omega)
  have hbother : ∀ b, b ≠ c.blocks.length - 1 →
      cds.blocks.getD b default = c.blocks.getD b default := by
    intro b hb
    rw [hcdsb]
    exact getD_set_ne _ _ _ _ _ (fun h => hb h.symm)
  -- bytes of the cached piece
  have hpbsp : pieceBytes cds sp =
      (pieceBytes c sp).take sl ++ (pieceBytes c sp).drop (sl + dlen) := by
    show ((cds.blocks.getD (getPiece cds sp).blk default).data.drop
      (getPiece cds sp).off).take (getPiece cds sp).size = _
    rw [hgsp]
    show ((cds.blocks.getD (getPiece c sp).blk default).data.drop
      (getPiece c sp).off).take ((getPiece c sp).size - dlen) = _
    rw [hblki, hbquot]
    show ((blk.data.take (blk.data.length - ((getPiece c sp).size - sl)) ++
      blk.data.drop (blk.data.length - ((getPiece c sp).size - sl) + dlen)).drop
        (getPiece c sp).off).take ((getPiece c sp).size - dlen) = _
    rw [hk]
    have hres := take_drop_splice blk.data (getPiece c sp).off (getPiece c sp).size
      sl dlen hlen hsl hdl
    have hpb : pieceBytes c sp = ((blk.data.drop (getPiece c sp).off).take
        (getPiece c sp).size) := by
      show ((c.blocks.getD (getPiece c sp).blk default).data.drop
        (getPiece c sp).off).take (getPiece c sp).size = _
      rw [hblki, hblkD]
    rw [hpb]
    have harg : (getPiece c sp).off + sl + dlen =
        (getPiece c sp).off + (sl + dlen) := by omega
    rw [harg] at hres ⊢
    exact hres
  -- bytes of the other pieces
  have hpbne : ∀ j ∈ A ++ sp :: B1, j ≠ sp → pieceBytes cds j = pieceBytes c j := by
    intro j hmem hj
    show ((cds.blocks.getD (getPiece cds j).blk default).data.drop
      (getPiece cds j).off).take (getPiece cds j).size = _
    rw [hgne j hj]
    by_cases hbj : (getPiece c j).blk = c.blocks.length - 1
    · rw [hbj, hbquot]
      have hal := halias j hmem hj hbj
      rw [hblkD] at hal
      have hres := slice_prefix_stable blk.data
        (blk.data.length - ((getPiece c sp).size - sl)) dlen
        (getPiece c j).off (getPiece c j).size (by omega) (by omega)
      rw [hres]
      show _ = ((c.blocks.getD (getPiece c j).blk default).data.drop
        (getPiece c j).off).take (getPiece c j).size
      rw [hbj, hblkD]
    · rw [hbother _ hbj]
      rfl
  rw [contents_of_chainRep hrep2, List.map_append, List.map_cons,
    List.flatten_append, List.flatten_cons]
  have hA : A.map (pieceBytes cds) = A.map (pieceBytes c) :=
    List.map_congr_left (fun j hj =>
      hpbne j (by simp [hj]) (fun h => hspA (h ▸ hj)))
  have hB : B1.map (pieceBytes cds) = B1.map (pieceBytes c) :=
    List.map_congr_left (fun j hj =>
      hpbne j (by simp [hj]) (fun h => hspB1 (h ▸ hj)))
  rw [hA, hB, hpbsp]
  simp [List.append_assoc]

theorem dropLast_append_of_getLast? {α : Type} {l : List α} {x : α}
    (h : l.getLast? = some x) : l.dropLast ++ [x] = l := by
  have hne : l ≠ [] := by
    intro h0
    rw [h0] at h
    simp at h
  have h2 := List.dropLast_append_getLast hne
  have h3 : l.getLast hne = x := by
    have h4 := List.getLast?_eq_getLast l hne
    rw [h] at h4
    exact ((Option.some.injEq _ _).mp h4).symm
  rw [h3] at h2
  exact h2

/-- Locating a deletion range `[offset, offset + dlen)` with `piece_find` and
`delete_find_end`: the chain splits as `A ++ SS ++ B` where `SS` runs from the
piece containing `offset` to the end piece (clamped to the last piece when the
range overshoots the file). -/
theorem delete_range_decomp {c : PieceChain} {ids : List Nat} {offset dlen : Nat}
    (hrep : chainRep c ids = true) (hsize : c.size = sumS c ids)
    (hofs : offset < c.size) (hdl : dlen ≠ 0) :
    ∃ sp sl A SS B ep el,
      piece_find c offset = some (sp, sl) ∧
      delete_find_end c sp (offset + dlen) = (ep, el) ∧
      ids = A ++ SS ++ B ∧
      SS.head? = some sp ∧ SS.getLast? = some ep ∧
      sl < (getPiece c sp).size ∧ el ≤ (getPiece c ep).size ∧
      offset = sumS c A + sl ∧
      min (offset + dlen) c.size = sumS c (A ++ SS.dropLast) + el := by
  obtain ⟨sp, sl, A, B1, hfind, hids, h1, h2, hsleq⟩ :=
    piece_find_spec hrep hsize hofs
  cases hfind2 : piece_find c (offset + dlen) with
  | none =>
    have hle : c.size ≤ offset + dlen := by
      by_contra hlt
      push_neg at hlt
      obtain ⟨e, eo, A2, B2, hsome, _⟩ := piece_find_spec hrep hsize hlt
      rw [hfind2] at hsome
      exact Option.noConfusion hsome
    obtain ⟨_, hpp, _, _⟩ := chainRep_parts hrep
    have hHP : getPrevOf c .head = endRef .head ids :=
      prevPath_last_edge c ids .head .head hpp
    have hidsne : ids ≠ [] := by
      intro h0
      rw [h0] at hids
      simp at hids
    obtain ⟨lid, hlid⟩ : ∃ lid, ids.getLast? = some lid := by
      rcases endRef_eq_or .head ids with ⟨h0, _⟩ | ⟨x, hx, _⟩
      · exact absurd h0 hidsne
      · exact ⟨x, hx⟩
    have hHP2 : c.headPrev = .node lid := by
      have h5 := hHP
      rw [endRef_of_getLast _ hlid] at h5
      exact h5
    have hdfe : delete_find_end c sp (offset + dlen) = (lid, (getPiece c lid).size) := by
      unfold delete_find_end
      rw [hfind2, hHP2]
    have hql : (sp :: B1).getLast? = some lid := by
      rw [hids, getLast?_append_ne A (sp :: B1) (by simp)] at hlid
      exact hlid
    have hsplit : (sp :: B1).dropLast ++ [lid] = sp :: B1 :=
      dropLast_append_of_getLast? hql
    refine ⟨sp, sl, A, sp :: B1, [], lid, (getPiece c lid).size, hfind, hdfe,
      ?_, rfl, hql, by omega, Nat.le_refl _, by omega, ?_⟩
    · rw [List.append_nil]
      exact hids
    · have hmin : min (offset + dlen) c.size = c.size := by omega
      rw [hmin, hsize, hids, sumS_append, sumS_append]
      have hsum : sumS c (sp :: B1) =
          sumS c ((sp :: B1).dropLast) + (getPiece c lid).size := by
        conv_lhs => rw [← hsplit]
        rw [sumS_append, sumS_cons, sumS_nil]
        omega
      omega
  | some pr =>
    obtain ⟨e, eo⟩ := pr
    have hle2 : ¬ (offset + dlen > c.size) := by
      intro hgt
      unfold piece_find at hfind2
      rw [if_pos hgt] at hfind2
      exact Option.noConfusion hfind2
    have hgo : piece_find_go c (offset + dlen) ids 0 = some (e, eo) := by
      unfold piece_find at hfind2
      rw [if_neg hle2, chainIds_eq hrep] at hfind2
      exact hfind2
    obtain ⟨A2, B2, hids2, h1', h2', heo⟩ :=
      piece_find_go_some c (offset + dlen) ids 0 e eo (Nat.zero_le _) hgo
    simp only [Nat.zero_add] at h1' h2' heo
    have hdfe : delete_find_end c sp (offset + dlen) = (e, eo) := by
      unfold delete_find_end
      rw [hfind2]
    have hEq : A ++ sp :: B1 = A2 ++ e :: B2 := by rw [← hids, ← hids2]
    rcases List.append_eq_append_iff.mp hEq with ⟨a', ha1, ha2⟩ | ⟨c', hc1, hc2⟩
    · cases a' with
      | nil =>
        rw [List.append_nil] at ha1
        obtain ⟨hspe, hB⟩ := List.cons.inj ha2
        subst hspe
        rw [ha1] at h1' h2' heo
        refine ⟨sp, sl, A, [sp], B1, sp, eo, hfind, hdfe, ?_, rfl, rfl,
          by omega, by omega, by omega, ?_⟩
        · rw [hids]
          simp
        · have hmin : min (offset + dlen) c.size = offset + dlen := by omega
          rw [hmin]
          show offset + dlen = sumS c (A ++ []) + eo
          rw [List.append_nil]
          omega
      | cons s0 mid =>
        obtain ⟨hsp0, hB⟩ := List.cons.inj ha2
        subst hsp0
        subst hB
        rw [ha1] at h1' h2' heo
        refine ⟨sp, sl, A, sp :: (mid ++ [e]), B2, e, eo, hfind, hdfe, ?_, rfl,
          ?_, by omega, by omega, by omega, ?_⟩
        · rw [hids]
          simp
        · rw [getLast?_cons_ne _ _ (by simp), getLast?_append_ne mid [e] (by simp)]
          rfl
        · have hmin : min (offset + dlen) c.size = offset + dlen := by omega
          rw [hmin]
          have hdrop : (sp :: (mid ++ [e])).dropLast = sp :: mid := by
            rw [← List.cons_append, List.dropLast_concat]
          rw [hdrop]
          omega
    · cases c' with
      | nil =>
        rw [List.append_nil] at hc1
        obtain ⟨hspe, hB⟩ := List.cons.inj hc2
        have hspe2 : sp = e := hspe.symm
        subst hspe2
        have hB2 : B1 = B2 := hB.symm
        subst hB2
        rw [← hc1] at h1' h2' heo
        refine ⟨sp, sl, A, [sp], B1, sp, eo, hfind, hdfe, ?_, rfl, rfl,
          by omega, by omega, by omega, ?_⟩
        · rw [hids]
          simp
        · have hmin : min (offset + dlen) c.size = offset + dlen := by omega
          rw [hmin]
          show offset + dlen = sumS c (A ++ []) + eo
          rw [List.append_nil]
          omega
      | cons e0 mid2 =>
        exfalso
        obtain ⟨hee, hB2⟩ := List.cons.inj hc2
        subst hee
        have hsumA : sumS c A = sumS c A2 + (getPiece c e).size + sumS c mid2 := by
          rw [hc1, sumS_append, sumS_cons]
          omega
        omega

theorem chainRep_congr_eq {c c' : PieceChain} {ids : List Nat}
    (hp : c'.pieces = c.pieces) (hn : c'.headNext = c.headNext)
    (hv : c'.headPrev = c.headPrev) :
    chainRep c' ids = chainRep c ids := by
  cases hcv : chainRep c ids with
  | true => exact chainRep_congr hp hn hv hcv
  | false =>
    cases hcv2 : chainRep c' ids with
    | false => rfl
    | true =>
      have h2 := chainRep_congr hp.symm hn.symm hv.symm hcv2
      rw [hcv] at h2
      exact h2.symm

theorem sumS_congr {c c' : PieceChain} (hp : c'.pieces = c.pieces)
    (ids : List Nat) : sumS c' ids = sumS c ids := by
  unfold sumS
  congr 1
  exact List.map_congr_left fun i _ => by rw [getPiece_congr hp]

theorem boundsOk_congr {c c' : PieceChain} (hp : c'.pieces = c.pieces)
    (hb : c'.blocks = c.blocks) (ids : List Nat) :
    boundsOk c' ids = boundsOk c ids := by
  unfold boundsOk
  rw [decide_eq_decide]
  constructor <;> intro h i hi <;> have h2 := h i hi
  · rw [getPiece_congr hp, hb] at h2
    exact h2
  · rw [getPiece_congr hp, hb]
    exact h2

theorem cacheOk_congr_eq {c c' : PieceChain} (hq : c'.cache = c.cache)
    (hp : c'.pieces = c.pieces) (hb : c'.blocks = c.blocks)
    (hpc : c'.pendingChanges = c.pendingChanges) (ids : List Nat) :
    cacheOk c' ids = cacheOk c ids := by
  unfold cacheOk
  rw [hq]
  cases c.cache with
  | none => rfl
  | some i => simp only [getPiece_congr hp, hb, hpc, hp]

theorem chainRep_purge (c : PieceChain) (ids : List Nat) :
    chainRep (revision_purge c) ids = chainRep c ids := by
  rcases revision_purge_eq c with h | h
  · rw [h]
  · rw [h]
    exact chainRep_congr_eq rfl rfl rfl

theorem contents_purge (c : PieceChain) :
    contents (revision_purge c) = contents c := by
  rcases revision_purge_eq c with h | h
  · rw [h]
  · rw [h]
    exact contents_congr rfl rfl rfl

theorem sumS_purge (c : PieceChain) (ids : List Nat) :
    sumS (revision_purge c) ids = sumS c ids := by
  rcases revision_purge_eq c with h | h
  · rw [h]
  · rw [h]
    exact sumS_congr rfl ids

theorem getPiece_purge (c : PieceChain) (i : Nat) :
    getPiece (revision_purge c) i = getPiece c i :=
  getPiece_congr (revision_purge_pieces c) i

theorem boundsOk_purge (c : PieceChain) (ids : List Nat) :
    boundsOk (revision_purge c) ids = boundsOk c ids := by
  rcases revision_purge_eq c with h | h
  · rw [h]
  · rw [h]
    exact boundsOk_congr rfl rfl ids

theorem cacheOk_purge (c : PieceChain) (ids : List Nat) :
    cacheOk (revision_purge c) ids = cacheOk c ids := by
  rcases revision_purge_eq c with h | h
  · rw [h]
  · rw [h]
    exact cacheOk_congr_eq rfl rfl rfl rfl ids

theorem pieceBytes_purge (c : PieceChain) (i : Nat) :
    pieceBytes (revision_purge c) i = pieceBytes c i := by
  rcases revision_purge_eq c with h | h
  · rw [h]
  · rw [h]
    have hg : ∀ j, getPiece
        { c with revisions := c.revisions.take (c.currentRev + 1) } j =
          getPiece c j := getPiece_congr rfl
    exact pieceBytes_ext i rfl (by rw [hg]) (by rw [hg]) (by rw [hg])

theorem contents_dirty (c : PieceChain) :
    contents { c with dirty := true } = contents c :=
  contents_congr rfl rfl rfl

theorem boundsOk_of_subset {c : PieceChain} {ids l : List Nat}
    (hsub : ∀ i ∈ l, i ∈ ids) (h : boundsOk c ids = true) :
    boundsOk c l = true := by
  unfold boundsOk at h ⊢
  rw [decide_eq_true_iff] at h ⊢
  intro i hi
  exact h i (hsub i hi)

/-- `delete_slow_spec` with the hinge pointers derived from the chain shape:
only the head and last piece of the doomed segment `SS` need to be named. -/
theorem delete_slow_full (c : PieceChain) (A SS B : List Nat)
    (offset dlen sp sl ep el : Nat)
    (hrep : chainRep c (A ++ SS ++ B) = true)
    (hsp_head : SS.head? = some sp)
    (hep_last : SS.getLast? = some ep)
    (hsl : sl < (getPiece c sp).size)
    (hel : el ≤ (getPiece c ep).size) :
    ∃ ids2, chainRep (delete_slow c offset dlen sp sl ep el) ids2 = true ∧
      contents (delete_slow c offset dlen sp sl ep el) =
        (A.map (pieceBytes c)).flatten ++ (pieceBytes c sp).take sl ++
          (pieceBytes c ep).drop el ++ (B.map (pieceBytes c)).flatten := by
  obtain ⟨hnp, hpp, hnd, hbnd⟩ := chainRep_parts hrep
  obtain ⟨hnp1, _⟩ := (nextPath_append c (A ++ SS) .head .head B).mp hnp
  obtain ⟨hAn0, hSn0⟩ := (nextPath_append c A .head (startRef B .head) SS).mp hnp1
  obtain ⟨hpp1, _⟩ := (prevPath_append c (A ++ SS) .head .head B).mp hpp
  obtain ⟨hAp0, _⟩ := (prevPath_append c A .head (startRef B .head) SS).mp hpp1
  have hsp_start : startRef SS (startRef B .head) = .node sp :=
    startRef_of_head _ hsp_head
  have hbefore : getPrevOf c (.node sp) = endRef .head A := by
    have h := prevPath_last_edge c A .head _ hAp0
    rwa [hsp_start] at h
  have hafter : getNextOf c (.node ep) = startRef B .head := by
    cases hSSe : SS with
    | nil =>
      rw [hSSe] at hsp_head
      simp at hsp_head
    | cons s0 tail =>
      rw [hSSe] at hSn0 hsp_head hep_last
      have hs0 : s0 = sp := by simpa using hsp_head
      have hSn0' : nextPath c (.node s0) tail (startRef B .head) = true := hSn0
      have hlast := nextPath_last_edge c tail (.node s0) _ hSn0'
      have hend : endRef (.node s0) tail = .node ep := by
        rw [← endRef_cons .head s0 tail]
        exact endRef_of_getLast _ hep_last
      rw [hend] at hlast
      exact hlast
  exact delete_slow_spec c A SS B offset dlen sp sl ep el hrep hsp_head
    (mem_of_getLast_some hep_last) hbefore hafter hsl hel

/-- C3 (amended): with `len > 0` and an end offset `offset + len` below
`2 ^ 64` (so the `size_t` sum does not wrap), `delete(offset, len)` succeeds
for every `offset < size`, removing the bytes of
`[offset, min(offset+len, size))`; at the boundary `offset = size` it fails
and leaves the state unchanged. When `offset + len` overflows `size_t` the
end of the range is looked up at the wrapped offset instead of clamping
(see `delete_wrap_duplicates`). -/
theorem delete_in_range_clamps (c : PieceChain) (offset dlen : Nat)
    (hinv : ChainInv c) (hdl : dlen ≠ 0) (hnw : offset + dlen < 2 ^ 64) :
    (offset < c.size →
      (piece_chain_delete c offset dlen).1 = true ∧
      contents (piece_chain_delete c offset dlen).2 =
        (contents c).take offset ++
          (contents c).drop (min (offset + dlen) c.size)) ∧
    (offset = c.size → piece_chain_delete c offset dlen = (false, c)) := by
  obtain ⟨ids, hrep, hsize, hbounds, hcok, _, _⟩ := hinv
  constructor
  · intro hofs
    obtain ⟨sp, sl, A, SS, B, ep, el, hfind, hdfe, hids, hsp_head, hep_last,
      hsl, hel, hoff, hminE⟩ := delete_range_decomp hrep hsize hofs hdl
    subst hids
    set cp := revision_purge c with hcp
    have hrep_p : chainRep cp (A ++ SS ++ B) = true := by
      rw [hcp, chainRep_purge]
      exact hrep
    obtain ⟨SS', hSS⟩ : ∃ SS', SS = sp :: SS' := by
      cases hS : SS with
      | nil =>
        rw [hS] at hsp_head
        simp at hsp_head
      | cons a t =>
        rw [hS] at hsp_head
        have ha : a = sp := by simpa using hsp_head
        exact ⟨t, by rw [ha]⟩
    have hbA : boundsOk c A = true :=
      boundsOk_of_subset (fun i hi => by simp [hi]) hbounds
    have hflA : ((A.map (pieceBytes c)).flatten).length = sumS c A :=
      flatten_map_length hbA
    have hsp_mem : sp ∈ SS := mem_of_head_some hsp_head
    have hspbnd := boundsOk_mem hbounds
      (show sp ∈ A ++ SS ++ B by simp [hsp_mem])
    have hpbsp_len : (pieceBytes c sp).length = (getPiece c sp).size :=
      pieceBytes_length hspbnd.2
    have hepbnd := boundsOk_mem hbounds
      (show ep ∈ A ++ SS ++ B by simp [mem_of_getLast_some hep_last])
    have hpbep_len : (pieceBytes c ep).length = (getPiece c ep).size :=
      pieceBytes_length hepbnd.2
    have hidsA : A ++ SS ++ B = A ++ sp :: (SS' ++ B) := by
      rw [hSS]
      simp
    have hcontents1 : contents c = (A.map (pieceBytes c)).flatten ++
        (pieceBytes c sp ++ ((SS' ++ B).map (pieceBytes c)).flatten) := by
      rw [contents_of_chainRep hrep, hidsA, List.map_append, List.map_cons,
        List.flatten_append, List.flatten_cons]
    have htake : (contents c).take offset =
        (A.map (pieceBytes c)).flatten ++ (pieceBytes c sp).take sl := by
      rw [hcontents1, hoff, take_append_exact _ _ (sumS c A) sl hflA]
      congr 1
      exact take_append_le _ _ sl (by omega)
    have hdropSS : SS.dropLast ++ [ep] = SS := dropLast_append_of_getLast? hep_last
    have hidsE : A ++ SS ++ B = (A ++ SS.dropLast) ++ (ep :: B) := by
      conv_lhs => rw [← hdropSS]
      simp
    have hbAD : boundsOk c (A ++ SS.dropLast) = true := by
      refine boundsOk_of_subset ?_ hbounds
      intro i hi
      rw [List.mem_append] at hi
      rcases hi with h | h
      · simp [h]
      · have hm : i ∈ SS := (List.dropLast_sublist SS).subset h
        simp [hm]
    have hflAD : (((A ++ SS.dropLast).map (pieceBytes c)).flatten).length =
        sumS c (A ++ SS.dropLast) := flatten_map_length hbAD
    have hcontents2 : contents c =
        ((A ++ SS.dropLast).map (pieceBytes c)).flatten ++
          (pieceBytes c ep ++ (B.map (pieceBytes c)).flatten) := by
      rw [contents_of_chainRep hrep, hidsE, List.map_append, List.map_cons,
        List.flatten_append, List.flatten_cons]
    have hdrop : (contents c).drop (min (offset + dlen) c.size) =
        (pieceBytes c ep).drop el ++ (B.map (pieceBytes c)).flatten := by
      rw [hcontents2, hminE, drop_append_exact _ _ (sumS c (A ++ SS.dropLast)) el hflAD]
      exact drop_append_le _ _ el (by omega)
    have hpbc : ∀ j, pieceBytes cp j = pieceBytes c j := by
      intro j
      rw [hcp, pieceBytes_purge]
    have hgp_sp : getPiece cp sp = getPiece c sp := by
      rw [hcp]
      exact getPiece_purge c sp
    cases hcd : cache_delete cp sp sl dlen with
    | some cfast =>
      have heq : piece_chain_delete c offset dlen =
          (true, { cfast with dirty := true }) := by
        unfold piece_chain_delete
        rw [if_neg hdl, if_neg (by omega), hfind]
        dsimp only
        rw [← hcp, hcd]
      rw [heq]
      refine ⟨rfl, ?_⟩
      show contents { cfast with dirty := true } = _
      rw [contents_dirty]
      obtain ⟨hca', blk, hbl', hfits', hcf⟩ := cache_delete_some_inv hcd
      subst hcf
      have hrep_p2 : chainRep cp (A ++ sp :: (SS' ++ B)) = true := by
        rw [← hidsA]
        exact hrep_p
      have hcok_p : cacheOk cp (A ++ sp :: (SS' ++ B)) = true := by
        rw [hcp, cacheOk_purge, ← hidsA]
        exact hcok
      have hslp : sl ≤ (getPiece cp sp).size := by
        rw [hgp_sp]
        omega
      obtain ⟨hrepf, hcontf⟩ := cache_delete_state_contents hrep_p2 hcok_p
        hca' hbl' hslp hfits'
      have hfits_c : ¬ (getPiece c sp).size - sl < dlen := by
        rw [← hgp_sp]
        exact hfits'
      have hmin2 : min (offset + dlen) c.size = offset + dlen := by
        have hsum : c.size = sumS c A + sumS c SS + sumS c B := by
          rw [hsize, sumS_append, sumS_append]
        have hSSsum : sumS c SS = (getPiece c sp).size + sumS c SS' := by
          rw [hSS, sumS_cons]
        omega
      have hdrop2 : (contents c).drop (offset + dlen) =
          (pieceBytes c sp).drop (sl + dlen) ++
            ((SS' ++ B).map (pieceBytes c)).flatten := by
        rw [hcontents1, hoff]
        have harr : sumS c A + sl + dlen = sumS c A + (sl + dlen) := by omega
        rw [harr, drop_append_exact _ _ (sumS c A) (sl + dlen) hflA]
        exact drop_append_le _ _ (sl + dlen) (by omega)
      rw [hcontf, htake, hmin2, hdrop2]
      have hmapA : A.map (pieceBytes cp) = A.map (pieceBytes c) :=
        List.map_congr_left fun j _ => hpbc j
      have hmapR : (SS' ++ B).map (pieceBytes cp) = (SS' ++ B).map (pieceBytes c) :=
        List.map_congr_left fun j _ => hpbc j
      rw [hmapA, hmapR, hpbc sp]
      simp [List.append_assoc]
    | none =>
      have heq : piece_chain_delete c offset dlen =
          (true, { delete_slow cp offset dlen sp sl ep el with dirty := true }) := by
        unfold piece_chain_delete
        rw [if_neg hdl, if_neg (by omega), hfind]
        dsimp only
        rw [show (offset + dlen) % 2 ^ 64 = offset + dlen from
          Nat.mod_eq_of_lt hnw]
        rw [hdfe, ← hcp, hcd]
      rw [heq]
      refine ⟨rfl, ?_⟩
      show contents { delete_slow cp offset dlen sp sl ep el with dirty := true } = _
      rw [contents_dirty]
      have hslp : sl < (getPiece cp sp).size := by
        rw [hgp_sp]
        exact hsl
      have help : el ≤ (getPiece cp ep).size := by
        rw [hcp, getPiece_purge]
        exact hel
      obtain ⟨ids2, _, hconts⟩ := delete_slow_full cp A SS B offset dlen
        sp sl ep el hrep_p hsp_head hep_last hslp help
      rw [hconts, htake, hdrop]
      have hmapA : A.map (pieceBytes cp) = A.map (pieceBytes c) :=
        List.map_congr_left fun j _ => hpbc j
      have hmapB : B.map (pieceBytes cp) = B.map (pieceBytes c) :=
        List.map_congr_left fun j _ => hpbc j
      rw [hmapA, hmapB, hpbc sp, hpbc ep]
      simp [List.append_assoc]
  · intro hofs
    have hfind0 : piece_find c offset = none := by
      rw [hofs]
      exact piece_find_at_size hrep hsize
    unfold piece_chain_delete
    rw [if_neg hdl, if_neg (by omega), hfind0]

/-- Witness for `delete_in_range_clamps`: deleting 5 bytes at offset 0 of the
1-byte chain succeeds and clamps to the whole contents. -/
theorem delete_in_range_clamps_witness :
    (piece_chain_delete stOneByte 0 5).1 = true ∧
    contents (piece_chain_delete stOneByte 0 5).2 =
      (contents stOneByte).take 0 ++
        (contents stOneByte).drop (min (0 + 5) stOneByte.size) :=
  (delete_in_range_clamps stOneByte 0 5
    ⟨[0], by decide, by decide, by decide, by decide, by decide, by decide⟩
    (by decide) (by decide)).1 (by decide)

theorem set_getD_self_eq {α : Type} (l : List α) (i : Nat) (d : α)
    (h : i < l.length) : l.set i (l.getD i d) = l := by
  induction l generalizing i with
  | nil => rfl
  | cons a t ih =>
    cases i with
    | zero => rfl
    | succ j =>
      show a :: t.set j (t.getD j d) = a :: t
      rw [ih j (by simpa using h)]

theorem restore_block {α : Type} (X Y : List α) :
    (X ++ Y).take ((X ++ Y).length - Y.length) ++
      (X ++ Y).drop ((X ++ Y).length - Y.length + Y.length) = X := by
  have h1 : (X ++ Y).length - Y.length = X.length := by
    rw [List.length_append]
    omega
  rw [h1, List.take_left]
  have h2 : (X ++ Y).drop (X.length + Y.length) = [] :=
    List.drop_eq_nil_of_le (by rw [List.length_append])
  rw [h2, List.append_nil]

theorem slice_append_stable {α : Type} (X Y : List α) (off size : Nat)
    (h : off + size ≤ X.length) :
    ((X ++ Y).drop off).take size = (X.drop off).take size := by
  rw [drop_append_le _ _ off (by omega)]
  exact take_append_le _ _ size (by rw [List.length_drop]; omega)

theorem new_piece_bytes {α : Type} (X Y : List α) :
    ((X ++ Y).drop X.length).take Y.length = Y := by
  rw [List.drop_left]
  exact List.take_length Y

theorem insert_fast_none (c : PieceChain) (pieceOpt : Option Nat)
    (po : Nat) (d : List Nat) (hc : c.cache = none) :
    insert_fast c pieceOpt po d = none := by
  unfold insert_fast
  cases pieceOpt with
  | none => rfl
  | some p =>
    dsimp only
    rw [cache_insert_eq_none_cache hc]
    dsimp only
    by_cases hcond : po = 0 ∧ c.headNext ≠ .node p
    · rw [if_pos hcond]
      cases (getPiece c p).prev with
      | head => rfl
      | node q => exact cache_insert_eq_none_cache hc
    · rw [if_neg hcond]

theorem insert_dest_pieces (c : PieceChain) (n : Nat) :
    (insert_dest c n).pieces = c.pieces := by
  unfold insert_dest
  split <;> rfl

theorem insert_dest_size (c : PieceChain) (n : Nat) :
    (insert_dest c n).size = c.size := by
  unfold insert_dest
  split <;> rfl

theorem insert_dest_cache (c : PieceChain) (n : Nat) :
    (insert_dest c n).cache = c.cache := by
  unfold insert_dest
  split <;> rfl

theorem insert_dest_pendingChanges (c : PieceChain) (n : Nat) :
    (insert_dest c n).pendingChanges = c.pendingChanges := by
  unfold insert_dest
  split <;> rfl

theorem insert_dest_headNext (c : PieceChain) (n : Nat) :
    (insert_dest c n).headNext = c.headNext := by
  unfold insert_dest
  split <;> rfl

theorem insert_dest_headPrev (c : PieceChain) (n : Nat) :
    (insert_dest c n).headPrev = c.headPrev := by
  unfold insert_dest
  split <;> rfl

theorem insert_dest_revisions (c : PieceChain) (n : Nat) :
    (insert_dest c n).revisions = c.revisions := by
  unfold insert_dest
  split <;> rfl

theorem insert_dest_currentRev (c : PieceChain) (n : Nat) :
    (insert_dest c n).currentRev = c.currentRev := by
  unfold insert_dest
  split <;> rfl

theorem insert_dest_blocks_ne (c : PieceChain) (n : Nat) :
    (insert_dest c n).blocks ≠ [] := by
  unfold insert_dest
  split
  · next h =>
    cases hbl : c.blocks.getLast? with
    | none => rw [hbl] at h; exact absurd h (by simp)
    | some b =>
      intro hnil
      rw [hnil] at hbl
      simp at hbl
  · next h =>
    show c.blocks ++ [block_alloc n] ≠ []
    simp

/-- The two possible shapes of the destination-block choice. -/
theorem insert_dest_eq (c : PieceChain) (n : Nat) :
    insert_dest c n = c ∨
      insert_dest c n = { c with blocks := c.blocks ++ [block_alloc n] } := by
  unfold insert_dest
  split
  · exact Or.inl rfl
  · exact Or.inr rfl

theorem revision_purge_noop_of (c : PieceChain) (h1 : c.revisions ≠ [])
    (h2 : c.currentRev = c.revisions.length - 1) : revision_purge c = c := by
  unfold revision_purge
  rw [if_neg h1, if_pos h2]

theorem revision_purge_last (c : PieceChain) (h1 : c.revisions ≠ [])
    (h2 : c.currentRev < c.revisions.length) :
    (revision_purge c).currentRev = (revision_purge c).revisions.length - 1 ∧
      (revision_purge c).revisions ≠ [] := by
  unfold revision_purge
  rw [if_neg h1]
  by_cases h3 : c.currentRev = c.revisions.length - 1
  · rw [if_pos h3]
    exact ⟨h3, h1⟩
  · rw [if_neg h3]
    constructor
    · show c.currentRev = (c.revisions.take (c.currentRev + 1)).length - 1
      rw [List.length_take]
      have hm : min (c.currentRev + 1) c.revisions.length = c.currentRev + 1 := by
        omega
      rw [hm]
      omega
    · show c.revisions.take (c.currentRev + 1) ≠ []
      intro hnil
      have hlen := congrArg List.length hnil
      rw [List.length_take, List.length_nil] at hlen
      omega

theorem insert_dest_cases (c : PieceChain) (n : Nat) :
    ((match c.blocks.getLast? with
      | some b => block_can_fit b n
      | none => false) = true ∧ insert_dest c n = c) ∨
    ((match c.blocks.getLast? with
      | some b => block_can_fit b n
      | none => false) = false ∧
      insert_dest c n = { c with blocks := c.blocks ++ [block_alloc n] }) := by
  unfold insert_dest
  cases hb : (match c.blocks.getLast? with
      | some b => block_can_fit b n
      | none => false) with
  | true => exact Or.inl ⟨rfl, by simp⟩
  | false => exact Or.inr ⟨rfl, by simp⟩

theorem insert_slow_eq_empty (c : PieceChain) (offset : Nat) (data : List Nat)
    (po : Nat) :
    insert_slow c offset data none po =
      (let d := insert_dest c data.length
       let bIdx := d.blocks.length - 1
       let b := d.blocks.getD bIdx default
       let cB := { d with blocks := d.blocks.set bIdx { b with data := b.data ++ data } }
       let newId := cB.pieces.length
       let newP : Piece :=
         { blk := bIdx, off := b.data.length, size := data.length,
           prev := .head, next := .head }
       let c2 := { cB with pieces := cB.pieces ++ [newP] }
       let repl := span_mk c2 (some newId) (some newId)
       let c3 := { c2 with
         pendingChanges := c2.pendingChanges ++ [⟨⟨none, none, 0⟩, repl, offset⟩] }
       span_swap (cache_put c3 (some newId)) ⟨none, none, 0⟩ repl) := by
  rcases insert_dest_cases c data.length with ⟨hcond, hd⟩ | ⟨hcond, hd⟩
  · unfold insert_slow
    dsimp only
    rw [if_pos hcond, hd]
  · unfold insert_slow
    dsimp only
    rw [if_neg (show ¬ ((match c.blocks.getLast? with
        | some b => block_can_fit b data.length
        | none => false) = true) from by simp [hcond]), hd]

theorem insert_slow_eq_boundary (c : PieceChain) (offset : Nat) (data : List Nat)
    (p po : Nat)
    (h : po = 0 ∨ po = (getPiece c p).size) :
    insert_slow c offset data (some p) po =
      (let d := insert_dest c data.length
       let bIdx := d.blocks.length - 1
       let b := d.blocks.getD bIdx default
       let cB := { d with blocks := d.blocks.set bIdx { b with data := b.data ++ data } }
       let newId := cB.pieces.length
       let links :=
         if po = 0 then ((getPiece c p).prev, NodeRef.node p)
         else (NodeRef.node p, (getPiece c p).next)
       let newP : Piece :=
         { blk := bIdx, off := b.data.length, size := data.length,
           prev := links.1, next := links.2 }
       let c2 := { cB with pieces := cB.pieces ++ [newP] }
       let repl := span_mk c2 (some newId) (some newId)
       let c3 := { c2 with
         pendingChanges := c2.pendingChanges ++ [⟨⟨none, none, 0⟩, repl, offset⟩] }
       span_swap (cache_put c3 (some newId)) ⟨none, none, 0⟩ repl) := by
  rcases insert_dest_cases c data.length with ⟨hcond, hd⟩ | ⟨hcond, hd⟩
  · unfold insert_slow
    dsimp only
    rw [if_pos hcond, hd]
    split
    · rfl
    · next hcc => exact absurd h hcc
  · unfold insert_slow
    dsimp only
    rw [if_neg (show ¬ ((match c.blocks.getLast? with
        | some b => block_can_fit b data.length
        | none => false) = true) from by simp [hcond]), hd]
    split
    · rfl
    · next hcc => exact absurd h hcc

theorem insert_slow_eq_mid (c : PieceChain) (offset : Nat) (data : List Nat)
    (p po : Nat)
    (h : ¬ (po = 0 ∨ po = (getPiece c p).size)) :
    insert_slow c offset data (some p) po =
      (let d := insert_dest c data.length
       let bIdx := d.blocks.length - 1
       let b := d.blocks.getD bIdx default
       let cB := { d with blocks := d.blocks.set bIdx { b with data := b.data ++ data } }
       let pc := getPiece c p
       let beforeId := cB.pieces.length
       let middleId := cB.pieces.length + 1
       let afterId := cB.pieces.length + 2
       let beforeP : Piece :=
         { blk := pc.blk, off := pc.off, size := po,
           prev := pc.prev, next := .node middleId }
       let middleP : Piece :=
         { blk := bIdx, off := b.data.length, size := data.length,
           prev := .node beforeId, next := .node afterId }
       let afterP : Piece :=
         { blk := pc.blk, off := pc.off + po,
           size := pc.size - po, prev := .node middleId, next := pc.next }
       let c2 := { cB with pieces := cB.pieces ++ [beforeP, middleP, afterP] }
       let orig := span_mk c2 (some p) (some p)
       let repl := span_mk c2 (some beforeId) (some afterId)
       let c3 := { c2 with
         pendingChanges := c2.pendingChanges ++ [⟨orig, repl, offset⟩] }
       span_swap (cache_put c3 (some middleId)) orig repl) := by
  rcases insert_dest_cases c data.length with ⟨hcond, hd⟩ | ⟨hcond, hd⟩
  · unfold insert_slow
    dsimp only
    rw [if_pos hcond, hd]
    split
    · next hcc => exact absurd hcc h
    · rfl
  · unfold insert_slow
    dsimp only
    rw [if_neg (show ¬ ((match c.blocks.getLast? with
        | some b => block_can_fit b data.length
        | none => false) = true) from by simp [hcond]), hd]
    split
    · next hcc => exact absurd hcc h
    · rfl

theorem span_swap_zero (c : PieceChain) (o r : Span)
    (ho : o.len = 0) (hr : r.len = 0) : span_swap c o r = c := by
  unfold span_swap
  rw [if_pos ⟨ho, hr⟩]

theorem cache_none_of_no_pending {c : PieceChain} {ids : List Nat}
    (h : cacheOk c ids = true) (hp : c.pendingChanges = []) :
    c.cache = none := by
  cases hca : c.cache with
  | none => rfl
  | some i =>
    obtain ⟨_, _, _, _, _, hpend⟩ := cacheOk_parts h hca
    exact absurd hp hpend

theorem commit_pending_eq (c : PieceChain) (h : c.pendingChanges ≠ []) :
    piece_chain_commit c = (true, { c with
      revisions := c.revisions ++ [c.pendingChanges],
      currentRev := c.revisions.length,
      pendingChanges := [], cache := none }) := by
  unfold piece_chain_commit
  rw [if_neg h]

theorem commit_nil_eq (c : PieceChain) (h : c.pendingChanges = []) :
    piece_chain_commit c = (true, { c with cache := none }) := by
  unfold piece_chain_commit
  rw [if_pos h]

theorem commit_undo_single (Y : PieceChain) (ch : Change)
    (hp : Y.pendingChanges = [ch]) (hRne : Y.revisions ≠ []) :
    piece_chain_undo (piece_chain_commit Y).2 =
      (true,
       { span_swap
           { Y with
             revisions := Y.revisions ++ [[ch]],
             currentRev := Y.revisions.length,
             pendingChanges := [],
             cache := none }
           ch.replacement ch.original
         with currentRev := Y.revisions.length - 1 },
       some ch.pos) := by
  rw [commit_pending_eq Y (by rw [hp]; exact (by simp)), hp]
  unfold piece_chain_undo
  rw [commit_nil_eq _ rfl]
  dsimp only
  rw [if_neg (show ¬ (Y.revisions.length = 0) from by
    intro h0
    exact hRne (List.eq_nil_of_length_eq_zero h0))]
  rw [getD_append_len0 Y.revisions [ch] []]
  rfl

theorem nextPath_first_edge (c : PieceChain) (l : List Nat) (r t : NodeRef)
    (h : nextPath c r l t = true) : getNextOf c r = startRef l t := by
  cases l with
  | nil =>
    rw [show nextPath c r [] t = decide (getNextOf c r = t) from rfl,
      decide_eq_true_iff] at h
    exact h
  | cons i l' =>
    rw [show nextPath c r (i :: l') t =
        (decide (getNextOf c r = .node i) && nextPath c (.node i) l' t) from rfl,
      Bool.and_eq_true, decide_eq_true_iff] at h
    exact h.1

theorem chainRep_hinges {c : PieceChain} {A B : List Nat} {p : Nat}
    (hrep : chainRep c (A ++ p :: B) = true) :
    getPrevOf c (.node p) = endRef .head A ∧
    getNextOf c (.node p) = startRef B .head := by
  obtain ⟨hnp, hpp, _, _⟩ := chainRep_parts hrep
  obtain ⟨hA, hpB⟩ := (nextPath_append c A .head .head (p :: B)).mp hnp
  obtain ⟨hA', hpB'⟩ := (prevPath_append c A .head .head (p :: B)).mp hpp
  exact ⟨prevPath_last_edge c A .head (startRef (p :: B) .head) hA',
    nextPath_first_edge c B (.node p) .head hpB⟩

theorem chainRep_headNext {c : PieceChain} {ids : List Nat}
    (h : chainRep c ids = true) : c.headNext = startRef ids .head := by
  obtain ⟨h1, _, _, _⟩ := chainRep_parts h
  exact nextPath_first_edge c ids .head .head h1

theorem chainRep_headPrev {c : PieceChain} {ids : List Nat}
    (h : chainRep c ids = true) : c.headPrev = endRef .head ids := by
  obtain ⟨_, h2, _, _⟩ := chainRep_parts h
  exact prevPath_last_edge c ids .head .head h2

theorem cacheOk_mk {c : PieceChain} {ids : List Nat} {i : Nat}
    (hca : c.cache = some i) (h1 : i < c.pieces.length) (h2 : c.blocks ≠ [])
    (h3 : (getPiece c i).blk = c.blocks.length - 1)
    (h4 : (getPiece c i).off + (getPiece c i).size =
      (c.blocks.getD (c.blocks.length - 1) default).data.length)
    (h5 : ∀ j ∈ ids, j ≠ i → (getPiece c j).blk = c.blocks.length - 1 →
      (getPiece c j).off + (getPiece c j).size + (getPiece c i).size ≤
        (c.blocks.getD (c.blocks.length - 1) default).data.length)
    (h6 : c.pendingChanges ≠ []) : cacheOk c ids = true := by
  unfold cacheOk
  rw [hca]
  simp only [Bool.and_eq_true, decide_eq_true_iff]
  exact ⟨⟨⟨⟨⟨h1, h2⟩, h3⟩, h4⟩, h5⟩, h6⟩

theorem pieceBytes_ext_blk {c c2 : PieceChain} (j : Nat)
    (hp : getPiece c2 j = getPiece c j)
    (hb : c2.blocks.getD (getPiece c j).blk default =
      c.blocks.getD (getPiece c j).blk default) :
    pieceBytes c2 j = pieceBytes c j := by
  simp only [pieceBytes]
  rw [hp, hb]

theorem set_append3_mid {α : Type} (l : List α) (a b e b' : α) :
    (l ++ [a, b, e]).set (l.length + 1) b' = l ++ [a, b', e] := by
  induction l with
  | nil => rfl
  | cons x t ih =>
    show x :: ((t ++ [a, b, e]).set (t.length + 1) b') = x :: (t ++ [a, b', e])
    rw [ih]

theorem getLast?_of_ne_nil_getD {α : Type} [Inhabited α] (l : List α)
    (h : l ≠ []) :
    l.getLast? = some (l.getD (l.length - 1) default) := by
  induction l with
  | nil => exact absurd rfl h
  | cons a t ih =>
    cases t with
    | nil => rfl
    | cons b u =>
      rw [getLast?_cons_ne a (b :: u) (by simp)]
      rw [ih (by simp)]
      rfl

theorem getLast?_set_last {α : Type} [Inhabited α] (l : List α) (a : α)
    (h : l ≠ []) :
    (l.set (l.length - 1) a).getLast? = some a := by
  have hlen : 0 < l.length := List.length_pos.mpr h
  have hset_len : (l.set (l.length - 1) a).length = l.length :=
    List.length_set l _ a
  have hne : l.set (l.length - 1) a ≠ [] := by
    intro h0
    rw [h0] at hset_len
    simp at hset_len
    omega
  rw [getLast?_of_ne_nil_getD _ hne, hset_len]
  rw [getD_set_self l (l.length - 1) a default (by omega)]

theorem span_mk_some (c : PieceChain) (a b : Nat) :
    span_mk c (some a) (some b) =
      ⟨some a, some b, spanLenWalk c b a c.pieces.length⟩ := rfl

theorem insert_slow_shape_empty (c : PieceChain) (offset : Nat)
    (data : List Nat) :
    insert_slow c offset data none 0 =
      insert_slow_shape c offset data .head .head := by
  rw [insert_slow_eq_empty]
  rfl

theorem insert_slow_shape_pre (c : PieceChain) (offset : Nat) (data : List Nat)
    (p : Nat) :
    insert_slow c offset data (some p) 0 =
      insert_slow_shape c offset data (getPiece c p).prev (.node p) := by
  rw [insert_slow_eq_boundary c offset data p 0 (Or.inl rfl)]
  rfl

theorem insert_slow_shape_post (c : PieceChain) (offset : Nat) (data : List Nat)
    (p po : Nat) (hpo : po = (getPiece c p).size) (hne : po ≠ 0) :
    insert_slow c offset data (some p) po =
      insert_slow_shape c offset data (.node p) (getPiece c p).next := by
  rw [insert_slow_eq_boundary c offset data p po (Or.inr hpo)]
  simp only [if_neg hne]
  rfl

theorem span_mk_self (c2 : PieceChain) (n : Nat) :
    span_mk c2 (some n) (some n) = ⟨some n, some n, (getPiece c2 n).size⟩ := by
  rw [span_mk_some, spanLenWalk_self]

theorem getPiece_last (c2 : PieceChain) (PS : List Piece) (P : Piece)
    (hp : c2.pieces = PS ++ [P]) :
    getPiece c2 PS.length = P := by
  show c2.pieces.getD PS.length default = P
  rw [hp]
  exact getD_append_len0 PS P default

theorem insert_slow_shape_eq (c : PieceChain) (o : Nat) (s : List Nat)
    (rA rB : NodeRef) :
    insert_slow_shape c o s rA rB =
      span_swap
        { insert_dest c s.length with
          blocks := (insert_dest c s.length).blocks.set
            ((insert_dest c s.length).blocks.length - 1)
            { (insert_dest c s.length).blocks.getD
                ((insert_dest c s.length).blocks.length - 1) default with
              data := ((insert_dest c s.length).blocks.getD
                ((insert_dest c s.length).blocks.length - 1) default).data ++ s },
          pieces := (insert_dest c s.length).pieces ++
            [{ blk := (insert_dest c s.length).blocks.length - 1,
               off := ((insert_dest c s.length).blocks.getD
                 ((insert_dest c s.length).blocks.length - 1) default).data.length,
               size := s.length, prev := rA, next := rB }],
          pendingChanges := (insert_dest c s.length).pendingChanges ++
            [⟨⟨none, none, 0⟩,
              ⟨some (insert_dest c s.length).pieces.length,
               some (insert_dest c s.length).pieces.length, s.length⟩, o⟩],
          cache := some (insert_dest c s.length).pieces.length }
        ⟨none, none, 0⟩
        ⟨some (insert_dest c s.length).pieces.length,
         some (insert_dest c s.length).pieces.length, s.length⟩ := by
  simp only [insert_slow_shape]
  rw [span_mk_self]
  rw [getPiece_last _ _ _ rfl]
  rfl

theorem delete_fast_on_cached (X : PieceChain) (o L : Nat)
    (A2 B2 : List Nat) (nid : Nat) (blk : Block)
    (hrep : chainRep X (A2 ++ nid :: B2) = true)
    (hsz : X.size = sumS X (A2 ++ nid :: B2))
    (hsum : sumS X A2 = o)
    (hnsz : (getPiece X nid).size = L)
    (hL : L ≠ 0)
    (hca : X.cache = some nid)
    (hbl : X.blocks.getLast? = some blk)
    (hrne : X.revisions ≠ [])
    (hcur : X.currentRev = X.revisions.length - 1) :
    piece_chain_delete X o L =
      (true, { cache_delete_state X nid 0 L blk with dirty := true }) := by
  have hle : ¬ (o > X.size) := by
    rw [hsz, sumS_append, sumS_cons, ← hsum]
    omega
  have hfind : piece_find X o = some (nid, 0) := by
    unfold piece_find
    rw [if_neg hle, chainIds_eq hrep]
    rw [piece_find_go_skip X o A2 (nid :: B2) 0 (by rw [Nat.zero_add, hsum])]
    rw [piece_find_go_found X o nid B2 (0 + sumS X A2)
      (by rw [Nat.zero_add, hsum, hnsz]; omega)]
    rw [Nat.zero_add, hsum, Nat.sub_self]
  unfold piece_chain_delete
  rw [if_neg hL, if_neg hle, hfind]
  dsimp only
  rw [revision_purge_noop_of X hrne hcur]
  rw [cache_delete_eq_some hca hbl (by rw [hnsz]; omega)]

theorem blocks_set_append_getD (D : List Block) (s : List Nat) (k : Nat)
    (hk : k < D.length) :
    ((D.set (D.length - 1)
      { D.getD (D.length - 1) default with
        data := (D.getD (D.length - 1) default).data ++ s }).getD k default =
      D.getD k default) ∨
    (k = D.length - 1 ∧
      ((D.set (D.length - 1)
        { D.getD (D.length - 1) default with
          data := (D.getD (D.length - 1) default).data ++ s }).getD k default =
        { D.getD k default with data := (D.getD k default).data ++ s })) := by
  by_cases h : k = D.length - 1
  · subst h
    exact Or.inr ⟨rfl, getD_set_self _ _ _ _ hk⟩
  · exact Or.inl (getD_set_ne _ _ _ _ _ (fun he => h he.symm))

theorem pieceBytes_insert_stable {c X : PieceChain} {j : Nat} {s : List Nat}
    (hpj : getPiece X j = getPiece c j)
    (hblk : X.blocks.getD (getPiece c j).blk default =
        c.blocks.getD (getPiece c j).blk default ∨
      (X.blocks.getD (getPiece c j).blk default).data =
        (c.blocks.getD (getPiece c j).blk default).data ++ s)
    (hb : (getPiece c j).off + (getPiece c j).size ≤
      (c.blocks.getD (getPiece c j).blk default).data.length) :
    pieceBytes X j = pieceBytes c j := by
  simp only [pieceBytes]
  rw [hpj]
  rcases hblk with h | h
  · rw [h]
  · rw [h]
    exact slice_append_stable _ _ _ _ hb

theorem span_swap_zero_mk (c : PieceChain) (a1 a2 b1 b2 : Option Nat) :
    span_swap c ⟨a1, a2, 0⟩ ⟨b1, b2, 0⟩ = c :=
  span_swap_zero c _ _ rfl rfl

theorem sumS_pointwise {X c : PieceChain} {l : List Nat}
    (h : ∀ j ∈ l, (getPiece X j).size = (getPiece c j).size) :
    sumS X l = sumS c l := by
  unfold sumS
  exact congrArg List.sum (List.map_congr_left fun j hj => h j hj)

theorem delete_commit_undo_noop (X : PieceChain) (o L : Nat) (A2 B2 : List Nat)
    (nid : Nat) (blk : Block) (sp1 : Span)
    (hrep : chainRep X (A2 ++ nid :: B2) = true)
    (hcok : cacheOk X (A2 ++ nid :: B2) = true)
    (hsz : X.size = sumS X (A2 ++ nid :: B2))
    (hsum : sumS X A2 = o)
    (hnsz : (getPiece X nid).size = L)
    (hL : L ≠ 0)
    (hca : X.cache = some nid)
    (hbl : X.blocks.getLast? = some blk)
    (hrne : X.revisions ≠ [])
    (hcur : X.currentRev = X.revisions.length - 1)
    (hpend : X.pendingChanges = [⟨⟨none, none, 0⟩, sp1, o⟩])
    (hsp1 : sp1.len = L) :
    contents (piece_chain_undo
      (piece_chain_commit (piece_chain_delete X o L).2).2).2.1 =
      (A2.map (pieceBytes X)).flatten ++ (B2.map (pieceBytes X)).flatten := by
  have hWpend : ({ cache_delete_state X nid 0 L blk with dirty := true } :
      PieceChain).pendingChanges =
      [⟨⟨none, none, 0⟩, { sp1 with len := 0 }, o⟩] := by
    show updateLast _ X.pendingChanges = _
    rw [hpend]
    show [(⟨⟨none, none, 0⟩, { sp1 with len := sp1.len - L }, o⟩ : Change)] = _
    rw [hsp1, Nat.sub_self]
  have h3 : contents (piece_chain_undo
      (piece_chain_commit
        ({ cache_delete_state X nid 0 L blk with dirty := true } :
          PieceChain)).2).2.1 =
      contents (cache_delete_state X nid 0 L blk) := by
    rw [commit_undo_single _ ⟨⟨none, none, 0⟩, { sp1 with len := 0 }, o⟩
      hWpend hrne]
    dsimp only
    rw [span_swap_zero_mk]
    exact contents_congr rfl rfl rfl
  rw [delete_fast_on_cached X o L A2 B2 nid blk hrep hsz hsum hnsz hL hca hbl
    hrne hcur]
  dsimp only
  rw [h3]
  have h4 := cache_delete_state_contents hrep hcok hca hbl
    (Nat.zero_le _)
    (show ¬ (getPiece X nid).size - 0 < L from by rw [hnsz]; omega)
  rw [h4.2]
  have hd0 : (pieceBytes X nid).drop (0 + L) = [] := by
    refine List.drop_eq_nil_of_le ?_
    have : (pieceBytes X nid).length ≤ (getPiece X nid).size := by
      simp only [pieceBytes]
      exact List.length_take_le _ _
    rw [hnsz] at this
    omega
  rw [hd0, List.take_zero]
  simp

theorem pieceBytes_fields_stable {c X : PieceChain} {j : Nat} {s : List Nat}
    (h1 : (getPiece X j).blk = (getPiece c j).blk)
    (h2 : (getPiece X j).off = (getPiece c j).off)
    (h3 : (getPiece X j).size = (getPiece c j).size)
    (hblk : X.blocks.getD (getPiece c j).blk default =
        c.blocks.getD (getPiece c j).blk default ∨
      (X.blocks.getD (getPiece c j).blk default).data =
        (c.blocks.getD (getPiece c j).blk default).data ++ s)
    (hb : (getPiece c j).off + (getPiece c j).size ≤
      (c.blocks.getD (getPiece c j).blk default).data.length) :
    pieceBytes X j = pieceBytes c j := by
  simp only [pieceBytes]
  rw [h1, h2, h3]
  rcases hblk with h | h
  · rw [h]
  · rw [h]
    exact slice_append_stable _ _ _ _ hb

theorem insert_shape_state (c cp : PieceChain) (o : Nat) (s : List Nat)
    (A1 B1 : List Nat) (rA rB : NodeRef)
    (hcpp : cp.pieces = c.pieces) (hcpb : cp.blocks = c.blocks)
    (hcpn : cp.headNext = c.headNext) (hcpv : cp.headPrev = c.headPrev)
    (hcps : cp.size = c.size) (hcpd : cp.pendingChanges = [])
    (hrep : chainRep c (A1 ++ B1) = true)
    (hbounds : boundsOk c (A1 ++ B1) = true)
    (hsne : s ≠ [])
    (hrA : rA = endRef .head A1)
    (hrB : rB = startRef B1 .head) :
    chainRep (insert_slow_shape cp o s rA rB)
      (A1 ++ c.pieces.length :: B1) = true ∧
    cacheOk (insert_slow_shape cp o s rA rB)
      (A1 ++ c.pieces.length :: B1) = true ∧
    (insert_slow_shape cp o s rA rB).size = c.size + s.length ∧
    (getPiece (insert_slow_shape cp o s rA rB) c.pieces.length).size =
      s.length ∧
    (insert_slow_shape cp o s rA rB).cache = some c.pieces.length ∧
    (∃ blkX, (insert_slow_shape cp o s rA rB).blocks.getLast? = some blkX) ∧
    (insert_slow_shape cp o s rA rB).revisions = cp.revisions ∧
    (insert_slow_shape cp o s rA rB).currentRev = cp.currentRev ∧
    (insert_slow_shape cp o s rA rB).pendingChanges =
      [⟨⟨none, none, 0⟩,
        ⟨some c.pieces.length, some c.pieces.length, s.length⟩, o⟩] ∧
    (∀ j, j < c.pieces.length →
      (getPiece (insert_slow_shape cp o s rA rB) j).size =
        (getPiece c j).size) ∧
    (∀ j ∈ A1 ++ B1,
      pieceBytes (insert_slow_shape cp o s rA rB) j = pieceBytes c j) := by
  have hs0 : s.length ≠ 0 := fun h0 => hsne (List.eq_nil_of_length_eq_zero h0)
  obtain ⟨hnp, hpp, hnd0, hbnd⟩ := chainRep_parts hrep
  obtain ⟨D, hD⟩ : ∃ D, D = (insert_dest cp s.length).blocks := ⟨_, rfl⟩
  obtain ⟨bb, hbb⟩ : ∃ bb, bb = D.getD (D.length - 1) default := ⟨_, rfl⟩
  obtain ⟨BN, hBN⟩ :
      ∃ BN, BN = D.set (D.length - 1) { bb with data := bb.data ++ s } :=
    ⟨_, rfl⟩
  obtain ⟨nd, hnd⟩ : ∃ n, n = (insert_dest cp s.length).pieces.length :=
    ⟨_, rfl⟩
  obtain ⟨newP, hnewP⟩ : ∃ P : Piece, P =
      { blk := D.length - 1, off := bb.data.length, size := s.length,
        prev := rA, next := rB } := ⟨_, rfl⟩
  obtain ⟨base, hbase⟩ : ∃ b, b = ({ insert_dest cp s.length with
      blocks := BN,
      pieces := (insert_dest cp s.length).pieces ++ [newP],
      pendingChanges := (insert_dest cp s.length).pendingChanges ++
        [⟨⟨none, none, 0⟩, ⟨some nd, some nd, s.length⟩, o⟩],
      cache := some nd } : PieceChain) := ⟨_, rfl⟩
  have hdp : (insert_dest cp s.length).pieces = c.pieces := by
    rw [insert_dest_pieces, hcpp]
  have hndc : nd = c.pieces.length := by rw [hnd, hdp]
  rw [← hndc]
  have hX0eq := insert_slow_shape_eq cp o s rA rB
  rw [← hD] at hX0eq
  rw [← hbb] at hX0eq
  rw [← hnd] at hX0eq
  rw [← hnewP] at hX0eq
  rw [← hBN] at hX0eq
  rw [← hbase] at hX0eq
  have hDne : D ≠ [] := by rw [hD]; exact insert_dest_blocks_ne cp s.length
  have hDpos : 0 < D.length := List.length_pos.mpr hDne
  have hDor : D = c.blocks ∨ D = c.blocks ++ [block_alloc s.length] := by
    rw [hD, ← hcpb]
    rcases insert_dest_eq cp s.length with h | h <;> rw [h]
    · exact Or.inl rfl
    · exact Or.inr rfl
  have hbasep : base.pieces = c.pieces ++ [newP] := by
    rw [hbase]
    show (insert_dest cp s.length).pieces ++ [newP] = _
    rw [hdp]
  have hbaseb : base.blocks = BN := by rw [hbase]
  have hbasen : base.headNext = c.headNext := by
    rw [hbase]
    show (insert_dest cp s.length).headNext = _
    rw [insert_dest_headNext, hcpn]
  have hbasev : base.headPrev = c.headPrev := by
    rw [hbase]
    show (insert_dest cp s.length).headPrev = _
    rw [insert_dest_headPrev, hcpv]
  have hbasess : base.size = c.size := by
    rw [hbase]
    show (insert_dest cp s.length).size = _
    rw [insert_dest_size, hcps]
  have hbasepc : base.pendingChanges =
      [⟨⟨none, none, 0⟩, ⟨some nd, some nd, s.length⟩, o⟩] := by
    rw [hbase]
    show (insert_dest cp s.length).pendingChanges ++ _ = _
    rw [insert_dest_pendingChanges, hcpd]
    rfl
  have hbasecache : base.cache = some nd := by rw [hbase]
  have hbaserev : base.revisions = cp.revisions := by
    rw [hbase]
    show (insert_dest cp s.length).revisions = _
    rw [insert_dest_revisions]
  have hbasecur : base.currentRev = cp.currentRev := by
    rw [hbase]
    show (insert_dest cp s.length).currentRev = _
    rw [insert_dest_currentRev]
  have hlen_base : base.pieces.length = c.pieces.length + 1 := by
    rw [hbasep, List.length_append]
    rfl
  have hgpc : getPiece base nd = newP := by
    rw [hndc]
    exact getPiece_last base c.pieces newP hbasep
  have hgp : getPrevOf base (.node nd) = rA := by
    show (getPiece base nd).prev = rA
    rw [hgpc, hnewP]
  have hgn : getNextOf base (.node nd) = rB := by
    show (getPiece base nd).next = rB
    rw [hgpc, hnewP]
  have hAbnd : ∀ i ∈ A1, i < c.pieces.length := fun i hi =>
    hbnd i (List.mem_append.mpr (Or.inl hi))
  have hBbnd : ∀ i ∈ B1, i < c.pieces.length := fun i hi =>
    hbnd i (List.mem_append.mpr (Or.inr hi))
  have hvA : validRef base rA := by
    rcases endRef_eq_or .head A1 with ⟨_, h2⟩ | ⟨x, hx, h2⟩
    · rw [hrA, h2]; trivial
    · rw [hrA, h2]
      show x < base.pieces.length
      rw [hlen_base]
      exact Nat.lt_succ_of_lt (hAbnd x (mem_of_getLast_some hx))
  have hnidrA : (NodeRef.node nd) ≠ rA := by
    rcases endRef_eq_or .head A1 with ⟨_, h2⟩ | ⟨x, hx, h2⟩
    · rw [hrA, h2]
      intro hcon
      exact NodeRef.noConfusion hcon
    · rw [hrA, h2]
      intro hcon
      have hx2 : nd = x := by injection hcon
      have hxb := hAbnd x (mem_of_getLast_some hx)
      omega
  have hin : getNextOf (setNextOf base rA (.node nd)) (.node nd) = rB := by
    rw [getNextOf_setNextOf base rA (.node nd) hvA (.node nd), if_neg hnidrA,
      hgn]
  have hX0 : insert_slow_shape cp o s rA rB =
      { setPrevOf (setNextOf base rA (.node nd)) rB (.node nd) with
        size := base.size + s.length } := by
    rw [hX0eq, span_swap_ins_eq _ _ _ _ hs0, hgp, hin]
  have hX0blocks : (insert_slow_shape cp o s rA rB).blocks = BN := by
    rw [hX0]
    show (setPrevOf (setNextOf base rA (.node nd)) rB (.node nd)).blocks = BN
    rw [setPrevOf_blocks, setNextOf_blocks, hbaseb]
  have hX0cache : (insert_slow_shape cp o s rA rB).cache = some nd := by
    rw [hX0]
    show (setPrevOf (setNextOf base rA (.node nd)) rB (.node nd)).cache = _
    rw [setPrevOf_cache, setNextOf_cache, hbasecache]
  have hX0pend : (insert_slow_shape cp o s rA rB).pendingChanges =
      [⟨⟨none, none, 0⟩, ⟨some nd, some nd, s.length⟩, o⟩] := by
    rw [hX0]
    show (setPrevOf (setNextOf base rA (.node nd)) rB
      (.node nd)).pendingChanges = _
    rw [setPrevOf_pendingChanges, setNextOf_pendingChanges, hbasepc]
  have hX0rev : (insert_slow_shape cp o s rA rB).revisions = cp.revisions := by
    rw [hX0]
    show (setPrevOf (setNextOf base rA (.node nd)) rB (.node nd)).revisions = _
    rw [setPrevOf_revisions, setNextOf_revisions, hbaserev]
  have hX0cur : (insert_slow_shape cp o s rA rB).currentRev =
      cp.currentRev := by
    rw [hX0]
    show (setPrevOf (setNextOf base rA (.node nd)) rB (.node nd)).currentRev = _
    rw [setPrevOf_currentRev, setNextOf_currentRev, hbasecur]
  have hX0size : (insert_slow_shape cp o s rA rB).size = c.size + s.length := by
    rw [hX0]
    show base.size + s.length = _
    rw [hbasess]
  have hX0plen : (insert_slow_shape cp o s rA rB).pieces.length =
      c.pieces.length + 1 := by
    rw [hX0]
    show (setPrevOf (setNextOf base rA (.node nd)) rB
      (.node nd)).pieces.length = _
    rw [setPrevOf_pieces_length, setNextOf_pieces_length, hlen_base]
  have hX0blk : ∀ j, (getPiece (insert_slow_shape cp o s rA rB) j).blk =
      (getPiece base j).blk := by
    intro j
    rw [hX0]
    show (getPiece (setPrevOf (setNextOf base rA (.node nd)) rB
      (.node nd)) j).blk = _
    rw [blk_setPrevOf, blk_setNextOf]
  have hX0off : ∀ j, (getPiece (insert_slow_shape cp o s rA rB) j).off =
      (getPiece base j).off := by
    intro j
    rw [hX0]
    show (getPiece (setPrevOf (setNextOf base rA (.node nd)) rB
      (.node nd)) j).off = _
    rw [off_setPrevOf, off_setNextOf]
  have hX0szj : ∀ j, (getPiece (insert_slow_shape cp o s rA rB) j).size =
      (getPiece base j).size := by
    intro j
    rw [hX0]
    show (getPiece (setPrevOf (setNextOf base rA (.node nd)) rB
      (.node nd)) j).size = _
    rw [size_setPrevOf, size_setNextOf]
  have hgbase : ∀ j, j < c.pieces.length → getPiece base j = getPiece c j :=
    fun j hj => getPiece_grow hbasep hj
  have hBNlen : BN.length = D.length := by
    rw [hBN]
    exact List.length_set D _ _
  have hBNlast : BN.getD (D.length - 1) default =
      { bb with data := bb.data ++ s } := by
    rw [hBN]
    exact getD_set_self D _ _ default (by omega)
  have hBNgetLast : BN.getLast? = some { bb with data := bb.data ++ s } := by
    rw [hBN]
    exact getLast?_set_last D _ hDne
  -- chain representation after the splice
  have hAn0 : nextPath c .head A1 (startRef B1 .head) = true :=
    ((nextPath_append c A1 .head .head B1).mp hnp).1
  have hAp0 : prevPath c .head A1 (startRef B1 .head) = true :=
    ((prevPath_append c A1 .head .head B1).mp hpp).1
  have hB1n : ∀ b0 B2, B1 = b0 :: B2 →
      nextPath c (.node b0) B2 .head = true := by
    intro b0 B2 hB
    have h := ((nextPath_append c A1 .head .head B1).mp hnp).2
    rw [hB] at h
    exact h
  have hB1p : ∀ b0 B2, B1 = b0 :: B2 →
      prevPath c (.node b0) B2 .head = true := by
    intro b0 B2 hB
    have h := ((prevPath_append c A1 .head .head B1).mp hpp).2
    rw [hB] at h
    exact h
  have htB : match startRef B1 .head with
      | NodeRef.head => True | NodeRef.node j => j < c.pieces.length := by
    rcases startRef_eq_or B1 .head with ⟨_, h2⟩ | ⟨x, hx, h2⟩ <;> rw [h2]
    · trivial
    · exact hBbnd x (mem_of_head_some hx)
  have hAnb : nextPath base .head A1 (startRef B1 .head) = true := by
    rw [nextPath_grow hbasep hbasen A1 .head _ hAbnd trivial]
    exact hAn0
  have hApb : prevPath base .head A1 (startRef B1 .head) = true := by
    rw [prevPath_grow hbasep hbasev A1 .head _ hAbnd htB]
    exact hAp0
  have hB1nb : ∀ b0 B2, B1 = b0 :: B2 →
      nextPath base (.node b0) B2 .head = true := by
    intro b0 B2 hB
    rw [nextPath_grow hbasep hbasen B2 (.node b0) .head
      (fun i hi => hBbnd i (by rw [hB]; exact List.mem_cons_of_mem b0 hi))
      (hBbnd b0 (by rw [hB]; exact List.mem_cons_self b0 B2))]
    exact hB1n b0 B2 hB
  have hB1pb : ∀ b0 B2, B1 = b0 :: B2 →
      prevPath base (.node b0) B2 .head = true := by
    intro b0 B2 hB
    rw [prevPath_grow hbasep hbasev B2 (.node b0) .head
      (fun i hi => hBbnd i (by rw [hB]; exact List.mem_cons_of_mem b0 hi))
      trivial]
    exact hB1p b0 B2 hB
  have hndup : (A1 ++ [nd] ++ B1).Nodup := by
    refine nodup_splice_fresh A1 B1 [nd] c.pieces.length hnd0 hbnd ?_ ?_
    · exact List.nodup_singleton nd
    · intro n hn
      rw [List.mem_singleton] at hn
      subst hn
      omega
  have hbw : ∀ i ∈ A1 ++ [nd] ++ B1, i < base.pieces.length := by
    intro i hi
    rw [hlen_base]
    rw [List.append_assoc, List.mem_append] at hi
    rcases hi with h | h
    · exact Nat.lt_succ_of_lt (hAbnd i h)
    · rcases List.mem_cons.mp h with h | h
      · subst h; omega
      · exact Nat.lt_succ_of_lt (hBbnd i h)
  have hNfact : ∀ n0 N2, [nd] = n0 :: N2 →
      getPrevOf base (.node n0) = rA ∧
      nextPath base (.node n0) N2 rB = true ∧
      prevLinks base n0 N2 := by
    intro n0 N2 hN
    have h1 : nd = n0 := (List.cons.inj hN).1
    have h2 : N2 = ([] : List Nat) := (List.cons.inj hN).2.symm
    subst h2
    rw [← h1]
    refine ⟨hgp, ?_, trivial⟩
    show decide (getNextOf base (.node nd) = rB) = true
    rw [hgn]
    simp
  obtain ⟨hXrep0, _⟩ := splice_state_spec { c with blocks := BN } base _
    A1 B1 [nd] [newP] rA rB (.node nd) (.node nd) (startRef B1 .head)
    (startRef B1 .head) (base.size + s.length) hrA hrB rfl rfl rfl hbasep
    hbaseb hbasen hbasev hndup hbw hAnb hApb hB1nb hB1pb hNfact hAbnd hBbnd
  rw [show A1 ++ [nd] ++ B1 = A1 ++ nd :: B1 from by simp] at hXrep0
  have hXrep : chainRep (insert_slow_shape cp o s rA rB)
      (A1 ++ nd :: B1) = true := by
    rw [hX0]
    exact hXrep0
  -- block stability for old pieces
  have hblocks_stable : ∀ k, k < c.blocks.length →
      (insert_slow_shape cp o s rA rB).blocks.getD k default =
        c.blocks.getD k default ∨
      ((insert_slow_shape cp o s rA rB).blocks.getD k default).data =
        (c.blocks.getD k default).data ++ s := by
    intro k hk
    rw [hX0blocks, hBN, hbb]
    have hkD : k < D.length := by
      rcases hDor with h | h
      · rw [h]; exact hk
      · rw [h, List.length_append]
        omega
    rcases blocks_set_append_getD D s k hkD with heq | ⟨hk2, heq⟩
    · rw [heq]
      rcases hDor with h | h
      · rw [h]
        exact Or.inl rfl
      · rw [h, getD_append_left _ _ _ _ hk]
        exact Or.inl rfl
    · rw [heq]
      rcases hDor with h | h
      · rw [h]
        exact Or.inr rfl
      · rw [h, List.length_append, List.length_singleton] at hk2
        omega
  have hbytes : ∀ j ∈ A1 ++ B1,
      pieceBytes (insert_slow_shape cp o s rA rB) j = pieceBytes c j := by
    intro j hj
    have hjlen := hbnd j hj
    have hbnds := boundsOk_mem hbounds hj
    refine pieceBytes_fields_stable ?_ ?_ ?_
      (hblocks_stable _ hbnds.1) hbnds.2
    · rw [hX0blk j, hgbase j hjlen]
    · rw [hX0off j, hgbase j hjlen]
    · rw [hX0szj j, hgbase j hjlen]
  -- the cache discipline for the new state
  have hXcok : cacheOk (insert_slow_shape cp o s rA rB)
      (A1 ++ nd :: B1) = true := by
    refine cacheOk_mk hX0cache ?_ ?_ ?_ ?_ ?_ ?_
    · rw [hX0plen]
      omega
    · rw [hX0blocks, hBN]
      exact set_ne_nil D _ _ hDne
    · rw [hX0blk nd, hgpc, hnewP]
      show D.length - 1 = _
      rw [hX0blocks, hBNlen]
    · rw [hX0off nd, hX0szj nd, hgpc, hnewP, hX0blocks, hBNlen, hBNlast]
      show bb.data.length + s.length = (bb.data ++ s).length
      rw [List.length_append]
    · intro j hj hjne hjblk
      have hjold : j ∈ A1 ++ B1 := by
        rcases List.mem_append.mp hj with h | h
        · exact List.mem_append.mpr (Or.inl h)
        · rcases List.mem_cons.mp h with h | h
          · exact absurd h hjne
          · exact List.mem_append.mpr (Or.inr h)
      have hjlen : j < c.pieces.length := hbnd j hjold
      have hbnds := boundsOk_mem hbounds hjold
      rw [hX0blk j, hgbase j hjlen, hX0blocks, hBNlen] at hjblk
      rw [hX0off j, hX0szj j, hX0szj nd, hgbase j hjlen, hgpc, hnewP,
        hX0blocks, hBNlen, hBNlast]
      show (getPiece c j).off + (getPiece c j).size + s.length ≤
        (bb.data ++ s).length
      rw [List.length_append]
      rcases hDor with hDc | hDc
      · have hjblk' : (getPiece c j).blk = c.blocks.length - 1 := by
          rw [hjblk, hDc]
        have hbbc : bb = c.blocks.getD ((getPiece c j).blk) default := by
          rw [hbb, hDc, hjblk']
        have hj2 := hbnds.2
        rw [← hbbc] at hj2
        omega
      · rw [hDc, List.length_append, List.length_singleton] at hjblk
        have := hbnds.1
        omega
    · rw [hX0pend]
      simp
  -- assemble
  have hXlast : ∃ blkX,
      (insert_slow_shape cp o s rA rB).blocks.getLast? = some blkX :=
    ⟨{ bb with data := bb.data ++ s }, by rw [hX0blocks]; exact hBNgetLast⟩
  refine ⟨hXrep, hXcok, hX0size, ?_, hX0cache, hXlast, hX0rev, hX0cur,
    hX0pend, ?_, hbytes⟩
  · rw [hX0szj nd, hgpc, hnewP]
  · intro j hj
    rw [hX0szj j, hgbase j (by omega)]

theorem roundtrip_single (c : PieceChain) (o : Nat) (s : List Nat)
    (A1 B1 : List Nat) (pieceOpt : Option Nat) (po : Nat) (rA rB : NodeRef)
    (hrep : chainRep c (A1 ++ B1) = true)
    (hsize : c.size = sumS c (A1 ++ B1))
    (hbounds : boundsOk c (A1 ++ B1) = true)
    (hcok : cacheOk c (A1 ++ B1) = true)
    (hpend : c.pendingChanges = [])
    (hrne : c.revisions ≠ [])
    (hrlt : c.currentRev < c.revisions.length)
    (hsne : s ≠ [])
    (hsum : sumS c A1 = o)
    (hrA : rA = endRef .head A1)
    (hrB : rB = startRef B1 .head)
    (hfind : insert_find c o = some (pieceOpt, po))
    (hslow : insert_slow (revision_purge c) o s pieceOpt po =
      insert_slow_shape (revision_purge c) o s rA rB)
    (ho : ¬ (o > c.size)) :
    (piece_chain_insert c o s).1 = true ∧
    contents (piece_chain_undo
      (piece_chain_commit
        (piece_chain_delete (piece_chain_insert c o s).2 o s.length).2).2).2.1 =
      contents c := by
  have hs0 : s.length ≠ 0 := fun h0 => hsne (List.eq_nil_of_length_eq_zero h0)
  obtain ⟨Xd, hXd⟩ : ∃ X, X =
      ({ insert_slow_shape (revision_purge c) o s rA rB with
        dirty := true } : PieceChain) := ⟨_, rfl⟩
  have hins : piece_chain_insert c o s = (true, Xd) := by
    rw [hXd]
    unfold piece_chain_insert
    rw [if_neg hs0, if_neg ho, hfind]
    dsimp only
    rw [insert_fast_none _ pieceOpt po s
      (by rw [revision_purge_cache]; exact cache_none_of_no_pending hcok hpend)]
    dsimp only
    rw [hslow]
  obtain ⟨hcr, hcrne⟩ := revision_purge_last c hrne hrlt
  obtain ⟨hXrep, hXcok, hXsize, hXnsz, hXcache, ⟨blkX, hXlast⟩, hXrev, hXcur,
    hXpend, hXsz_old, hXbytes⟩ :=
    insert_shape_state c (revision_purge c) o s A1 B1 rA rB
      (revision_purge_pieces c) (revision_purge_blocks c)
      (revision_purge_headNext c) (revision_purge_headPrev c)
      (revision_purge_size c)
      (by rw [revision_purge_pendingChanges]; exact hpend)
      hrep hbounds hsne hrA hrB
  obtain ⟨_, _, _, hbnd⟩ := chainRep_parts hrep
  have hAbnd : ∀ i ∈ A1, i < c.pieces.length := fun i hi =>
    hbnd i (List.mem_append.mpr (Or.inl hi))
  have hBbnd : ∀ i ∈ B1, i < c.pieces.length := fun i hi =>
    hbnd i (List.mem_append.mpr (Or.inr hi))
  have h1 : sumS (insert_slow_shape (revision_purge c) o s rA rB) A1 =
      sumS c A1 :=
    sumS_pointwise (fun j hj => hXsz_old j (hAbnd j hj))
  have h2 : sumS (insert_slow_shape (revision_purge c) o s rA rB) B1 =
      sumS c B1 :=
    sumS_pointwise (fun j hj => hXsz_old j (hBbnd j hj))
  have hrepX : chainRep Xd (A1 ++ c.pieces.length :: B1) = true := by
    rw [hXd]
    exact (@chainRep_congr_eq (insert_slow_shape (revision_purge c) o s rA rB)
      { insert_slow_shape (revision_purge c) o s rA rB with dirty := true }
      (A1 ++ c.pieces.length :: B1) rfl rfl rfl).trans hXrep
  have hcokX : cacheOk Xd (A1 ++ c.pieces.length :: B1) = true := by
    rw [hXd]
    exact (@cacheOk_congr_eq (insert_slow_shape (revision_purge c) o s rA rB)
      { insert_slow_shape (revision_purge c) o s rA rB with dirty := true }
      rfl rfl rfl rfl (A1 ++ c.pieces.length :: B1)).trans hXcok
  have hsumX : sumS Xd A1 = o := by
    rw [hXd]
    exact (@sumS_congr (insert_slow_shape (revision_purge c) o s rA rB)
      { insert_slow_shape (revision_purge c) o s rA rB with dirty := true }
      rfl A1).trans (h1.trans hsum)
  have hszX : Xd.size = sumS Xd (A1 ++ c.pieces.length :: B1) := by
    rw [hXd]
    have e1 : sumS ({ insert_slow_shape (revision_purge c) o s rA rB with
        dirty := true } : PieceChain) (A1 ++ c.pieces.length :: B1) =
        sumS (insert_slow_shape (revision_purge c) o s rA rB)
          (A1 ++ c.pieces.length :: B1) := sumS_congr rfl _
    have e2 : ({ insert_slow_shape (revision_purge c) o s rA rB with
        dirty := true } : PieceChain).size = c.size + s.length := hXsize
    rw [e1, e2, sumS_append, sumS_cons, h1, h2, hXnsz, hsize, sumS_append]
    omega
  have hnszX : (getPiece Xd c.pieces.length).size = s.length := by
    rw [hXd]
    exact hXnsz
  have hcaX : Xd.cache = some c.pieces.length := by
    rw [hXd]
    exact hXcache
  have hblX : Xd.blocks.getLast? = some blkX := by
    rw [hXd]
    exact hXlast
  have hrneX : Xd.revisions ≠ [] := by
    rw [hXd]
    show (insert_slow_shape (revision_purge c) o s rA rB).revisions ≠ []
    rw [hXrev]
    exact hcrne
  have hcurX : Xd.currentRev = Xd.revisions.length - 1 := by
    rw [hXd]
    show (insert_slow_shape (revision_purge c) o s rA rB).currentRev =
      (insert_slow_shape (revision_purge c) o s rA rB).revisions.length - 1
    rw [hXrev, hXcur]
    exact hcr
  have hpendX : Xd.pendingChanges =
      [⟨⟨none, none, 0⟩,
        ⟨some c.pieces.length, some c.pieces.length, s.length⟩, o⟩] := by
    rw [hXd]
    exact hXpend
  have hM2 := delete_commit_undo_noop Xd o s.length A1 B1 c.pieces.length blkX
    ⟨some c.pieces.length, some c.pieces.length, s.length⟩
    hrepX hcokX hszX hsumX hnszX hs0 hcaX hblX hrneX hcurX hpendX rfl
  refine ⟨by rw [hins], ?_⟩
  rw [hins]
  dsimp only
  rw [hM2]
  have hby : ∀ j ∈ A1 ++ B1, pieceBytes Xd j = pieceBytes c j := by
    intro j hj
    rw [hXd]
    exact (@pieceBytes_congr (insert_slow_shape (revision_purge c) o s rA rB)
      { insert_slow_shape (revision_purge c) o s rA rB with dirty := true }
      rfl rfl j).trans (hXbytes j hj)
  have e1 : A1.map (pieceBytes Xd) = A1.map (pieceBytes c) :=
    List.map_congr_left fun j hj => hby j (List.mem_append.mpr (Or.inl hj))
  have e2 : B1.map (pieceBytes Xd) = B1.map (pieceBytes c) :=
    List.map_congr_left fun j hj => hby j (List.mem_append.mpr (Or.inr hj))
  rw [e1, e2, contents_of_chainRep hrep, List.map_append, List.flatten_append]

theorem insert_dest_dirty (c : PieceChain) (n : Nat) :
    (insert_dest c n).dirty = c.dirty := by
  unfold insert_dest
  split <;> rfl

theorem getD_append3_len0 {α : Type} (l : List α) (a b e d : α) :
    (l ++ [a, b, e]).getD l.length d = a := by
  rw [getD_append_right l [a, b, e] l.length d (Nat.le_refl _)]
  simp

theorem getD_append3_len2 {α : Type} (l : List α) (a b e d : α) :
    (l ++ [a, b, e]).getD (l.length + 2) d = e := by
  rw [getD_append_right l [a, b, e] (l.length + 2) d (by omega)]
  simp

theorem spanLenWalk_step (c : PieceChain) (e s' f j : Nat)
    (hn : (getPiece c s').next = .node j) (hne : s' ≠ e) :
    spanLenWalk c e s' (f + 1) =
      (getPiece c s').size + spanLenWalk c e j f := by
  conv_lhs => unfold spanLenWalk
  rw [if_neg hne, hn]

theorem span_mk_self_append (c2 : PieceChain) (PS L : List Piece) (p : Nat)
    (hp : c2.pieces = PS ++ L) (hplt : p < PS.length) :
    span_mk c2 (some p) (some p) =
      ⟨some p, some p, (PS.getD p default).size⟩ := by
  rw [span_mk_self]
  rw [show getPiece c2 p = PS.getD p default from by
    show c2.pieces.getD p default = _
    rw [hp, getD_append_left _ _ _ _ hplt]]

theorem span_mk_three (c2 : PieceChain) (PS : List Piece) (BP MP AP : Piece)
    (hp : c2.pieces = PS ++ [BP, MP, AP])
    (hBn : BP.next = .node (PS.length + 1))
    (hMn : MP.next = .node (PS.length + 2)) :
    span_mk c2 (some PS.length) (some (PS.length + 2)) =
      ⟨some PS.length, some (PS.length + 2),
       BP.size + (MP.size + AP.size)⟩ := by
  have hg0 : getPiece c2 PS.length = BP := by
    show c2.pieces.getD PS.length default = BP
    rw [hp, getD_append3_len0]
  have hg1 : getPiece c2 (PS.length + 1) = MP := by
    show c2.pieces.getD (PS.length + 1) default = MP
    rw [hp, getD_append3_len1]
  have hg2 : getPiece c2 (PS.length + 2) = AP := by
    show c2.pieces.getD (PS.length + 2) default = AP
    rw [hp, getD_append3_len2]
  have hlen : c2.pieces.length = PS.length + 3 := by
    rw [hp, List.length_append]
    rfl
  rw [span_mk_some, hlen]
  rw [show PS.length + 3 = (PS.length + 2) + 1 from rfl]
  rw [spanLenWalk_step c2 (PS.length + 2) PS.length (PS.length + 2)
    (PS.length + 1) (by rw [hg0]; exact hBn) (by omega)]
  rw [show PS.length + 2 = (PS.length + 1) + 1 from rfl]
  rw [spanLenWalk_step c2 (PS.length + 2) (PS.length + 1) (PS.length + 1)
    (PS.length + 2) (by rw [hg1]; exact hMn) (by omega)]
  rw [spanLenWalk_self, hg0, hg1, hg2]

theorem splice_state_spec2 (c c3 cf : PieceChain) (A B N : List Nat)
    (rA rB v1 v2 tA tP : NodeRef) (z : Nat)
    (hrA : rA = endRef .head A)
    (hrB : rB = startRef B .head)
    (hv1 : v1 = startRef N rB)
    (hv2 : v2 = endRef rA N)
    (hcf : cf = { setPrevOf (setNextOf c3 rA v1) rB v2 with size := z })
    (hnd : (A ++ N ++ B).Nodup)
    (hbw : ∀ i ∈ A ++ N ++ B, i < c3.pieces.length)
    (hAn : nextPath c3 .head A tA = true)
    (hAp : prevPath c3 .head A tP = true)
    (hBn : ∀ b0 B2, B = b0 :: B2 → nextPath c3 (.node b0) B2 .head = true)
    (hBp : ∀ b0 B2, B = b0 :: B2 → prevPath c3 (.node b0) B2 .head = true)
    (hN : ∀ n0 N2, N = n0 :: N2 → getPrevOf c3 (.node n0) = rA ∧
          nextPath c3 (.node n0) N2 rB = true ∧ prevLinks c3 n0 N2)
    (hbytesA : ∀ j ∈ A, pieceBytes c3 j = pieceBytes c j)
    (hbytesB : ∀ j ∈ B, pieceBytes c3 j = pieceBytes c j) :
    chainRep cf (A ++ N ++ B) = true ∧
    contents cf = (A.map (pieceBytes c)).flatten ++
      (N.map (pieceBytes c3)).flatten ++ (B.map (pieceBytes c)).flatten := by
  have hrep0 := chainRep_rewire c3 _ A N B rA rB v1 v2 tA tP hrA hrB hv1 hv2
    rfl hnd hbw hAn hAp hBn hBp hN
  have hrepf : chainRep cf (A ++ N ++ B) = true := by
    refine chainRep_congr ?_ ?_ ?_ hrep0 <;> rw [hcf]
  refine ⟨hrepf, ?_⟩
  have hbytes3 : ∀ j, pieceBytes cf j = pieceBytes c3 j := by
    intro j
    refine pieceBytes_ext j ?_ ?_ ?_ ?_ <;> rw [hcf]
    · show (setPrevOf (setNextOf c3 rA v1) rB v2).blocks = c3.blocks
      rw [setPrevOf_blocks, setNextOf_blocks]
    · show (getPiece (setPrevOf (setNextOf c3 rA v1) rB v2) j).blk = _
      rw [blk_setPrevOf, blk_setNextOf]
    · show (getPiece (setPrevOf (setNextOf c3 rA v1) rB v2) j).off = _
      rw [off_setPrevOf, off_setNextOf]
    · show (getPiece (setPrevOf (setNextOf c3 rA v1) rB v2) j).size = _
      rw [size_setPrevOf, size_setNextOf]
  rw [contents_of_chainRep hrepf, List.map_append, List.map_append,
    List.flatten_append, List.flatten_append]
  have hA : A.map (pieceBytes cf) = A.map (pieceBytes c) :=
    List.map_congr_left fun j hj => (hbytes3 j).trans (hbytesA j hj)
  have hB : B.map (pieceBytes cf) = B.map (pieceBytes c) :=
    List.map_congr_left fun j hj => (hbytes3 j).trans (hbytesB j hj)
  have hNm : N.map (pieceBytes cf) = N.map (pieceBytes c3) :=
    List.map_congr_left fun j _ => hbytes3 j
  rw [hA, hB, hNm]


theorem insert_slow_mid_shape_bridge (c : PieceChain) (offset : Nat)
    (data : List Nat) (p po : Nat)
    (h : ¬ (po = 0 ∨ po = (getPiece c p).size)) :
    insert_slow c offset data (some p) po =
      insert_slow_mid_shape c offset data p po := by
  rw [insert_slow_eq_mid c offset data p po h]
  rfl

theorem insert_slow_mid_shape_eq (c : PieceChain) (o : Nat) (s : List Nat)
    (p po : Nat) (hp : p < c.pieces.length) :
    insert_slow_mid_shape c o s p po =
      span_swap
        { size := c.size, dirty := c.dirty,
          blocks := (insert_dest c s.length).blocks.set
            ((insert_dest c s.length).blocks.length - 1)
            { (insert_dest c s.length).blocks.getD
                ((insert_dest c s.length).blocks.length - 1) default with
              data := ((insert_dest c s.length).blocks.getD
                ((insert_dest c s.length).blocks.length - 1) default).data ++ s },
          pieces := c.pieces ++
            [{ blk := (getPiece c p).blk, off := (getPiece c p).off,
               size := po, prev := (getPiece c p).prev,
               next := .node (c.pieces.length + 1) },
             { blk := (insert_dest c s.length).blocks.length - 1,
               off := ((insert_dest c s.length).blocks.getD
                 ((insert_dest c s.length).blocks.length - 1) default).data.length,
               size := s.length, prev := .node c.pieces.length,
               next := .node (c.pieces.length + 2) },
             { blk := (getPiece c p).blk, off := (getPiece c p).off + po,
               size := (getPiece c p).size - po,
               prev := .node (c.pieces.length + 1),
               next := (getPiece c p).next }],
          headNext := c.headNext, headPrev := c.headPrev,
          cache := some (c.pieces.length + 1),
          revisions := c.revisions, currentRev := c.currentRev,
          pendingChanges := c.pendingChanges ++
            [⟨⟨some p, some p, (getPiece c p).size⟩,
              ⟨some c.pieces.length, some (c.pieces.length + 2),
               po + (s.length + ((getPiece c p).size - po))⟩, o⟩] }
        ⟨some p, some p, (getPiece c p).size⟩
        ⟨some c.pieces.length, some (c.pieces.length + 2),
         po + (s.length + ((getPiece c p).size - po))⟩ := by
  simp only [insert_slow_mid_shape, cache_put]
  rw [insert_dest_pieces, insert_dest_size, insert_dest_dirty,
    insert_dest_headNext, insert_dest_headPrev, insert_dest_revisions,
    insert_dest_currentRev, insert_dest_pendingChanges]
  rw [span_mk_self_append _ c.pieces _ p rfl hp]
  rw [span_mk_three _ c.pieces _ _ _ rfl rfl rfl]
  rfl

theorem insert_mid_state (c cp : PieceChain) (o : Nat) (s : List Nat)
    (A B : List Nat) (p po : Nat)
    (hcpp : cp.pieces = c.pieces) (hcpb : cp.blocks = c.blocks)
    (hcpn : cp.headNext = c.headNext) (hcpv : cp.headPrev = c.headPrev)
    (hcps : cp.size = c.size) (hcpd : cp.pendingChanges = [])
    (hrep : chainRep c (A ++ p :: B) = true)
    (hsize : c.size = sumS c (A ++ p :: B))
    (hbounds : boundsOk c (A ++ p :: B) = true)
    (hsne : s ≠ [])
    (hpo0 : po ≠ 0)
    (hpolt : po < (getPiece c p).size) :
    chainRep (insert_slow_mid_shape cp o s p po)
      (A ++ [c.pieces.length, c.pieces.length + 1, c.pieces.length + 2] ++ B)
      = true ∧
    (insert_slow_mid_shape cp o s p po).size = c.size + s.length ∧
    (insert_slow_mid_shape cp o s p po).cache = some (c.pieces.length + 1) ∧
    (insert_slow_mid_shape cp o s p po).pieces.length =
      c.pieces.length + 3 ∧
    (∃ D blkX, (D = c.blocks ∨ D = c.blocks ++ [block_alloc s.length]) ∧
      blkX = { D.getD (D.length - 1) default with
        data := (D.getD (D.length - 1) default).data ++ s } ∧
      (insert_slow_mid_shape cp o s p po).blocks = D.set (D.length - 1) blkX ∧
      (insert_slow_mid_shape cp o s p po).blocks.getLast? = some blkX) ∧
    (insert_slow_mid_shape cp o s p po).revisions = cp.revisions ∧
    (insert_slow_mid_shape cp o s p po).currentRev = cp.currentRev ∧
    (insert_slow_mid_shape cp o s p po).pendingChanges =
      [⟨⟨some p, some p, (getPiece c p).size⟩,
        ⟨some c.pieces.length, some (c.pieces.length + 2),
         po + (s.length + ((getPiece c p).size - po))⟩, o⟩] ∧
    (∀ j, j < c.pieces.length →
      (getPiece (insert_slow_mid_shape cp o s p po) j).blk =
        (getPiece c j).blk ∧
      (getPiece (insert_slow_mid_shape cp o s p po) j).off =
        (getPiece c j).off ∧
      (getPiece (insert_slow_mid_shape cp o s p po) j).size =
        (getPiece c j).size) ∧
    getPiece (insert_slow_mid_shape cp o s p po) p = getPiece c p ∧
    getPiece (insert_slow_mid_shape cp o s p po) c.pieces.length =
      { blk := (getPiece c p).blk, off := (getPiece c p).off, size := po,
        prev := (getPiece c p).prev, next := .node (c.pieces.length + 1) } ∧
    (getPiece (insert_slow_mid_shape cp o s p po) (c.pieces.length + 1)).size =
      s.length ∧
    getPiece (insert_slow_mid_shape cp o s p po) (c.pieces.length + 2) =
      { blk := (getPiece c p).blk, off := (getPiece c p).off + po,
        size := (getPiece c p).size - po,
        prev := .node (c.pieces.length + 1), next := (getPiece c p).next } := by
  have hs0 : s.length ≠ 0 := fun h0 => hsne (List.eq_nil_of_length_eq_zero h0)
  obtain ⟨hnp, hpp, hndO, hbnd⟩ := chainRep_parts hrep
  have hplt : p < c.pieces.length := hbnd p (by simp)
  obtain ⟨hbefore, hafter⟩ := chainRep_hinges hrep
  have hndsplit := List.nodup_append.mp hndO
  have hpA : p ∉ A := fun h => hndsplit.2.2 h (List.mem_cons_self p B)
  have hpB : p ∉ B := (List.nodup_cons.mp hndsplit.2.1).1
  have hAbnd : ∀ i ∈ A, i < c.pieces.length := fun i hi =>
    hbnd i (List.mem_append.mpr (Or.inl hi))
  have hBbnd : ∀ i ∈ B, i < c.pieces.length := fun i hi =>
    hbnd i (List.mem_append.mpr (Or.inr (List.mem_cons_of_mem p hi)))
  obtain ⟨D, hD⟩ : ∃ D, D = (insert_dest cp s.length).blocks := ⟨_, rfl⟩
  obtain ⟨bb, hbb⟩ : ∃ bb, bb = D.getD (D.length - 1) default := ⟨_, rfl⟩
  obtain ⟨BN, hBN⟩ :
      ∃ BN, BN = D.set (D.length - 1) { bb with data := bb.data ++ s } :=
    ⟨_, rfl⟩
  obtain ⟨BPL, hBPL⟩ : ∃ P : Piece, P =
      { blk := (getPiece c p).blk, off := (getPiece c p).off, size := po,
        prev := (getPiece c p).prev, next := .node (c.pieces.length + 1) } :=
    ⟨_, rfl⟩
  obtain ⟨MPL, hMPL⟩ : ∃ P : Piece, P =
      { blk := D.length - 1, off := bb.data.length, size := s.length,
        prev := .node c.pieces.length, next := .node (c.pieces.length + 2) } :=
    ⟨_, rfl⟩
  obtain ⟨APL, hAPL⟩ : ∃ P : Piece, P =
      { blk := (getPiece c p).blk, off := (getPiece c p).off + po,
        size := (getPiece c p).size - po,
        prev := .node (c.pieces.length + 1), next := (getPiece c p).next } :=
    ⟨_, rfl⟩
  have hplt' : p < cp.pieces.length := by rw [hcpp]; exact hplt
  have hX0eq := insert_slow_mid_shape_eq cp o s p po hplt'
  rw [getPiece_congr hcpp p] at hX0eq
  rw [hcpp, hcps, hcpn, hcpv, hcpd, List.nil_append] at hX0eq
  rw [← hD] at hX0eq
  rw [← hbb] at hX0eq
  rw [← hBPL] at hX0eq
  rw [← hMPL] at hX0eq
  rw [← hAPL] at hX0eq
  rw [← hBN] at hX0eq
  obtain ⟨base3, hbase3⟩ : ∃ b, b =
      ({ size := c.size, dirty := cp.dirty, blocks := BN,
         pieces := c.pieces ++ [BPL, MPL, APL],
         headNext := c.headNext, headPrev := c.headPrev,
         cache := some (c.pieces.length + 1),
         revisions := cp.revisions, currentRev := cp.currentRev,
         pendingChanges :=
           [⟨⟨some p, some p, (getPiece c p).size⟩,
             ⟨some c.pieces.length, some (c.pieces.length + 2),
              po + (s.length + ((getPiece c p).size - po))⟩, o⟩] } :
        PieceChain) :=
    ⟨_, rfl⟩
  rw [← hbase3] at hX0eq
  have hDne : D ≠ [] := by rw [hD]; exact insert_dest_blocks_ne cp s.length
  have hDpos : 0 < D.length := List.length_pos.mpr hDne
  have hDor : D = c.blocks ∨ D = c.blocks ++ [block_alloc s.length] := by
    rw [hD, ← hcpb]
    rcases insert_dest_eq cp s.length with h | h <;> rw [h]
    · exact Or.inl rfl
    · exact Or.inr rfl
  have hb3p : base3.pieces = c.pieces ++ [BPL, MPL, APL] := by rw [hbase3]
  have hb3b : base3.blocks = BN := by rw [hbase3]
  have hb3n : base3.headNext = c.headNext := by rw [hbase3]
  have hb3v : base3.headPrev = c.headPrev := by rw [hbase3]
  have hb3s : base3.size = c.size := by rw [hbase3]
  have hlen3 : base3.pieces.length = c.pieces.length + 3 := by
    rw [hb3p, List.length_append]
    rfl
  have hg0 : getPiece base3 c.pieces.length = BPL := by
    show base3.pieces.getD _ _ = _
    rw [hb3p, getD_append3_len0]
  have hg1 : getPiece base3 (c.pieces.length + 1) = MPL := by
    show base3.pieces.getD _ _ = _
    rw [hb3p, getD_append3_len1]
  have hg2 : getPiece base3 (c.pieces.length + 2) = APL := by
    show base3.pieces.getD _ _ = _
    rw [hb3p, getD_append3_len2]
  have hgold : ∀ j, j < c.pieces.length → getPiece base3 j = getPiece c j :=
    fun j hj => getPiece_grow hb3p hj
  have hgp3 : getPrevOf base3 (.node p) = endRef .head A := by
    show (getPiece base3 p).prev = _
    rw [hgold p hplt]
    exact hbefore
  have hvA : validRef base3 (endRef .head A) := by
    rcases endRef_eq_or .head A with ⟨_, h2⟩ | ⟨x, hx, h2⟩
    · rw [h2]; trivial
    · rw [h2]
      show x < base3.pieces.length
      rw [hlen3]
      have := hAbnd x (mem_of_getLast_some hx)
      omega
  have hpneA : (NodeRef.node p) ≠ endRef .head A := by
    rcases endRef_eq_or .head A with ⟨_, h2⟩ | ⟨x, hx, h2⟩
    · rw [h2]
      intro hcon
      exact NodeRef.noConfusion hcon
    · rw [h2]
      intro hcon
      have hx2 : p = x := by injection hcon
      exact hpA (hx2 ▸ mem_of_getLast_some hx)
  have hfrneA : ∀ k, c.pieces.length ≤ k → (NodeRef.node k) ≠ endRef .head A := by
    intro k hk
    rcases endRef_eq_or .head A with ⟨_, h2⟩ | ⟨x, hx, h2⟩
    · rw [h2]
      intro hcon
      exact NodeRef.noConfusion hcon
    · rw [h2]
      intro hcon
      have hx2 : k = x := by injection hcon
      have := hAbnd x (mem_of_getLast_some hx)
      omega
  have hfrneB : ∀ k, c.pieces.length ≤ k → (startRef B .head) ≠ (NodeRef.node k) := by
    intro k hk
    rcases startRef_eq_or B .head with ⟨_, h2⟩ | ⟨x, hx, h2⟩
    · rw [h2]
      intro hcon
      exact NodeRef.noConfusion hcon
    · rw [h2]
      intro hcon
      have hx2 : x = k := by injection hcon
      have := hBbnd x (mem_of_head_some hx)
      omega
  have hpneB : (startRef B .head) ≠ (NodeRef.node p) := by
    rcases startRef_eq_or B .head with ⟨_, h2⟩ | ⟨x, hx, h2⟩
    · rw [h2]
      intro hcon
      exact NodeRef.noConfusion hcon
    · rw [h2]
      intro hcon
      have hx2 : x = p := by injection hcon
      exact hpB (hx2 ▸ mem_of_head_some hx)
  have hin3 : getNextOf (setNextOf base3 (endRef .head A)
      (.node c.pieces.length)) (.node p) = startRef B .head := by
    rw [getNextOf_setNextOf base3 _ _ hvA (.node p), if_neg hpneA]
    show (getPiece base3 p).next = _
    rw [hgold p hplt]
    exact hafter
  have hPCS : (getPiece c p).size ≠ 0 := by omega
  have hLEN3 : po + (s.length + ((getPiece c p).size - po)) ≠ 0 := by omega
  have hX0 : insert_slow_mid_shape cp o s p po =
      { setPrevOf (setNextOf base3 (endRef .head A) (.node c.pieces.length))
          (startRef B .head) (.node (c.pieces.length + 2)) with
        size := base3.size - (getPiece c p).size +
          (po + (s.length + ((getPiece c p).size - po))) } := by
    rw [hX0eq, span_swap_mixed_eq _ _ _ _ _ _ _ hPCS hLEN3, hgp3, hin3]
  have hX0blocks : (insert_slow_mid_shape cp o s p po).blocks = BN := by
    rw [hX0]
    show (setPrevOf (setNextOf base3 _ _) _ _).blocks = BN
    rw [setPrevOf_blocks, setNextOf_blocks, hb3b]
  have hX0cache : (insert_slow_mid_shape cp o s p po).cache =
      some (c.pieces.length + 1) := by
    rw [hX0]
    show (setPrevOf (setNextOf base3 _ _) _ _).cache = _
    rw [setPrevOf_cache, setNextOf_cache, hbase3]
  have hX0pend : (insert_slow_mid_shape cp o s p po).pendingChanges =
      [⟨⟨some p, some p, (getPiece c p).size⟩,
        ⟨some c.pieces.length, some (c.pieces.length + 2),
         po + (s.length + ((getPiece c p).size - po))⟩, o⟩] := by
    rw [hX0]
    show (setPrevOf (setNextOf base3 _ _) _ _).pendingChanges = _
    rw [setPrevOf_pendingChanges, setNextOf_pendingChanges, hbase3]
  have hX0rev : (insert_slow_mid_shape cp o s p po).revisions =
      cp.revisions := by
    rw [hX0]
    show (setPrevOf (setNextOf base3 _ _) _ _).revisions = _
    rw [setPrevOf_revisions, setNextOf_revisions, hbase3]
  have hX0cur : (insert_slow_mid_shape cp o s p po).currentRev =
      cp.currentRev := by
    rw [hX0]
    show (setPrevOf (setNextOf base3 _ _) _ _).currentRev = _
    rw [setPrevOf_currentRev, setNextOf_currentRev, hbase3]
  have hX0size : (insert_slow_mid_shape cp o s p po).size =
      c.size + s.length := by
    rw [hX0]
    show base3.size - (getPiece c p).size +
      (po + (s.length + ((getPiece c p).size - po))) = _
    rw [hb3s]
    have hple : (getPiece c p).size ≤ c.size := by
      rw [hsize, sumS_append, sumS_cons]
      omega
    omega
  have hX0blk : ∀ j, (getPiece (insert_slow_mid_shape cp o s p po) j).blk =
      (getPiece base3 j).blk := by
    intro j
    rw [hX0]
    show (getPiece (setPrevOf (setNextOf base3 _ _) _ _) j).blk = _
    rw [blk_setPrevOf, blk_setNextOf]
  have hX0off : ∀ j, (getPiece (insert_slow_mid_shape cp o s p po) j).off =
      (getPiece base3 j).off := by
    intro j
    rw [hX0]
    show (getPiece (setPrevOf (setNextOf base3 _ _) _ _) j).off = _
    rw [off_setPrevOf, off_setNextOf]
  have hX0szj : ∀ j, (getPiece (insert_slow_mid_shape cp o s p po) j).size =
      (getPiece base3 j).size := by
    intro j
    rw [hX0]
    show (getPiece (setPrevOf (setNextOf base3 _ _) _ _) j).size = _
    rw [size_setPrevOf, size_setNextOf]
  have hX0g : ∀ j, (NodeRef.node j) ≠ endRef .head A →
      (startRef B .head) ≠ (NodeRef.node j) →
      getPiece (insert_slow_mid_shape cp o s p po) j = getPiece base3 j := by
    intro j h1 h2
    rw [hX0]
    show getPiece (setPrevOf (setNextOf base3 (endRef .head A)
      (.node c.pieces.length)) (startRef B .head)
      (.node (c.pieces.length + 2))) j = _
    rw [getPiece_setPrevOf, if_neg (fun hc => h2 hc.1),
      getPiece_setNextOf, if_neg (fun hc => h1 hc.1.symm)]
  have hBNlen : BN.length = D.length := by
    rw [hBN]
    exact List.length_set D _ _
  have hBNlast : BN.getD (D.length - 1) default =
      { bb with data := bb.data ++ s } := by
    rw [hBN]
    exact getD_set_self D _ _ default (by omega)
  have hBNgetLast : BN.getLast? = some { bb with data := bb.data ++ s } := by
    rw [hBN]
    exact getLast?_set_last D _ hDne
  -- chain representation after the splice
  have hAn0 : nextPath c .head A (startRef (p :: B) .head) = true :=
    ((nextPath_append c A .head .head (p :: B)).mp hnp).1
  have hAp0 : prevPath c .head A (startRef (p :: B) .head) = true :=
    ((prevPath_append c A .head .head (p :: B)).mp hpp).1
  have hpBn : nextPath c (.node p) B .head = true :=
    ((nextPath_append c A .head .head (p :: B)).mp hnp).2
  have hpBp : prevPath c (.node p) B .head = true :=
    ((prevPath_append c A .head .head (p :: B)).mp hpp).2
  have hB1n : ∀ b0 B2, B = b0 :: B2 →
      nextPath c (.node b0) B2 .head = true := by
    intro b0 B2 hB
    rw [hB] at hpBn
    rw [show nextPath c (.node p) (b0 :: B2) .head =
        (decide (getNextOf c (.node p) = .node b0) &&
          nextPath c (.node b0) B2 .head) from rfl,
      Bool.and_eq_true] at hpBn
    exact hpBn.2
  have hB1p : ∀ b0 B2, B = b0 :: B2 →
      prevPath c (.node b0) B2 .head = true := by
    intro b0 B2 hB
    rw [hB] at hpBp
    rw [show prevPath c (.node p) (b0 :: B2) .head =
        (decide (getPrevOf c (.node b0) = .node p) &&
          prevPath c (.node b0) B2 .head) from rfl,
      Bool.and_eq_true] at hpBp
    exact hpBp.2
  have htB : match startRef (p :: B) .head with
      | NodeRef.head => True | NodeRef.node j => j < c.pieces.length := hplt
  have hAnb : nextPath base3 .head A (startRef (p :: B) .head) = true := by
    rw [nextPath_grow hb3p hb3n A .head _ hAbnd trivial]
    exact hAn0
  have hApb : prevPath base3 .head A (startRef (p :: B) .head) = true := by
    rw [prevPath_grow hb3p hb3v A .head _ hAbnd htB]
    exact hAp0
  have hB1nb : ∀ b0 B2, B = b0 :: B2 →
      nextPath base3 (.node b0) B2 .head = true := by
    intro b0 B2 hB
    rw [nextPath_grow hb3p hb3n B2 (.node b0) .head
      (fun i hi => hBbnd i (by rw [hB]; exact List.mem_cons_of_mem b0 hi))
      (hBbnd b0 (by rw [hB]; exact List.mem_cons_self b0 B2))]
    exact hB1n b0 B2 hB
  have hB1pb : ∀ b0 B2, B = b0 :: B2 →
      prevPath base3 (.node b0) B2 .head = true := by
    intro b0 B2 hB
    rw [prevPath_grow hb3p hb3v B2 (.node b0) .head
      (fun i hi => hBbnd i (by rw [hB]; exact List.mem_cons_of_mem b0 hi))
      trivial]
    exact hB1p b0 B2 hB
  have hndAB : (A ++ [p] ++ B).Nodup := by simpa using hndO
  have hndAB2 : (A ++ B).Nodup := nodup_mid_of_split A [p] B hndAB
  have hbndAB : ∀ i ∈ A ++ B, i < c.pieces.length := by
    intro i hi
    rcases List.mem_append.mp hi with h | h
    · exact hAbnd i h
    · exact hBbnd i h
  have hnd3 : (A ++ [c.pieces.length, c.pieces.length + 1,
      c.pieces.length + 2] ++ B).Nodup := by
    refine nodup_splice_fresh A B _ c.pieces.length hndAB2 hbndAB ?_ ?_
    · refine List.nodup_cons.mpr ⟨?_, List.nodup_cons.mpr
        ⟨?_, List.nodup_singleton _⟩⟩ <;> simp <;> omega
    · intro n hn
      rcases List.mem_cons.mp hn with h | h
      · omega
      · rcases List.mem_cons.mp h with h | h
        · omega
        · rw [List.mem_singleton] at h
          omega
  have hbw3 : ∀ i ∈ A ++ [c.pieces.length, c.pieces.length + 1,
      c.pieces.length + 2] ++ B, i < base3.pieces.length := by
    intro i hi
    rw [hlen3]
    rw [List.append_assoc, List.mem_append] at hi
    rcases hi with h | h
    · have := hAbnd i h
      omega
    · rcases List.mem_cons.mp h with h | h
      · omega
      · rcases List.mem_cons.mp h with h | h
        · omega
        · rcases List.mem_cons.mp h with h | h
          · omega
          · have := hBbnd i h
            omega
  have hNfact : ∀ n0 N2,
      ([c.pieces.length, c.pieces.length + 1, c.pieces.length + 2] :
        List Nat) = n0 :: N2 →
      getPrevOf base3 (.node n0) = endRef .head A ∧
      nextPath base3 (.node n0) N2 (startRef B .head) = true ∧
      prevLinks base3 n0 N2 := by
    intro n0 N2 hN
    have h1 : c.pieces.length = n0 := (List.cons.inj hN).1
    have h2 : N2 = [c.pieces.length + 1, c.pieces.length + 2] :=
      (List.cons.inj hN).2.symm
    subst h2
    rw [← h1]
    refine ⟨?_, ?_, ?_, ?_, trivial⟩
    · show (getPiece base3 c.pieces.length).prev = _
      rw [hg0, hBPL]
      exact hbefore
    · show (decide (getNextOf base3 (.node c.pieces.length) =
          .node (c.pieces.length + 1)) &&
        (decide (getNextOf base3 (.node (c.pieces.length + 1)) =
          .node (c.pieces.length + 2)) &&
         decide (getNextOf base3 (.node (c.pieces.length + 2)) =
          startRef B .head))) = true
      have e0 : getNextOf base3 (.node c.pieces.length) =
          .node (c.pieces.length + 1) := by
        show (getPiece base3 c.pieces.length).next = _
        rw [hg0, hBPL]
      have e1 : getNextOf base3 (.node (c.pieces.length + 1)) =
          .node (c.pieces.length + 2) := by
        show (getPiece base3 (c.pieces.length + 1)).next = _
        rw [hg1, hMPL]
      have e2 : getNextOf base3 (.node (c.pieces.length + 2)) =
          startRef B .head := by
        show (getPiece base3 (c.pieces.length + 2)).next = _
        rw [hg2, hAPL]
        exact hafter
      rw [e0, e1, e2]
      simp
    · show getPrevOf base3 (.node (c.pieces.length + 1)) = _
      show (getPiece base3 (c.pieces.length + 1)).prev = _
      rw [hg1, hMPL]
    · show (getPiece base3 (c.pieces.length + 2)).prev = _
      rw [hg2, hAPL]
  obtain ⟨hXr0, _⟩ := splice_state_spec2 base3 base3 _
    A B [c.pieces.length, c.pieces.length + 1, c.pieces.length + 2]
    (endRef .head A) (startRef B .head) (.node c.pieces.length)
    (.node (c.pieces.length + 2)) (startRef (p :: B) .head)
    (startRef (p :: B) .head)
    (base3.size - (getPiece c p).size +
      (po + (s.length + ((getPiece c p).size - po))))
    rfl rfl rfl rfl rfl hnd3 hbw3 hAnb hApb hB1nb hB1pb hNfact
    (fun j _ => rfl) (fun j _ => rfl)
  have hXrep : chainRep (insert_slow_mid_shape cp o s p po)
      (A ++ [c.pieces.length, c.pieces.length + 1, c.pieces.length + 2] ++ B)
      = true := by
    rw [hX0]
    exact hXr0
  have hX0plen : (insert_slow_mid_shape cp o s p po).pieces.length =
      c.pieces.length + 3 := by
    rw [hX0]
    show (setPrevOf (setNextOf base3 _ _) _ _).pieces.length = _
    rw [setPrevOf_pieces_length, setNextOf_pieces_length, hlen3]
  refine ⟨hXrep, hX0size, hX0cache, hX0plen,
    ⟨D, { bb with data := bb.data ++ s }, hDor, by rw [hbb], ?_, ?_⟩,
    hX0rev, hX0cur, hX0pend, ?_, ?_, ?_, ?_, ?_⟩
  · rw [hX0blocks, hBN]
  · rw [hX0blocks]
    exact hBNgetLast
  · intro j hj
    refine ⟨?_, ?_, ?_⟩
    · rw [hX0blk j, hgold j hj]
    · rw [hX0off j, hgold j hj]
    · rw [hX0szj j, hgold j hj]
  · rw [hX0g p hpneA hpneB, hgold p hplt]
  · rw [hX0g c.pieces.length (hfrneA _ (Nat.le_refl _))
      (hfrneB _ (Nat.le_refl _)), hg0, hBPL]
  · rw [hX0szj (c.pieces.length + 1), hg1, hMPL]
  · rw [hX0g (c.pieces.length + 2) (hfrneA _ (by omega))
      (hfrneB _ (by omega)), hg2, hAPL]

theorem getPiece_cache_delete_ne (X : PieceChain) (mid poff L : Nat)
    (blk : Block) (j : Nat) (hj : mid ≠ j) :
    getPiece (cache_delete_state X mid poff L blk) j = getPiece X j := by
  show (X.pieces.set mid _).getD j default = _
  rw [getD_set_ne _ _ _ _ _ hj]
  rfl

theorem cache_delete_state_pieces_length (X : PieceChain)
    (mid poff L : Nat) (blk : Block) :
    (cache_delete_state X mid poff L blk).pieces.length = X.pieces.length := by
  show (X.pieces.set _ _).length = _
  exact List.length_set _ _ _

theorem chainRep_cache_delete_state (X : PieceChain) (mid poff L : Nat)
    (blk : Block) {ids : List Nat} (h : chainRep X ids = true) :
    chainRep (cache_delete_state X mid poff L blk) ids = true :=
  chainRep_set_piece mid _ rfl rfl rfl rfl rfl h

theorem cache_delete_restore (X : PieceChain) (mid L : Nat) (s : List Nat)
    (D : List Block) (blkX : Block)
    (hbsz : blkX.size = (D.getD (D.length - 1) default).size)
    (hbdata : blkX.data = (D.getD (D.length - 1) default).data ++ s)
    (hXb : X.blocks = D.set (D.length - 1) blkX)
    (hmsz : (getPiece X mid).size = L)
    (hL : L = s.length)
    (hDne : D ≠ []) :
    (cache_delete_state X mid 0 L blkX).blocks = D := by
  have hDpos : 0 < D.length := List.length_pos.mpr hDne
  have hset : ({ blkX with data := (blkX.data.take
      (blkX.data.length - ((getPiece X mid).size - 0)) ++
      blkX.data.drop
        (blkX.data.length - ((getPiece X mid).size - 0) + L)) } : Block) =
      D.getD (D.length - 1) default := by
    show Block.mk blkX.size
      (blkX.data.take (blkX.data.length - ((getPiece X mid).size - 0)) ++
       blkX.data.drop
         (blkX.data.length - ((getPiece X mid).size - 0) + L)) = _
    rw [hbdata, hbsz]
    rw [show (getPiece X mid).size - 0 = s.length from by omega]
    rw [hL]
    rw [restore_block]
  show X.blocks.set (X.blocks.length - 1)
    { blkX with data := (blkX.data.take
      (blkX.data.length - ((getPiece X mid).size - 0)) ++
      blkX.data.drop
        (blkX.data.length - ((getPiece X mid).size - 0) + L)) } = D
  rw [hset]
  have hXlen : X.blocks.length = D.length := by
    rw [hXb, List.length_set]
  rw [hXlen, hXb, List.set_set]
  exact set_getD_self_eq D _ default (by omega)

theorem roundtrip_mid (c : PieceChain) (o : Nat) (s : List Nat)
    (A B : List Nat) (p po : Nat)
    (hrep : chainRep c (A ++ p :: B) = true)
    (hsize : c.size = sumS c (A ++ p :: B))
    (hbounds : boundsOk c (A ++ p :: B) = true)
    (hcok : cacheOk c (A ++ p :: B) = true)
    (hpend : c.pendingChanges = [])
    (hrne : c.revisions ≠ [])
    (hrlt : c.currentRev < c.revisions.length)
    (hsne : s ≠ [])
    (hsum : sumS c A + po = o)
    (hpo0 : po ≠ 0)
    (hpolt : po < (getPiece c p).size)
    (hfind : insert_find c o = some (some p, po))
    (ho : ¬ (o > c.size)) :
    (piece_chain_insert c o s).1 = true ∧
    contents (piece_chain_undo
      (piece_chain_commit
        (piece_chain_delete (piece_chain_insert c o s).2 o s.length).2).2).2.1 =
      contents c := by
  have hs0 : s.length ≠ 0 := fun h0 => hsne (List.eq_nil_of_length_eq_zero h0)
  obtain ⟨hcr, hcrne⟩ := revision_purge_last c hrne hrlt
  obtain ⟨Xd, hXd⟩ : ∃ X, X =
      ({ insert_slow_mid_shape (revision_purge c) o s p po with
        dirty := true } : PieceChain) := ⟨_, rfl⟩
  have hmidc : ¬ (po = 0 ∨ po = (getPiece (revision_purge c) p).size) := by
    rw [getPiece_congr (revision_purge_pieces c) p]
    rintro (h | h)
    · exact hpo0 h
    · omega
  have hins : piece_chain_insert c o s = (true, Xd) := by
    rw [hXd]
    unfold piece_chain_insert
    rw [if_neg hs0, if_neg ho, hfind]
    dsimp only
    rw [insert_fast_none _ (some p) po s
      (by rw [revision_purge_cache]; exact cache_none_of_no_pending hcok hpend)]
    dsimp only
    rw [insert_slow_mid_shape_bridge _ o s p po hmidc]
  obtain ⟨hXrep0, hX0size, hX0cache, hX0plen, ⟨D, blkX, hDor, hblkX, hX0blocks,
    hX0last⟩, hX0rev, hX0cur, hX0pend, hX0old, hX0p, hX0bid, hX0mid, hX0aid⟩ :=
    insert_mid_state c (revision_purge c) o s A B p po
      (revision_purge_pieces c) (revision_purge_blocks c)
      (revision_purge_headNext c) (revision_purge_headPrev c)
      (revision_purge_size c)
      (by rw [revision_purge_pendingChanges]; exact hpend)
      hrep hsize hbounds hsne hpo0 hpolt
  obtain ⟨_, _, hndO, hbnd⟩ := chainRep_parts hrep
  have hAbnd : ∀ i ∈ A, i < c.pieces.length := fun i hi =>
    hbnd i (List.mem_append.mpr (Or.inl hi))
  have hBbnd : ∀ i ∈ B, i < c.pieces.length := fun i hi =>
    hbnd i (List.mem_append.mpr (Or.inr (List.mem_cons_of_mem p hi)))
  have hpbnd : p < c.pieces.length :=
    hbnd p (List.mem_append.mpr (Or.inr (List.mem_cons_self p B)))
  have hgXd : ∀ j, getPiece Xd j =
      getPiece (insert_slow_mid_shape (revision_purge c) o s p po) j := by
    intro j
    rw [hXd]
    rfl
  have hrepXd : chainRep Xd (A ++ [c.pieces.length, c.pieces.length + 1,
      c.pieces.length + 2] ++ B) = true := by
    rw [hXd]
    exact (@chainRep_congr_eq (insert_slow_mid_shape (revision_purge c) o s p po)
      { insert_slow_mid_shape (revision_purge c) o s p po with dirty := true }
      (A ++ [c.pieces.length, c.pieces.length + 1, c.pieces.length + 2] ++ B)
      rfl rfl rfl).trans hXrep0
  have hlisteq : A ++ [c.pieces.length, c.pieces.length + 1,
      c.pieces.length + 2] ++ B =
      (A ++ [c.pieces.length]) ++
        (c.pieces.length + 1) :: (c.pieces.length + 2) :: B := by
    simp
  have hrepXd2 := hrepXd
  rw [hlisteq] at hrepXd2
  have hndsz : (getPiece Xd c.pieces.length).size = po := by
    rw [hgXd, hX0bid]
  have hnd1sz : (getPiece Xd (c.pieces.length + 1)).size = s.length := by
    rw [hgXd]
    exact hX0mid
  have hnd2sz : (getPiece Xd (c.pieces.length + 2)).size =
      (getPiece c p).size - po := by
    rw [hgXd, hX0aid]
  have hszA : ∀ j ∈ A, (getPiece Xd j).size = (getPiece c j).size := by
    intro j hj
    rw [hgXd]
    exact (hX0old j (hAbnd j hj)).2.2
  have hszB : ∀ j ∈ B, (getPiece Xd j).size = (getPiece c j).size := by
    intro j hj
    rw [hgXd]
    exact (hX0old j (hBbnd j hj)).2.2
  have hsz2 : Xd.size =
      sumS Xd ((A ++ [c.pieces.length]) ++
        (c.pieces.length + 1) :: (c.pieces.length + 2) :: B) := by
    have hXsz : Xd.size = c.size + s.length := by rw [hXd]; exact hX0size
    have e1 : sumS Xd A = sumS c A := sumS_pointwise hszA
    have e2 : sumS Xd B = sumS c B := sumS_pointwise hszB
    rw [hXsz, sumS_append, sumS_append, sumS_cons, sumS_cons, sumS_cons,
      sumS_nil, e1, e2, hndsz, hnd1sz, hnd2sz, hsize, sumS_append, sumS_cons]
    omega
  have hsum2 : sumS Xd (A ++ [c.pieces.length]) = o := by
    rw [sumS_append, sumS_pointwise hszA, sumS_cons, sumS_nil, hndsz]
    omega
  have hca2 : Xd.cache = some (c.pieces.length + 1) := by
    rw [hXd]
    exact hX0cache
  have hbl2 : Xd.blocks.getLast? = some blkX := by
    rw [hXd]
    exact hX0last
  have hrne2 : Xd.revisions ≠ [] := by
    rw [hXd]
    show (insert_slow_mid_shape (revision_purge c) o s p po).revisions ≠ []
    rw [hX0rev]
    exact hcrne
  have hcur2 : Xd.currentRev = Xd.revisions.length - 1 := by
    rw [hXd]
    show (insert_slow_mid_shape (revision_purge c) o s p po).currentRev =
      (insert_slow_mid_shape (revision_purge c) o s p po).revisions.length - 1
    rw [hX0rev, hX0cur]
    exact hcr
  obtain ⟨W0, hW0⟩ : ∃ w, w = cache_delete_state Xd (c.pieces.length + 1) 0
      s.length blkX := ⟨_, rfl⟩
  have hdel : piece_chain_delete Xd o s.length =
      (true, { W0 with dirty := true }) := by
    rw [hW0]
    exact delete_fast_on_cached Xd o s.length (A ++ [c.pieces.length])
      ((c.pieces.length + 2) :: B) (c.pieces.length + 1) blkX
      hrepXd2 hsz2 hsum2 hnd1sz hs0 hca2 hbl2 hrne2 hcur2
  have hpbB := boundsOk_mem hbounds
    (List.mem_append.mpr (Or.inr (List.mem_cons_self p B)))
  have hDne : D ≠ [] := by
    rcases hDor with h | h
    · rw [h]
      intro h0
      have h1 := hpbB.1
      rw [h0] at h1
      simp at h1
    · rw [h]
      simp
  have hbsz : blkX.size = (D.getD (D.length - 1) default).size := by
    rw [hblkX]
  have hbdata : blkX.data = (D.getD (D.length - 1) default).data ++ s := by
    rw [hblkX]
  have hXdb : Xd.blocks = D.set (D.length - 1) blkX := by
    rw [hXd]
    exact hX0blocks
  have hW0blocks : W0.blocks = D := by
    rw [hW0]
    exact cache_delete_restore Xd (c.pieces.length + 1) s.length s D blkX
      hbsz hbdata hXdb hnd1sz rfl hDne
  have hgW : ∀ j, (c.pieces.length + 1) ≠ j → getPiece W0 j = getPiece Xd j :=
    fun j hj => by
      rw [hW0]
      exact getPiece_cache_delete_ne Xd _ 0 s.length blkX j hj
  have hXdplen : Xd.pieces.length = c.pieces.length + 3 := by
    rw [hXd]
    exact hX0plen
  have hWplen : W0.pieces.length = c.pieces.length + 3 := by
    rw [hW0, cache_delete_state_pieces_length]
    exact hXdplen
  have hrepW : chainRep W0 (A ++ [c.pieces.length, c.pieces.length + 1,
      c.pieces.length + 2] ++ B) = true := by
    rw [hW0]
    exact chainRep_cache_delete_state Xd _ 0 s.length blkX hrepXd
  have hXdpend : Xd.pendingChanges =
      [⟨⟨some p, some p, (getPiece c p).size⟩,
        ⟨some c.pieces.length, some (c.pieces.length + 2),
         po + (s.length + ((getPiece c p).size - po))⟩, o⟩] := by
    rw [hXd]
    exact hX0pend
  have hWpend : ({ W0 with dirty := true } : PieceChain).pendingChanges =
      [⟨⟨some p, some p, (getPiece c p).size⟩,
        ⟨some c.pieces.length, some (c.pieces.length + 2),
         (getPiece c p).size⟩, o⟩] := by
    rw [hW0]
    show updateLast _ Xd.pendingChanges = _
    rw [hXdpend]
    show [(⟨⟨some p, some p, (getPiece c p).size⟩,
      { (⟨some c.pieces.length, some (c.pieces.length + 2),
         po + (s.length + ((getPiece c p).size - po))⟩ : Span) with
        len := (po + (s.length + ((getPiece c p).size - po))) - s.length },
      o⟩ : Change)] = _
    rw [show (po + (s.length + ((getPiece c p).size - po))) - s.length =
      (getPiece c p).size from by omega]
  have hrneW : ({ W0 with dirty := true } : PieceChain).revisions ≠ [] := by
    show W0.revisions ≠ []
    rw [hW0]
    exact hrne2
  have hcu := commit_undo_single ({ W0 with dirty := true })
    ⟨⟨some p, some p, (getPiece c p).size⟩,
     ⟨some c.pieces.length, some (c.pieces.length + 2),
      (getPiece c p).size⟩, o⟩ hWpend hrneW
  refine ⟨by rw [hins], ?_⟩
  rw [hins]
  dsimp only
  rw [hdel]
  dsimp only
  rw [hcu]
  obtain ⟨Z0, hZ0⟩ : ∃ z, z =
      ({ { W0 with dirty := true } with
         revisions := ({ W0 with dirty := true } : PieceChain).revisions ++
           [[⟨⟨some p, some p, (getPiece c p).size⟩,
              ⟨some c.pieces.length, some (c.pieces.length + 2),
               (getPiece c p).size⟩, o⟩]],
         currentRev := ({ W0 with dirty := true } : PieceChain).revisions.length,
         pendingChanges := [], cache := none } : PieceChain) := ⟨_, rfl⟩
  rw [← hZ0]
  dsimp only
  have hPCSne : (getPiece c p).size ≠ 0 := by omega
  rw [span_swap_mixed_eq Z0 c.pieces.length (c.pieces.length + 2) p p
    (getPiece c p).size (getPiece c p).size hPCSne hPCSne]
  have hgZ : ∀ j, getPiece Z0 j = getPiece W0 j := by
    intro j
    rw [hZ0]
    rfl
  have hgZnd : getPiece Z0 c.pieces.length =
      { blk := (getPiece c p).blk, off := (getPiece c p).off, size := po,
        prev := (getPiece c p).prev, next := .node (c.pieces.length + 1) } := by
    rw [hgZ, hgW _ (by omega), hgXd]
    exact hX0bid
  have hgZaid : getPiece Z0 (c.pieces.length + 2) =
      { blk := (getPiece c p).blk, off := (getPiece c p).off + po,
        size := (getPiece c p).size - po,
        prev := .node (c.pieces.length + 1), next := (getPiece c p).next } := by
    rw [hgZ, hgW _ (by omega), hgXd]
    exact hX0aid
  have hgZp : getPiece Z0 p = getPiece c p := by
    rw [hgZ, hgW _ (by omega), hgXd]
    exact hX0p
  obtain ⟨hbefore, hafter⟩ := chainRep_hinges hrep
  have hZplen : Z0.pieces.length = c.pieces.length + 3 := by
    rw [hZ0]
    show W0.pieces.length = _
    exact hWplen
  have hvA : validRef Z0 (endRef .head A) := by
    rcases endRef_eq_or .head A with ⟨_, h2⟩ | ⟨x, hx, h2⟩
    · rw [h2]; trivial
    · rw [h2]
      show x < Z0.pieces.length
      rw [hZplen]
      have := hAbnd x (mem_of_getLast_some hx)
      omega
  have hne22 : (NodeRef.node (c.pieces.length + 2)) ≠ endRef .head A := by
    rcases endRef_eq_or .head A with ⟨_, h2⟩ | ⟨x, hx, h2⟩
    · rw [h2]
      intro hcon
      exact NodeRef.noConfusion hcon
    · rw [h2]
      intro hcon
      have hx2 : c.pieces.length + 2 = x := by injection hcon
      have := hAbnd x (mem_of_getLast_some hx)
      omega
  have hZgb : getPrevOf Z0 (.node c.pieces.length) = endRef .head A := by
    show (getPiece Z0 c.pieces.length).prev = _
    rw [hgZnd]
    exact hbefore
  have hZin : getNextOf (setNextOf Z0 (endRef .head A) (.node p))
      (.node (c.pieces.length + 2)) = startRef B .head := by
    rw [getNextOf_setNextOf Z0 (endRef .head A) (.node p) hvA
      (.node (c.pieces.length + 2))]
    rw [if_neg hne22]
    show (getPiece Z0 (c.pieces.length + 2)).next = _
    rw [hgZaid]
    exact hafter
  rw [hZgb, hZin]
  obtain ⟨CF, hCF⟩ : ∃ x, x =
      ({ setPrevOf (setNextOf Z0 (endRef .head A) (.node p))
          (startRef B .head) (.node p) with
        size := Z0.size - (getPiece c p).size + (getPiece c p).size } :
        PieceChain) := ⟨_, rfl⟩
  rw [← hCF]
  refine Eq.trans (@contents_congr CF _ rfl rfl rfl) ?_
  have hrepZ : chainRep Z0 (A ++ [c.pieces.length, c.pieces.length + 1,
      c.pieces.length + 2] ++ B) = true := by
    rw [hZ0]
    refine chainRep_congr ?_ ?_ ?_ hrepW <;> rfl
  obtain ⟨hZnp, hZpp, _, _⟩ := chainRep_parts hrepZ
  have hassoc : A ++ [c.pieces.length, c.pieces.length + 1,
      c.pieces.length + 2] ++ B =
      A ++ ([c.pieces.length, c.pieces.length + 1,
        c.pieces.length + 2] ++ B) := List.append_assoc _ _ _
  have hZnpR := hZnp
  rw [hassoc] at hZnpR
  have hZppR := hZpp
  rw [hassoc] at hZppR
  have hAn := ((nextPath_append Z0 A .head .head
    ([c.pieces.length, c.pieces.length + 1, c.pieces.length + 2] ++ B)).mp
    hZnpR).1
  have hAp := ((prevPath_append Z0 A .head .head
    ([c.pieces.length, c.pieces.length + 1, c.pieces.length + 2] ++ B)).mp
    hZppR).1
  have hBn : ∀ b0 B2, B = b0 :: B2 →
      nextPath Z0 (.node b0) B2 .head = true := by
    intro b0 B2 hB
    have h2 := ((nextPath_append Z0
      (A ++ [c.pieces.length, c.pieces.length + 1, c.pieces.length + 2])
      .head .head B).mp hZnp).2
    rw [hB] at h2
    exact h2
  have hBp : ∀ b0 B2, B = b0 :: B2 →
      prevPath Z0 (.node b0) B2 .head = true := by
    intro b0 B2 hB
    have h2 := ((prevPath_append Z0
      (A ++ [c.pieces.length, c.pieces.length + 1, c.pieces.length + 2])
      .head .head B).mp hZpp).2
    rw [hB] at h2
    exact h2
  have hN : ∀ n0 N2, [p] = n0 :: N2 →
      getPrevOf Z0 (.node n0) = endRef .head A ∧
      nextPath Z0 (.node n0) N2 (startRef B .head) = true ∧
      prevLinks Z0 n0 N2 := by
    intro n0 N2 hpN
    injection hpN with h1 h2
    subst h1
    subst h2
    refine ⟨?_, ?_, trivial⟩
    · show (getPiece Z0 p).prev = _
      rw [hgZp]
      exact hbefore
    · exact decide_eq_true (show getNextOf Z0 (.node p) = startRef B .head from
        by show (getPiece Z0 p).next = _; rw [hgZp]; exact hafter)
  have hndF : (A ++ [p] ++ B).Nodup := by
    rw [show A ++ [p] ++ B = A ++ p :: B from by simp]
    exact hndO
  have hbwF : ∀ i ∈ A ++ [p] ++ B, i < Z0.pieces.length := by
    intro i hi
    rw [hZplen]
    have h2 : i ∈ A ++ p :: B := by
      rw [show A ++ p :: B = A ++ [p] ++ B from by simp]
      exact hi
    have := hbnd i h2
    omega
  have hZblocksD : Z0.blocks = D := by
    rw [hZ0]
    show W0.blocks = D
    exact hW0blocks
  have hbytes_old : ∀ j, j ∈ A ++ p :: B →
      pieceBytes Z0 j = pieceBytes c j := by
    intro j hj
    have hjlt : j < c.pieces.length := hbnd j hj
    have hgf := hX0old j hjlt
    have hgj : getPiece Z0 j = getPiece Xd j := by
      rw [hgZ, hgW _ (by omega)]
    refine @pieceBytes_fields_stable c Z0 j s ?_ ?_ ?_ ?_ ?_
    · rw [hgj, hgXd]; exact hgf.1
    · rw [hgj, hgXd]; exact hgf.2.1
    · rw [hgj, hgXd]; exact hgf.2.2
    · left
      rw [hZblocksD]
      rcases hDor with h | h
      · rw [h]
      · rw [h]
        exact getD_append_left _ _ _ _ (boundsOk_mem hbounds hj).1
    · exact (boundsOk_mem hbounds hj).2
  have hbytesA : ∀ j ∈ A, pieceBytes Z0 j = pieceBytes c j := fun j hj =>
    hbytes_old j (List.mem_append.mpr (Or.inl hj))
  have hbytesB : ∀ j ∈ B, pieceBytes Z0 j = pieceBytes c j := fun j hj =>
    hbytes_old j (List.mem_append.mpr (Or.inr (List.mem_cons_of_mem p hj)))
  obtain ⟨hFrep, hFcont⟩ := splice_state_spec2 c Z0 CF A B [p]
    (endRef .head A) (startRef B .head) (.node p) (.node p)
    (startRef ([c.pieces.length, c.pieces.length + 1,
      c.pieces.length + 2] ++ B) .head)
    (startRef ([c.pieces.length, c.pieces.length + 1,
      c.pieces.length + 2] ++ B) .head)
    (Z0.size - (getPiece c p).size + (getPiece c p).size)
    rfl rfl rfl rfl hCF hndF hbwF hAn hAp hBn hBp hN hbytesA hbytesB
  rw [hFcont, contents_of_chainRep hrep, List.map_append, List.flatten_append]
  have hpb : pieceBytes Z0 p = pieceBytes c p :=
    hbytes_old p (List.mem_append.mpr (Or.inr (List.mem_cons_self p B)))
  simp [hpb]

/-- C5: for every chain state satisfying the chain invariant with no pending
(uncommitted) changes, every offset `o ≤ size`, and every non-empty byte
string `s`, performing `insert(o, s)`, then `delete(o, |s|)`, then `commit`,
then `undo` yields contents equal to the contents before the insert. -/
theorem insert_delete_commit_undo_roundtrip (c : PieceChain) (o : Nat)
    (s : List Nat) (hinv : ChainInv c) (hpend : c.pendingChanges = [])
    (ho : o ≤ c.size) (hs : s ≠ []) :
    (piece_chain_insert c o s).1 = true ∧
    contents (piece_chain_undo
      (piece_chain_commit
        (piece_chain_delete (piece_chain_insert c o s).2 o s.length).2).2).2.1 =
      contents c := by
  obtain ⟨ids, hrep, hsz, hbounds, hcok, hrne, hrlt⟩ := hinv
  have ho' : ¬ (o > c.size) := by omega
  rcases Nat.lt_or_ge o c.size with hlt | hge
  · obtain ⟨p, po, A, B, hfindP, hids, hsumA, hlt2, hpo⟩ :=
      piece_find_spec hrep hsz hlt
    subst hids
    have hfind : insert_find c o = some (some p, po) := by
      unfold insert_find
      rw [hfindP]
    by_cases hpo0 : po = 0
    · refine roundtrip_single c o s A (p :: B) (some p) po
        (getPiece (revision_purge c) p).prev (.node p)
        hrep hsz hbounds hcok hpend hrne hrlt hs (by omega) ?_ rfl hfind ?_ ho'
      · rw [getPiece_congr (revision_purge_pieces c)]
        exact (chainRep_hinges hrep).1
      · rw [hpo0]
        exact insert_slow_shape_pre _ o s p
    · exact roundtrip_mid c o s A B p po hrep hsz hbounds hcok hpend hrne hrlt
        hs (by omega) hpo0 (by omega) hfind ho'
  · have ho2 : o = c.size := by omega
    have hfnone : piece_find c o = none := by
      rw [ho2]
      exact piece_find_at_size hrep hsz
    cases ids with
    | nil =>
      have hhn : c.headNext = .head := chainRep_headNext hrep
      have hfind : insert_find c o = some (none, 0) := by
        unfold insert_find
        rw [hfnone]
        show (if c.headNext = .head then some (none, 0)
          else if o = c.size then
            match c.headPrev with
            | .node j => some (some j, (getPiece c j).size)
            | .head => none
          else none) = some (none, 0)
        rw [if_pos hhn]
      refine roundtrip_single c o s [] [] none 0 .head .head
        hrep hsz hbounds hcok hpend hrne hrlt hs ?_ rfl rfl hfind
        (insert_slow_shape_empty _ o s) ho'
      have h0 : c.size = 0 := by
        rw [hsz, sumS_nil]
      rw [sumS_nil]
      omega
    | cons i0 tl =>
      rcases hql0 : (i0 :: tl).getLast? with _ | q
      · simp at hql0
      · have hsplit : (i0 :: tl).dropLast ++ [q] = i0 :: tl :=
          dropLast_append_of_getLast? hql0
        have hrep2 : chainRep c ((i0 :: tl).dropLast ++ [q]) = true := by
          rw [hsplit]
          exact hrep
        have hhp : c.headPrev = .node q := by
          rw [chainRep_headPrev hrep]
          exact endRef_of_getLast _ hql0
        have hhnne : ¬ (c.headNext = .head) := by
          rw [show c.headNext = .node i0 from chainRep_headNext hrep]
          intro hcon
          exact NodeRef.noConfusion hcon
        have hfind : insert_find c o = some (some q, (getPiece c q).size) := by
          unfold insert_find
          rw [hfnone]
          show (if c.headNext = .head then some (none, 0)
            else if o = c.size then
              match c.headPrev with
              | .node j => some (some j, (getPiece c j).size)
              | .head => none
            else none) = some (some q, (getPiece c q).size)
          rw [if_neg hhnne, if_pos ho2, hhp]
        have hhinge := chainRep_hinges hrep2
        have hszsplit : c.size = sumS c ((i0 :: tl).dropLast) +
            (getPiece c q).size := by
          have e : sumS c ((i0 :: tl).dropLast ++ [q]) =
              sumS c ((i0 :: tl).dropLast) + (getPiece c q).size := by
            rw [sumS_append, sumS_cons, sumS_nil]
            omega
          rw [hsz, ← e, hsplit]
        by_cases hq0 : (getPiece c q).size = 0
        · refine roundtrip_single c o s ((i0 :: tl).dropLast) [q] (some q)
            (getPiece c q).size (getPiece (revision_purge c) q).prev (.node q)
            hrep2 ?_ ?_ ?_ hpend hrne hrlt hs ?_ ?_ rfl hfind ?_ ho'
          · rw [hsplit]
            exact hsz
          · rw [hsplit]
            exact hbounds
          · rw [hsplit]
            exact hcok
          · omega
          · rw [getPiece_congr (revision_purge_pieces c)]
            exact hhinge.1
          · rw [hq0]
            exact insert_slow_shape_pre _ o s q
        · refine roundtrip_single c o s (i0 :: tl) [] (some q)
            (getPiece c q).size (.node q) (getPiece (revision_purge c) q).next
            ?_ ?_ ?_ ?_ hpend hrne hrlt hs ?_ ?_ ?_ hfind ?_ ho'
          · rw [List.append_nil]
            exact hrep
          · rw [List.append_nil]
            exact hsz
          · rw [List.append_nil]
            exact hbounds
          · rw [List.append_nil]
            exact hcok
          · omega
          · exact (endRef_of_getLast _ hql0).symm
          · rw [getPiece_congr (revision_purge_pieces c)]
            exact hhinge.2
          · exact insert_slow_shape_post _ o s q (getPiece c q).size
              (by rw [getPiece_congr (revision_purge_pieces c)]) hq0

/-- Witness for `insert_delete_commit_undo_roundtrip`: inserting one byte
into the empty chain, deleting it again, committing and undoing restores the
empty contents. -/
theorem insert_delete_commit_undo_roundtrip_witness :
    (piece_chain_insert piece_chain_open_empty 0 [104]).1 = true ∧
    contents (piece_chain_undo
      (piece_chain_commit
        (piece_chain_delete (piece_chain_insert piece_chain_open_empty 0
          [104]).2 0 ([104] : List Nat).length).2).2).2.1 =
      contents piece_chain_open_empty :=
  insert_delete_commit_undo_roundtrip piece_chain_open_empty 0 [104]
    ⟨[], by decide, by decide, by decide, by decide, by decide, by decide⟩
    rfl (by decide) (by decide)

/-- The `size_t` wraparound of the deletion end offset, reproduced by the
model: on the committed 4-byte buffer "abcd", `delete(1, 2^64 - 1)` wraps the
end offset `1 + (2^64 - 1)` to `0`, so the end of the range is found at
offset 0 and the call succeeds with contents "aabcd" (the first byte
duplicated) instead of clamping the range to the end of the buffer. -/
theorem delete_wrap_duplicates :
    (piece_chain_delete stABCD 1 (2 ^ 64 - 1)).1 = true ∧
    contents (piece_chain_delete stABCD 1 (2 ^ 64 - 1)).2 =
      [97, 97, 98, 99, 100] ∧
    contents stABCD = [97, 98, 99, 100] := by
  refine ⟨?_, ?_, ?_⟩ <;> decide
